import Mathlib

/-!
# ujihttp: the benchmark engine and its histograms

A shallow embedding of `pkg/histogram/histogram.go` and of the worker loop of
`pkg/benchmark/benchmark.go`.

Conventions of the embedding.

* `time.Duration` is an `Int` number of nanoseconds.
* `int64` counters that only ever grow by one per request (`Count`, the request
  counts of the buckets, `totalReq`, ...) are unbounded `Int`s, a run cannot
  reach `2^63` of them; the sum of durations taken by `timeSlice.avg` is
  wrapped to 64 bits, because it can leave the `int64` range.
* A finite `float64` is the rational number it stands for. Every `float64`
  operation of `AddSize`, of `Duration.Seconds` and of `timeSlice.stdDev`
  (conversion, product, quotient, sum, square root) is the exact operation
  followed by rounding to the nearest binary64 number, ties going to the even
  significand (`Binary64.nearest`, `Binary64.sqrt`); a constant such as `0.97`
  is the binary64 number nearest to it. The rank of `timeSlice.percentile`,
  `int(float64(n)*p + 0.5) - 1`, is evaluated in exact arithmetic.
* The mutex, the ticker and the start time of a `Sample` carry no data the
  functions below read, and are left out.
* `fmt.Sprintf` is embedded verb by verb: `%d` is the decimal of the integer,
  and `%.Nf` is only ever applied to the `float32` of an integer quotient, whose
  value is an integer.
* The worker loop is embedded twice: as a sequential loop body (`loopBody`), and,
  for the shared counter `totalReq` alone, as workers whose reads and writes of
  the variable are interleaved by a schedule.
-/

namespace Binary64

/-! ### Binary64 arithmetic

A finite `float64` is the rational number it stands for. Every operation of the
source on `float64` values is the exact operation followed by rounding to the
nearest binary64 number, ties going to the even significand (`nearest`); the
square root is rounded the same way (`sqrt`). The exponent range is not
bounded: the values met here are far from overflow and from the subnormal
numbers. -/

/-- The integer nearest to `y`, ties going to the even one. -/
def halfEven (y : ℚ) : ℤ :=
  if y - ⌊y⌋ < 1 / 2 then ⌊y⌋
  else if 1 / 2 < y - ⌊y⌋ then ⌊y⌋ + 1
  else if ⌊y⌋ % 2 = 0 then ⌊y⌋ else ⌊y⌋ + 1

/-- The spacing of the binary64 numbers in the binade of `x > 0`. -/
def ulp (x : ℚ) : ℚ := (2 : ℚ) ^ (Int.log 2 x - 52)

/-- The binary64 number nearest to `x > 0` (ties to the even significand). -/
def nearestPos (x : ℚ) : ℚ := (halfEven (x / ulp x) : ℚ) * ulp x

/-- The binary64 number nearest to `x`. -/
def nearest (x : ℚ) : ℚ :=
  if x = 0 then 0 else if x < 0 then -nearestPos (-x) else nearestPos x

/-- The exponent of the spacing of the binary64 numbers around the square root
of `x > 0`. -/
def sqrtExp (x : ℚ) : ℤ := Int.log 2 x / 2 - 52

/-- The number `x > 0` scaled so that its square root is a significand. -/
def sqrtScaled (x : ℚ) : ℚ := x / ((2 : ℚ) ^ sqrtExp x * (2 : ℚ) ^ sqrtExp x)

/-- The significand of the binary64 number nearest to the square root of
`x > 0`: the integer nearest to the square root of `sqrtScaled x`. -/
def sqrtSig (x : ℚ) : ℕ :=
  let q := sqrtScaled x
  let r := Nat.sqrt ⌊q⌋₊
  if q < ((r : ℚ) + 1 / 2) ^ 2 then r
  else if ((r : ℚ) + 1 / 2) ^ 2 < q then r + 1
  else if r % 2 = 0 then r else r + 1

/-- The binary64 number nearest to the square root of `x`: `math.Sqrt(x)` for
`x ≥ 0`. -/
def sqrt (x : ℚ) : ℚ :=
  if x ≤ 0 then 0 else (sqrtSig x : ℚ) * (2 : ℚ) ^ sqrtExp x

end Binary64

namespace Histogram

open Binary64 (nearest)

/-- The five buckets `P1, P10, P50, P97, P99` of `MetricBodySize` and of
`MetricReqSec`. -/
structure Metric where
  P1 : Int
  P10 : Int
  P50 : Int
  P97 : Int
  P99 : Int
deriving DecidableEq, Repr

/-- The type `timeSlice` of the source: `[]time.Duration`. -/
abbrev timeSlice := List Int

/-- The `Sample` struct. `Times` holds the elements of the slice and
`TimesCap` the capacity of its backing array (a slice expression `s[:n]`
is legal up to the capacity, not the length). -/
structure Sample where
  TimeSleep : Int
  Count : Int
  Times : timeSlice
  TimesCap : Nat
  MetricBodySize : Metric
  MetricReqSec : Metric
deriving DecidableEq, Repr

/-- What `New()` returns: the zero value of every field that is modelled
(`Times` is the nil slice, of capacity 0). -/
def New : Sample :=
  { TimeSleep := 0, Count := 0, Times := [], TimesCap := 0,
    MetricBodySize := ⟨0, 0, 0, 0, 0⟩, MetricReqSec := ⟨0, 0, 0, 0, 0⟩ }

/-- The method `SetTimeSleep(d)`. -/
def SetTimeSleep (s : Sample) (d : Int) : Sample :=
  { s with TimeSleep := d }

/-- The capacity of `append(s, t)` for a slice of length `len` and capacity
`cap`: unchanged while there is room, otherwise what the runtime's growth
rule `grow` asks for, and never less than the new length. -/
def appendCap (grow : Nat → Nat) (len cap : Nat) : Nat :=
  if len < cap then cap else max (len + 1) (grow cap)

/-- The method `AddTime(t)`: append `t` to `Times`, add one to `Count`.
The growth rule of the runtime's `append` is the parameter `grow`. -/
def AddTime (grow : Nat → Nat) (s : Sample) (t : Int) : Sample :=
  { s with
    Times := s.Times ++ [t],
    TimesCap := appendCap grow s.Times.length s.TimesCap,
    Count := s.Count + 1 }

/-- The method `Duration.Seconds()` of the standard library:
`sec := d / Second; nsec := d % Second; return float64(sec) + float64(nsec)/1e9`,
with the truncating division and remainder of `int64`. The two conversions are
exact for every `int64` duration (`|sec| < 2^34`, `|nsec| < 10^9`); the division
and the sum are rounded. -/
def Seconds (t : Int) : ℚ :=
  nearest ((Int.tdiv t 1000000000 : ℚ) + nearest ((Int.tmod t 1000000000 : ℚ) / 1000000000))

/-- The method `AddSize(t, size)`. The branches are those of the source, in its
order and with its tests; the `P97` branch tests the count of `P50`. The cut
points are binary64 values: the conversion `float64(s.TimeSleep)`, the constant
(`0.01` is the binary64 number nearest to 1/100) and the product or quotient
are each rounded. -/
def AddSize (s : Sample) (t : Int) (size : Int) : Sample :=
  let s := { s with Count := s.Count + 1 }
  let p1 : ℚ := nearest (nearest (s.TimeSleep : ℚ) * nearest 0.01)
  let p10 : ℚ := nearest (nearest (s.TimeSleep : ℚ) * nearest 0.10)
  let p50 : ℚ := nearest (nearest (s.TimeSleep : ℚ) / 2)
  let p97 : ℚ := nearest (nearest (s.TimeSleep : ℚ) * nearest 0.97)
  let p99 : ℚ := nearest (nearest (s.TimeSleep : ℚ) * nearest 0.99)
  let r := s.MetricReqSec
  let b := s.MetricBodySize
  if Seconds t ≤ p1 then
    { s with MetricReqSec := { r with P1 := r.P1 + 1 },
             MetricBodySize := { b with P1 := size } }
  else if Seconds t > p1 ∧ Seconds t ≤ p10 then
    let r := if r.P10 = 0 then { r with P10 := r.P1 } else r
    { s with MetricReqSec := { r with P10 := r.P10 + 1 },
             MetricBodySize := { b with P10 := size } }
  else if Seconds t > p10 ∧ Seconds t ≤ p50 then
    let r := if r.P50 = 0 then { r with P50 := r.P10 } else r
    { s with MetricReqSec := { r with P50 := r.P50 + 1 },
             MetricBodySize := { b with P50 := size } }
  else if Seconds t > p50 ∧ Seconds t ≤ p97 then
    let r := if r.P50 = 0 then { r with P97 := r.P50 } else r
    { s with MetricReqSec := { r with P97 := r.P97 + 1 },
             MetricBodySize := { b with P97 := size } }
  else if Seconds t > p97 ∧ Seconds t ≤ p99 then
    let r := if r.P99 = 0 then { r with P99 := r.P97 } else r
    { s with MetricReqSec := { r with P99 := r.P99 + 1 },
             MetricBodySize := { b with P99 := size } }
  else s

/-- Run-time panics of the Go code that the embedding can reach. -/
inductive Panic where
  | indexOutOfRange
  | sliceBoundsOutOfRange
  | makesliceLenOutOfRange
  | integerDivideByZero
deriving DecidableEq, Repr

/-- The index expression `ts[i]` with an `int` index: a panic outside
`0 ≤ i < len(ts)`. -/
def index (ts : timeSlice) (i : Int) : Except Panic Int :=
  if 0 ≤ i ∧ i < ts.length then .ok (ts.getD i.toNat 0)
  else .error .indexOutOfRange

/-- The slice expression `ts[:n]` on a slice with elements `ts` and a backing
array of capacity `cap`: a panic outside `0 ≤ n ≤ cap`; the slots between the
length and the capacity have never been written and hold zero. -/
def sliceTo (ts : timeSlice) (cap : Nat) (n : Int) : Except Panic timeSlice :=
  if 0 ≤ n ∧ n ≤ cap then
    .ok ((ts ++ List.replicate (cap - ts.length) 0).take n.toNat)
  else .error .sliceBoundsOutOfRange

/-- The method `Duration.Milliseconds()` of the standard library: `int64(d) / 1e6`,
a division that truncates toward zero. -/
def Milliseconds (d : Int) : Int := Int.tdiv d 1000000

/-- Two's-complement wrap of an integer to the `int64` range. -/
def wrap64 (x : Int) : Int := (x + 2 ^ 63) % 2 ^ 64 - 2 ^ 63

/-- The conversion `int(x)` of a `float64`: truncation toward zero. -/
def truncToInt (x : ℚ) : Int := if 0 ≤ x then ⌊x⌋ else ⌈x⌉

/-- The method `timeSlice.avg`: the `int64` sum of the samples, accumulated
in the order of the slice and wrapping as `total += t` does, divided by the
length with Go's truncating division (a panic on the empty slice); `int` is
taken to be 64 bits wide. -/
def timeSlice.avg (ts : timeSlice) : Except Panic Int :=
  let total := ts.foldl (fun total t => wrap64 (total + t)) 0
  if ts.length = 0 then .error .integerDivideByZero
  else .ok (Int.tdiv total ts.length)

/-- The `float64` sum `s` of `timeSlice.stdDev` after its loop, for the average
`m`: each turn adds `math.Pow(float64(m-t), 2)`, the difference being an
`int64` difference, its conversion, its square and the sum being rounded. -/
def squaredDeviations (m : Int) (ts : timeSlice) : ℚ :=
  ts.foldl
    (fun s t => nearest (s + nearest (nearest (wrap64 (m - t) : ℚ) * nearest (wrap64 (m - t) : ℚ))))
    0

/-- The result of `timeSlice.stdDev` once the average `m` is known:
`msq := s / float64(ts.Len())`, then `time.Duration(math.Sqrt(msq))`. -/
def stdDevFrom (m : Int) (ts : timeSlice) : Int :=
  truncToInt
    (Binary64.sqrt (nearest (squaredDeviations m ts / nearest ((ts.length : Int) : ℚ))))

/-- The method `timeSlice.stdDev` (a panic on the empty slice, in `avg`). -/
def timeSlice.stdDev (ts : timeSlice) : Except Panic Int :=
  (timeSlice.avg ts).map (fun m => stdDevFrom m ts)

/-- The method `timeSlice.min`: `ts[0]`. -/
def timeSlice.min (ts : timeSlice) : Except Panic Int := index ts 0

/-- The method `timeSlice.max`: `ts[ts.Len()-1]`. -/
def timeSlice.max (ts : timeSlice) : Except Panic Int :=
  index ts ((ts.length : Int) - 1)

/-- The method `timeSlice.percentile(p)`:
`tp := int(float64(ts.Len())*p+0.5) - 1`, the sample `ts[0]` when `tp < 0` and
`ts[tp]` otherwise, in milliseconds. -/
def timeSlice.percentile (ts : timeSlice) (p : ℚ) : Except Panic Int :=
  let tp : Int := truncToInt ((ts.length : ℚ) * p + 0.5) - 1
  if tp < 0 then
    (index ts 0).map Milliseconds
  else
    (index ts tp).map Milliseconds

/-- The `Time` part of the `Metrics` struct. `Avg`, `StdDev`, `Max`, `Min` are
durations in nanoseconds, the percentiles are whole milliseconds. -/
structure Metrics where
  Avg : Int
  P1 : Int
  P10 : Int
  P50 : Int
  P97 : Int
  P99 : Int
  StdDev : Int
  Max : Int
  Min : Int
deriving DecidableEq, Repr

/-- What `sort.Sort(times)` leaves in `times`: the ascending arrangement of its
elements, which is unique for integers. -/
def sortTimes (ts : timeSlice) : timeSlice := List.insertionSort (· ≤ ·) ts

/-- The method `CalcLatency`. The result is `none` when the method returns at
its guard without computing anything, and `some m` with the metrics it hands
to `cliPrintLatency` otherwise. The statements are those of the source, in its
order: `make`, the slice expression and `copy`, `sort.Sort`, then the fields of
the metrics. -/
def CalcLatency (s : Sample) : Except Panic (Option Metrics) :=
  if s.Count = 0 then .ok none
  else if s.Count < 0 then .error .makesliceLenOutOfRange
  else do
    let src ← sliceTo s.Times s.TimesCap s.Count
    let times := sortTimes src
    let avg ← timeSlice.avg times
    let mn ← timeSlice.min times
    let mx ← timeSlice.max times
    let sd ← timeSlice.stdDev times
    let p1 ← timeSlice.percentile times 0.01
    let p10 ← timeSlice.percentile times 0.10
    let mid ← index times ((times.length : Int) / 2)
    let p97 ← timeSlice.percentile times 0.97
    let p99 ← timeSlice.percentile times 0.99
    pure (some { Avg := avg, Min := mn, Max := mx, StdDev := sd, P1 := p1, P10 := p10,
                 P50 := Milliseconds mid, P97 := p97, P99 := p99 })

/-! ### Definitions used to state the properties -/

/-- The five cut points of the declared duration `d` as `AddSize` computes them,
in binary64: `float64(d)*0.01`, `float64(d)*0.10`, `float64(d)/2`,
`float64(d)*0.97`, `float64(d)*0.99`. -/
def cutPoint (d : Int) (i : Nat) : ℚ :=
  match i with
  | 0 => nearest (nearest (d : ℚ) * nearest 0.01)
  | 1 => nearest (nearest (d : ℚ) * nearest 0.10)
  | 2 => nearest (nearest (d : ℚ) / 2)
  | 3 => nearest (nearest (d : ℚ) * nearest 0.97)
  | _ => nearest (nearest (d : ℚ) * nearest 0.99)

/-- The five cut points of the declared duration `d` as exact numbers, in
seconds: `0.01d, 0.10d, 0.50d, 0.97d, 0.99d`. -/
def exactCut (d : Int) (i : Nat) : ℚ :=
  match i with
  | 0 => (d : ℚ) * 0.01
  | 1 => (d : ℚ) * 0.10
  | 2 => (d : ℚ) * 0.50
  | 3 => (d : ℚ) * 0.97
  | _ => (d : ℚ) * 0.99

/-- The position (0 to 4 for `P1` to `P99`, 5 for none) of the first cut point
of the duration `d` that the elapsed time `t`, read by `Seconds`, does not
exceed. -/
def bucketOf (d : Int) (t : Int) : Nat :=
  if Seconds t ≤ cutPoint d 0 then 0
  else if Seconds t ≤ cutPoint d 1 then 1
  else if Seconds t ≤ cutPoint d 2 then 2
  else if Seconds t ≤ cutPoint d 3 then 3
  else if Seconds t ≤ cutPoint d 4 then 4
  else 5

/-- The request counts after a call of `AddSize` that lands in bucket `k`. -/
def bumpReq (k : Nat) (r : Metric) : Metric :=
  match k with
  | 0 => { r with P1 := r.P1 + 1 }
  | 1 => { r with P10 := (if r.P10 = 0 then r.P1 else r.P10) + 1 }
  | 2 => { r with P50 := (if r.P50 = 0 then r.P10 else r.P50) + 1 }
  | 3 => { r with P97 := (if r.P50 = 0 then r.P50 else r.P97) + 1 }
  | 4 => { r with P99 := (if r.P99 = 0 then r.P97 else r.P99) + 1 }
  | _ => r

/-- A fresh `Sample` after `SetTimeSleep(d)` and the calls `AddSize(t, size)` for
the pairs `(t, size)` of `calls`, in order. -/
def run (d : Int) (calls : List (Int × Int)) : Sample :=
  calls.foldl (fun s c => AddSize s c.1 c.2) (SetTimeSleep New d)

/-- The request counts in bucket order. -/
def counts (m : Metric) : List Int := [m.P1, m.P10, m.P50, m.P97, m.P99]

/-- The counts of the buckets that have received traffic (a non-zero count) are
non-decreasing in bucket order. -/
def trafficNonDecreasing (m : Metric) : Prop :=
  ((counts m).filter (fun c => c ≠ 0)).Sorted (· ≤ ·)

/-- The count of `P10`, of `P50` and of `P99`, once it is non-zero, is at least
the count of the bucket right before it (`P1`, `P10`, `P97`). -/
def adjacentCarried (m : Metric) : Prop :=
  (m.P10 ≠ 0 → m.P1 ≤ m.P10) ∧ (m.P50 ≠ 0 → m.P10 ≤ m.P50) ∧
  (m.P99 ≠ 0 → m.P97 ≤ m.P99)

/-- The invariant of a run whose calls have reached bucket `k` at most: no count
is negative, the buckets after `k` are untouched, and `adjacentCarried` holds. -/
def stageInv (k : Nat) (m : Metric) : Prop :=
  (0 ≤ m.P1 ∧ 0 ≤ m.P10 ∧ 0 ≤ m.P50 ∧ 0 ≤ m.P97 ∧ 0 ≤ m.P99) ∧
  ((k < 1 → m.P10 = 0) ∧ (k < 2 → m.P50 = 0) ∧ (k < 3 → m.P97 = 0) ∧
    (k < 4 → m.P99 = 0)) ∧
  adjacentCarried m

/-- A fresh `Sample` after the calls `AddTime(t)` for the samples `ts`, in order. -/
def recorded (grow : Nat → Nat) (ts : List Int) : Sample :=
  ts.foldl (AddTime grow) New

/-- The rank of the percentile `p` among `n` sorted samples, in the words of the
specification: `max(0, floor(n·p + 0.5) − 1)`. -/
def rank (n : Nat) (p : ℚ) : Int := max 0 (⌊(n : ℚ) * p + 0.5⌋ - 1)

/-- The metrics `CalcLatency` computes from the sorted snapshot `sorted`, field
by field: the closed form that `CalcLatency` is proved to return. -/
def metricsOf (sorted : timeSlice) : Metrics :=
  { Avg := Int.tdiv (wrap64 sorted.sum) sorted.length,
    Min := sorted.getD 0 0,
    Max := sorted.getD (sorted.length - 1) 0,
    StdDev := stdDevFrom (Int.tdiv (wrap64 sorted.sum) sorted.length) sorted,
    P1 := Milliseconds (sorted.getD (rank sorted.length 0.01).toNat 0),
    P10 := Milliseconds (sorted.getD (rank sorted.length 0.10).toNat 0),
    P50 := Milliseconds (sorted.getD (sorted.length / 2) 0),
    P97 := Milliseconds (sorted.getD (rank sorted.length 0.97).toNat 0),
    P99 := Milliseconds (sorted.getD (rank sorted.length 0.99).toNat 0) }

/-! ### The renderers of the two tables -/

/-- The nearest number with a 24-bit significand to the natural number `a`,
ties going to the even significand: the magnitude of `float32(a)`. -/
def roundTo24 (a : Nat) : Nat :=
  if a < 2 ^ 24 then a
  else
    let sh := Nat.log2 a - 23
    let q := a / 2 ^ sh
    let r := a % 2 ^ sh
    let half := 2 ^ (sh - 1)
    let q' := if r > half ∨ (r = half ∧ q % 2 = 1) then q + 1 else q
    q' * 2 ^ sh

/-- The conversion `float32(k)` of an `int64`: the value of the result, which is
an integer. -/
def float32OfInt (k : Int) : Int :=
  if k < 0 then -(roundTo24 k.natAbs : Int) else (roundTo24 k.natAbs : Int)

/-- The verb `%.Nf` of `fmt.Sprintf` applied to a `float32` whose value is the
integer `v`: the decimal of `v`, a point, and `prec` zeros. -/
def fmtFixed (prec : Nat) (v : Int) : String :=
  toString v ++ "." ++ String.mk (List.replicate prec '0')

/-- The function `countDuration`: `"%dms"` of `c` below 1000, else `"%.2fs"` of
`float32(c/1000)`, the division being the integer division of `int64`. -/
def countDuration (c : Int) : String :=
  if c < 1000 then toString c ++ "ms"
  else if c ≥ 1000 then fmtFixed 2 (float32OfInt (Int.tdiv c 1000)) ++ "s"
  else ""

/-- The function `countRequest` of `histogram.go`. -/
def countRequest (c : Int) : String :=
  if c < 1000 then toString c
  else if c ≥ 1000 then toString (Int.tdiv c 1000) ++ "k"
  else ""

/-- The function `countReadBytes`: `"%.1f MB"` of `float32(s/1000000)`, `"%d KB"`
of `s/1000`, or `"%d B"` of `s`. -/
def countReadBytes (s : Int) : String :=
  if s ≥ 1000000 then fmtFixed 1 (float32OfInt (Int.tdiv s 1000000)) ++ " MB"
  else if s ≥ 1000 ∧ s < 1000000 then toString (Int.tdiv s 1000) ++ " KB"
  else toString s ++ " B"

/-! ### Further definitions used to state the properties -/

/-- The body sizes after a call of `AddSize` that lands in bucket `k` with the
size `size`: the size of bucket `k` is `size`, the others are as they were. -/
def setBody (k : Nat) (size : Int) (b : Metric) : Metric :=
  match k with
  | 0 => { b with P1 := size }
  | 1 => { b with P10 := size }
  | 2 => { b with P50 := size }
  | 3 => { b with P97 := size }
  | 4 => { b with P99 := size }
  | _ => b

/-- The exact sum of the squared deviations of the samples from `m`. -/
def sumSqDev (m : Int) (ts : timeSlice) : Int := (ts.map (fun t => (m - t) ^ 2)).sum

end Histogram

namespace Benchmark

open Histogram

/-- The error value returned by `PipelineClient.DoTimeout`: the sentinel
`fasthttp.ErrTimeout`, or any other error. -/
inductive TransportError where
  | ErrTimeout
  | other
deriving DecidableEq, Repr

/-- What one call of `c.DoTimeout(req, resp, ...)` yields: an error, or a
response with its status code, the length of its body and the lengths of the
key and of the value of each header `VisitAll` visits. -/
inductive Outcome where
  | failed (e : TransportError)
  | response (status : Int) (bodyLen : Nat) (headers : List (Nat × Nat))
deriving DecidableEq, Repr

/-- One attempt of a worker, with the clock made explicit: the instant the
request is issued, the instant `DoTimeout` has returned and
`latency.AddTime(time.Since(start))` reads the clock, the instant the argument
`time.Since(start)` of `reqBytes.AddSize` reads it, and the outcome. -/
structure Attempt where
  issued : Int
  returned : Int
  sized : Int
  outcome : Outcome
deriving DecidableEq, Repr

/-- The package-level variables of `benchmark.go` that the loop writes, and
the two histograms of `callHTTP`. -/
structure State where
  timeout : Int
  reqError : Int
  size : Int
  start : Int
  totalReq : Int
  respOK : Int
  respNotOK : Int
  latency : Sample
  reqBytes : Sample
deriving DecidableEq, Repr

/-- The state in which the workers start: the counters at their zero value,
`start = time.Now()`, `latency = histogram.New()` and
`reqBytes = histogram.New().SetTimeSleep(rb.duration)`. -/
def initState (now : Int) (duration : Int) : State :=
  { timeout := 0, reqError := 0, size := 0, start := now, totalReq := 0,
    respOK := 0, respNotOK := 0,
    latency := New, reqBytes := SetTimeSleep New duration }

/-- The function `time.Since(start)` read at the instant `now`. -/
def since (st : State) (now : Int) : Int := now - st.start

/-- One iteration of the `for` loop of a worker in `callHTTP`. -/
def loopBody (grow : Nat → Nat) (st : State) (a : Attempt) : State :=
  let st := { st with totalReq := st.totalReq + 1 }
  match a.outcome with
  | .failed e =>
    let st := { st with latency := AddTime grow st.latency (since st a.returned) }
    let st := { st with reqError := st.reqError + 1 }
    if e = TransportError.ErrTimeout then { st with timeout := st.timeout + 1 } else st
  | .response status bodyLen headers =>
    let st := { st with latency := AddTime grow st.latency (since st a.returned) }
    let st := { st with size := st.size + bodyLen }
    let st := headers.foldl (fun st kv => { st with size := st.size + ((kv.1 + kv.2 : Nat) : Int) }) st
    let st := { st with reqBytes := AddSize st.reqBytes (since st a.sized) st.size }
    if status ≥ 200 ∧ status < 300 then { st with respOK := st.respOK + 1 }
    else { st with reqError := st.reqError + 1 }

/-- The worker loop run for the attempts `as`, one after the other. -/
def runLoop (grow : Nat → Nat) (st : State) (as : List Attempt) : State :=
  as.foldl (loopBody grow) st

/-- The function `countRequest` of `benchmark.go`. -/
def countRequest (c : Int) : String :=
  if c < 1000 then toString (Int.tdiv c 1000)
  else if c ≥ 1000 then toString (Int.tdiv c 1000) ++ "k"
  else ""

/-- The function `countReadRequest` of `benchmark.go`. -/
def countReadRequest (s : Int) : String :=
  if s ≥ 1000000 then fmtFixed 1 (float32OfInt (Int.tdiv s 1000000)) ++ " MB"
  else if s ≥ 1000 ∧ s < 1000000 then fmtFixed 1 (float32OfInt (Int.tdiv s 1000)) ++ " KB"
  else toString s ++ " B"

/-! ### The workers as concurrent tasks

The statement `totalReq++` of the loop is `totalReq = totalReq + 1` on a plain
package variable: a read of the variable, then a write, with nothing that
orders them against the reads and writes of the other goroutines. An
execution is a schedule: the list of the workers that perform their next
memory access, one at a time. -/

/-- Where a worker stands in `totalReq++`: before the read, or between the
read and the write, holding the value it has read. -/
inductive IncPc where
  | idle
  | loaded (v : Int)
deriving DecidableEq, Repr

/-- A worker: the number of increments of `totalReq` it has still to perform,
and where it stands in the current one. -/
structure Worker where
  todo : Nat
  pc : IncPc
deriving DecidableEq, Repr

/-- The shared variable `totalReq` and the workers. -/
structure Racy where
  totalReq : Int
  workers : List Worker
deriving DecidableEq, Repr

/-- The next memory access of the worker `w` on the shared value `shared`: the
read (nothing when the worker has finished), or the write of the value read
plus one. -/
def access (w : Worker) (shared : Int) : Worker × Int :=
  match w.pc with
  | .idle => if w.todo = 0 then (w, shared) else ({ w with pc := .loaded shared }, shared)
  | .loaded v => ({ todo := w.todo - 1, pc := .idle }, v + 1)

/-- The worker number `i` performs its next memory access. -/
def stepWorker (st : Racy) (i : Nat) : Racy :=
  match st.workers.get? i with
  | none => st
  | some w =>
    let r := access w st.totalReq
    { totalReq := r.2, workers := st.workers.set i r.1 }

/-- The execution of a schedule. -/
def runSchedule (st : Racy) (schedule : List Nat) : Racy :=
  schedule.foldl stepWorker st

/-- The start: `totalReq = 0` and `n` workers with `k` increments each to perform. -/
def startWorkers (n k : Nat) : Racy :=
  { totalReq := 0, workers := List.replicate n { todo := k, pc := .idle } }

/-- Every worker has performed all its increments. -/
def allDone (st : Racy) : Prop :=
  ∀ w ∈ st.workers, w.todo = 0 ∧ w.pc = .idle

end Benchmark

/-! ## Binary64 rounding: monotonicity, error bound, exact values -/

namespace Binary64

theorem halfEven_le (y : ℚ) : (halfEven y : ℚ) ≤ y + 1 / 2 := by
  have h1 := Int.floor_le y
  have h2 := Int.lt_floor_add_one y
  unfold halfEven
  split_ifs with a b c
  · linarith
  · push_cast; linarith
  · linarith
  · push_cast; linarith

theorem le_halfEven (y : ℚ) : y - 1 / 2 ≤ (halfEven y : ℚ) := by
  have h1 := Int.floor_le y
  have h2 := Int.lt_floor_add_one y
  unfold halfEven
  split_ifs with a b c
  · linarith
  · push_cast; linarith
  · linarith
  · push_cast; linarith

theorem halfEven_eq {y : ℚ} {m : ℤ} (h1 : (m : ℚ) - 1 / 2 < y) (h2 : y < m + 1 / 2) :
    halfEven y = m := by
  have a := halfEven_le y
  have b := le_halfEven y
  have c : ((halfEven y : ℤ) : ℚ) < m + 1 := by linarith
  have d : (m : ℚ) - 1 < halfEven y := by linarith
  have c' : halfEven y < m + 1 := by exact_mod_cast c
  have d' : m - 1 < halfEven y := by exact_mod_cast d
  omega

theorem halfEven_intCast (n : ℤ) : halfEven (n : ℚ) = n :=
  halfEven_eq (by linarith) (by linarith)

theorem halfEven_mono {y y' : ℚ} (h : y ≤ y') : halfEven y ≤ halfEven y' := by
  have hf : ⌊y⌋ ≤ ⌊y'⌋ := Int.floor_le_floor h
  rcases lt_or_eq_of_le hf with hlt | heq
  · -- different floors
    have a : halfEven y ≤ ⌊y⌋ + 1 := by
      unfold halfEven; split_ifs <;> omega
    have b : ⌊y'⌋ ≤ halfEven y' := by
      unfold halfEven; split_ifs <;> omega
    omega
  · unfold halfEven
    rw [← heq]
    split_ifs <;> first | omega | (exfalso; linarith)

theorem two_zpow_pos (e : ℤ) : (0 : ℚ) < (2 : ℚ) ^ e := zpow_pos (by norm_num) e

theorem ulp_pos (x : ℚ) : 0 < ulp x := two_zpow_pos _

theorem zpow_log_le {x : ℚ} (hx : 0 < x) : (2 : ℚ) ^ Int.log 2 x ≤ x := by
  have := Int.zpow_log_le_self (b := 2) (by norm_num) hx
  simpa using this

theorem lt_zpow_log_succ (x : ℚ) : x < (2 : ℚ) ^ (Int.log 2 x + 1) := by
  have := Int.lt_zpow_succ_log_self (b := 2) (by norm_num) x
  simpa using this

theorem log_eq {x : ℚ} {e : ℤ} (h1 : (2 : ℚ) ^ e ≤ x) (h2 : x < (2 : ℚ) ^ (e + 1)) :
    Int.log 2 x = e := by
  have hx : 0 < x := lt_of_lt_of_le (two_zpow_pos e) h1
  have a : e ≤ Int.log 2 x := by
    rw [← Int.zpow_le_iff_le_log (by norm_num) hx]
    simpa using h1
  have b : Int.log 2 x < e + 1 := by
    rw [← Int.lt_zpow_iff_log_lt (by norm_num) hx]
    simpa using h2
  omega

theorem zpow_split (e : ℤ) : (2 : ℚ) ^ e = (2 : ℚ) ^ (52 : ℤ) * (2 : ℚ) ^ (e - 52) := by
  rw [← zpow_add₀ (by norm_num : (2 : ℚ) ≠ 0)]
  congr 1
  ring

theorem zpow_split_succ (e : ℤ) :
    (2 : ℚ) ^ (e + 1) = (2 : ℚ) ^ (53 : ℤ) * (2 : ℚ) ^ (e - 52) := by
  rw [← zpow_add₀ (by norm_num : (2 : ℚ) ≠ 0)]
  congr 1
  ring

/-- The scaled significand of `x > 0` lies in `[2^52, 2^53)`. -/
theorem scaled_bounds {x : ℚ} (hx : 0 < x) :
    (2 : ℚ) ^ (52 : ℤ) ≤ x / ulp x ∧ x / ulp x < (2 : ℚ) ^ (53 : ℤ) := by
  have hu := ulp_pos x
  have h1 := zpow_log_le hx
  have h2 := lt_zpow_log_succ x
  rw [zpow_split] at h1
  rw [zpow_split_succ] at h2
  constructor
  · rw [le_div_iff₀ hu]; exact h1
  · rw [div_lt_iff₀ hu]; exact h2

theorem halfEven_scaled_bounds {x : ℚ} (hx : 0 < x) :
    (2 : ℤ) ^ 52 ≤ halfEven (x / ulp x) ∧ halfEven (x / ulp x) ≤ (2 : ℤ) ^ 53 := by
  obtain ⟨h1, h2⟩ := scaled_bounds hx
  constructor
  · have := halfEven_mono h1
    have e : ((2 : ℚ) ^ (52 : ℤ)) = (((2 : ℤ) ^ 52 : ℤ) : ℚ) := by norm_num
    rw [e, halfEven_intCast] at this
    exact this
  · have := halfEven_mono (le_of_lt h2)
    have e : ((2 : ℚ) ^ (53 : ℤ)) = (((2 : ℤ) ^ 53 : ℤ) : ℚ) := by norm_num
    rw [e, halfEven_intCast] at this
    exact this

theorem nearestPos_bounds {x : ℚ} (hx : 0 < x) :
    (2 : ℚ) ^ Int.log 2 x ≤ nearestPos x ∧ nearestPos x ≤ (2 : ℚ) ^ (Int.log 2 x + 1) := by
  obtain ⟨h1, h2⟩ := halfEven_scaled_bounds hx
  have hu := ulp_pos x
  have h1' : (2 : ℚ) ^ (52 : ℤ) ≤ (halfEven (x / ulp x) : ℚ) := by
    have e : ((2 : ℚ) ^ (52 : ℤ)) = (((2 : ℤ) ^ 52 : ℤ) : ℚ) := by norm_num
    rw [e]
    exact_mod_cast h1
  have h2' : (halfEven (x / ulp x) : ℚ) ≤ (2 : ℚ) ^ (53 : ℤ) := by
    have e : ((2 : ℚ) ^ (53 : ℤ)) = (((2 : ℤ) ^ 53 : ℤ) : ℚ) := by norm_num
    rw [e]
    exact_mod_cast h2
  unfold nearestPos
  rw [zpow_split (Int.log 2 x), zpow_split_succ (Int.log 2 x)]
  constructor
  · exact mul_le_mul_of_nonneg_right h1' (le_of_lt hu)
  · exact mul_le_mul_of_nonneg_right h2' (le_of_lt hu)

theorem nearestPos_pos {x : ℚ} (hx : 0 < x) : 0 < nearestPos x :=
  lt_of_lt_of_le (two_zpow_pos _) (nearestPos_bounds hx).1

theorem nearestPos_mono {x y : ℚ} (hx : 0 < x) (h : x ≤ y) : nearestPos x ≤ nearestPos y := by
  have hy : 0 < y := lt_of_lt_of_le hx h
  have hl : Int.log 2 x ≤ Int.log 2 y := Int.log_mono_right hx h
  rcases lt_or_eq_of_le hl with hlt | heq
  · have a := (nearestPos_bounds hx).2
    have b := (nearestPos_bounds hy).1
    have c : (2 : ℚ) ^ (Int.log 2 x + 1) ≤ (2 : ℚ) ^ Int.log 2 y :=
      zpow_le_zpow_right₀ (by norm_num) (by omega)
    linarith
  · have hu : ulp x = ulp y := by unfold ulp; rw [heq]
    unfold nearestPos
    rw [← hu]
    have hup := ulp_pos x
    have : x / ulp x ≤ y / ulp x := div_le_div_of_nonneg_right h (le_of_lt hup)
    have hm := halfEven_mono this
    have hm' : (halfEven (x / ulp x) : ℚ) ≤ (halfEven (y / ulp x) : ℚ) := by exact_mod_cast hm
    exact mul_le_mul_of_nonneg_right hm' (le_of_lt hup)

theorem nearest_of_pos {x : ℚ} (hx : 0 < x) : nearest x = nearestPos x := by
  unfold nearest
  rw [if_neg (ne_of_gt hx), if_neg (not_lt.mpr (le_of_lt hx))]

theorem nearest_of_neg {x : ℚ} (hx : x < 0) : nearest x = -nearestPos (-x) := by
  unfold nearest
  rw [if_neg (ne_of_lt hx), if_pos hx]

theorem nearest_zero : nearest 0 = 0 := by
  unfold nearest
  rw [if_pos rfl]

theorem nearest_neg (x : ℚ) : nearest (-x) = -nearest x := by
  rcases lt_trichotomy x 0 with h | h | h
  · rw [nearest_of_neg h, nearest_of_pos (by linarith : 0 < -x)]; ring
  · subst h; simp [nearest_zero]
  · rw [nearest_of_pos h, nearest_of_neg (by linarith : -x < 0)]; simp

theorem nearest_nonneg {x : ℚ} (hx : 0 ≤ x) : 0 ≤ nearest x := by
  rcases lt_or_eq_of_le hx with h | h
  · rw [nearest_of_pos h]; exact le_of_lt (nearestPos_pos h)
  · rw [← h, nearest_zero]

theorem nearest_mono {x y : ℚ} (h : x ≤ y) : nearest x ≤ nearest y := by
  rcases lt_trichotomy x 0 with hx | hx | hx
  · rcases lt_or_le y 0 with hy | hy
    · rw [nearest_of_neg hx, nearest_of_neg hy]
      have := nearestPos_mono (by linarith : 0 < -y) (by linarith : -y ≤ -x)
      linarith
    · have a := nearest_nonneg hy
      rw [nearest_of_neg hx]
      have := nearestPos_pos (by linarith : 0 < -x)
      linarith
  · subst hx
    rw [nearest_zero]
    exact nearest_nonneg h
  · rw [nearest_of_pos hx, nearest_of_pos (lt_of_lt_of_le hx h)]
    exact nearestPos_mono hx h

theorem ulp_eq {x : ℚ} {e : ℤ} (h1 : (2 : ℚ) ^ e ≤ x) (h2 : x < (2 : ℚ) ^ (e + 1)) :
    ulp x = (2 : ℚ) ^ (e - 52) := by
  unfold ulp
  rw [log_eq h1 h2]

/-- Evaluation of `nearest` at a positive number whose binade and nearest
significand are known. -/
theorem nearest_eval {x : ℚ} (e m : ℤ) (h1 : (2 : ℚ) ^ e ≤ x) (h2 : x < (2 : ℚ) ^ (e + 1))
    (h3 : (m : ℚ) - 1 / 2 < x / (2 : ℚ) ^ (e - 52))
    (h4 : x / (2 : ℚ) ^ (e - 52) < (m : ℚ) + 1 / 2) :
    nearest x = (m : ℚ) * (2 : ℚ) ^ (e - 52) := by
  have hx : 0 < x := lt_of_lt_of_le (two_zpow_pos e) h1
  rw [nearest_of_pos hx]
  unfold nearestPos
  rw [ulp_eq h1 h2, halfEven_eq h3 h4]

/-- Half an ulp is at most `2^-53` of the number. -/
theorem ulp_le {x : ℚ} (hx : 0 < x) : ulp x ≤ x / 4503599627370496 := by
  have h := (scaled_bounds hx).1
  have hu := ulp_pos x
  rw [le_div_iff₀ hu] at h
  have e : (2 : ℚ) ^ (52 : ℤ) = 4503599627370496 := by norm_num
  rw [e] at h
  linarith

theorem nearestPos_le {x : ℚ} (hx : 0 < x) :
    nearestPos x ≤ x + x / 9007199254740992 := by
  have hu := ulp_pos x
  have h := halfEven_le (x / ulp x)
  have h' : (halfEven (x / ulp x) : ℚ) * ulp x ≤ (x / ulp x + 1 / 2) * ulp x :=
    mul_le_mul_of_nonneg_right h (le_of_lt hu)
  have e : (x / ulp x + 1 / 2) * ulp x = x + ulp x / 2 := by
    field_simp
    ring
  rw [e] at h'
  have := ulp_le hx
  unfold nearestPos
  linarith

theorem le_nearestPos {x : ℚ} (hx : 0 < x) :
    x - x / 9007199254740992 ≤ nearestPos x := by
  have hu := ulp_pos x
  have h := le_halfEven (x / ulp x)
  have h' : (x / ulp x - 1 / 2) * ulp x ≤ (halfEven (x / ulp x) : ℚ) * ulp x :=
    mul_le_mul_of_nonneg_right h (le_of_lt hu)
  have e : (x / ulp x - 1 / 2) * ulp x = x - ulp x / 2 := by
    field_simp
    ring
  rw [e] at h'
  have := ulp_le hx
  unfold nearestPos
  linarith

/-- The relative error of rounding is at most `2^-53`. -/
theorem nearest_near {x : ℚ} (hx : 0 ≤ x) :
    x - x / 9007199254740992 ≤ nearest x ∧ nearest x ≤ x + x / 9007199254740992 := by
  rcases lt_or_eq_of_le hx with h | h
  · rw [nearest_of_pos h]
    exact ⟨le_nearestPos h, nearestPos_le h⟩
  · rw [← h, nearest_zero]; norm_num

/-- A number `k · 2^i` with `k < 2^53` is a binary64 number. -/
theorem nearest_dyadic (k : ℕ) (i : ℤ) (hk : k < 2 ^ 53) :
    nearest ((k : ℚ) * (2 : ℚ) ^ i) = (k : ℚ) * (2 : ℚ) ^ i := by
  rcases Nat.eq_zero_or_pos k with h0 | hpos
  · subst h0; simp [nearest_zero]
  have hkq : (0 : ℚ) < (k : ℚ) := by exact_mod_cast hpos
  have hx : 0 < (k : ℚ) * (2 : ℚ) ^ i := mul_pos hkq (two_zpow_pos i)
  rw [nearest_of_pos hx]
  unfold nearestPos
  set x := (k : ℚ) * (2 : ℚ) ^ i with hxdef
  have hlog := zpow_log_le hx
  -- the exponent of the ulp is at most `i`
  have hlt : (2 : ℚ) ^ Int.log 2 x < (2 : ℚ) ^ (53 + i) := by
    have hk' : (k : ℚ) < (2 : ℚ) ^ (53 : ℤ) := by
      have e : (2 : ℚ) ^ (53 : ℤ) = ((2 ^ 53 : ℕ) : ℚ) := by norm_num
      rw [e]
      exact_mod_cast hk
    calc (2 : ℚ) ^ Int.log 2 x ≤ x := hlog
      _ < (2 : ℚ) ^ (53 : ℤ) * (2 : ℚ) ^ i :=
          mul_lt_mul_of_pos_right hk' (two_zpow_pos i)
      _ = (2 : ℚ) ^ (53 + i) := by
          rw [← zpow_add₀ (by norm_num : (2 : ℚ) ≠ 0)]
  have hexp : Int.log 2 x < 53 + i := (zpow_lt_zpow_iff_right₀ (by norm_num)).mp hlt
  obtain ⟨j, hj⟩ : ∃ j : ℕ, (j : ℤ) = i - (Int.log 2 x - 52) := ⟨(i - (Int.log 2 x - 52)).toNat, by omega⟩
  have hdiv : x / ulp x = (((k * 2 ^ j : ℕ) : ℤ) : ℚ) := by
    unfold ulp
    rw [hxdef, mul_div_assoc, ← zpow_sub₀ (by norm_num : (2 : ℚ) ≠ 0), ← hj]
    push_cast
    rw [zpow_natCast]
  rw [hdiv, halfEven_intCast, ← hdiv]
  exact div_mul_cancel₀ x (ne_of_gt (ulp_pos x))

theorem nearest_intCast (n : ℤ) (h : |n| < 2 ^ 53) : nearest (n : ℚ) = n := by
  rcases le_or_lt 0 n with hn | hn
  · obtain ⟨k, rfl⟩ := Int.eq_ofNat_of_zero_le hn
    have hk : k < 2 ^ 53 := by
      rw [abs_of_nonneg hn] at h
      exact_mod_cast h
    have := nearest_dyadic k 0 hk
    simpa using this
  · obtain ⟨k, hk0⟩ : ∃ k : ℕ, (k : ℤ) = -n := ⟨(-n).toNat, by omega⟩
    have hk : k < 2 ^ 53 := by
      rw [abs_of_neg hn] at h
      have : (k : ℤ) < 2 ^ 53 := by omega
      exact_mod_cast this
    have h1 := nearest_dyadic k 0 hk
    have e : (n : ℚ) = -(k : ℚ) := by
      have : ((k : ℤ) : ℚ) = ((-n : ℤ) : ℚ) := by rw [hk0]
      push_cast at this
      linarith
    rw [e, nearest_neg]
    simp only [zpow_zero, mul_one] at h1
    rw [h1]

theorem zpow_sq (k : ℤ) : (2 : ℚ) ^ k * (2 : ℚ) ^ k = (2 : ℚ) ^ (2 * k) := by
  rw [← zpow_add₀ (by norm_num : (2 : ℚ) ≠ 0)]
  congr 1
  ring

/-- The scaled argument of the square root lies in `[2^104, 2^106)`. -/
theorem sqrtScaled_bounds {x : ℚ} (hx : 0 < x) :
    (2 : ℚ) ^ (104 : ℤ) ≤ sqrtScaled x ∧ sqrtScaled x < (2 : ℚ) ^ (106 : ℤ) := by
  have h1 := zpow_log_le hx
  have h2 := lt_zpow_log_succ x
  have hk : 2 * (Int.log 2 x / 2) ≤ Int.log 2 x ∧ Int.log 2 x ≤ 2 * (Int.log 2 x / 2) + 1 := by
    omega
  have hpos : (0 : ℚ) < (2 : ℚ) ^ sqrtExp x * (2 : ℚ) ^ sqrtExp x :=
    mul_pos (two_zpow_pos _) (two_zpow_pos _)
  unfold sqrtScaled
  rw [le_div_iff₀ hpos, div_lt_iff₀ hpos, zpow_sq, ← zpow_add₀ (by norm_num : (2 : ℚ) ≠ 0),
    ← zpow_add₀ (by norm_num : (2 : ℚ) ≠ 0)]
  unfold sqrtExp
  constructor
  · calc (2 : ℚ) ^ (104 + 2 * (Int.log 2 x / 2 - 52)) ≤ (2 : ℚ) ^ Int.log 2 x :=
          zpow_le_zpow_right₀ (by norm_num) (by omega)
      _ ≤ x := h1
  · calc x < (2 : ℚ) ^ (Int.log 2 x + 1) := h2
      _ ≤ (2 : ℚ) ^ (106 + 2 * (Int.log 2 x / 2 - 52)) :=
          zpow_le_zpow_right₀ (by norm_num) (by omega)

/-- The integer square root `r` of the floor of `q ≥ 0` brackets `q`. -/
theorem natSqrt_floor_bounds {q : ℚ} (hq : 0 ≤ q) :
    ((Nat.sqrt ⌊q⌋₊ : ℕ) : ℚ) ^ 2 ≤ q ∧ q < (((Nat.sqrt ⌊q⌋₊ : ℕ) : ℚ) + 1) ^ 2 := by
  have h1 : (Nat.sqrt ⌊q⌋₊) ^ 2 ≤ ⌊q⌋₊ := Nat.sqrt_le' _
  have h2 : ⌊q⌋₊ < (Nat.sqrt ⌊q⌋₊ + 1) ^ 2 := Nat.lt_succ_sqrt' _
  have f1 : ((⌊q⌋₊ : ℕ) : ℚ) ≤ q := Nat.floor_le hq
  have f2 : q < ((⌊q⌋₊ : ℕ) : ℚ) + 1 := Nat.lt_floor_add_one q
  constructor
  · have : (((Nat.sqrt ⌊q⌋₊) ^ 2 : ℕ) : ℚ) ≤ ((⌊q⌋₊ : ℕ) : ℚ) := by exact_mod_cast h1
    push_cast at this
    linarith
  · have : ((⌊q⌋₊ : ℕ) : ℚ) + 1 ≤ (((Nat.sqrt ⌊q⌋₊ + 1) ^ 2 : ℕ) : ℚ) := by exact_mod_cast h2
    push_cast at this
    linarith

theorem sqrtSig_cases (x : ℚ) :
    sqrtSig x = Nat.sqrt ⌊sqrtScaled x⌋₊ ∨ sqrtSig x = Nat.sqrt ⌊sqrtScaled x⌋₊ + 1 := by
  unfold sqrtSig
  simp only
  split_ifs <;> simp

theorem sqrtSig_of_lt {x : ℚ}
    (h : sqrtScaled x < (((Nat.sqrt ⌊sqrtScaled x⌋₊ : ℕ) : ℚ) + 1 / 2) ^ 2) :
    sqrtSig x = Nat.sqrt ⌊sqrtScaled x⌋₊ := by
  unfold sqrtSig
  simp only
  rw [if_pos h]

theorem sqrtSig_of_gt {x : ℚ}
    (h : (((Nat.sqrt ⌊sqrtScaled x⌋₊ : ℕ) : ℚ) + 1 / 2) ^ 2 < sqrtScaled x) :
    sqrtSig x = Nat.sqrt ⌊sqrtScaled x⌋₊ + 1 := by
  unfold sqrtSig
  simp only
  rw [if_neg (not_lt.mpr (le_of_lt h)), if_pos h]

theorem sqrtScaled_nonneg {x : ℚ} (hx : 0 < x) : 0 ≤ sqrtScaled x :=
  le_trans (le_of_lt (two_zpow_pos _)) (sqrtScaled_bounds hx).1

theorem sqrtSig_le {x : ℚ} (hx : 0 < x) (w : ℕ) (h : sqrtScaled x ≤ (w : ℚ) ^ 2) :
    sqrtSig x ≤ w := by
  obtain ⟨b1, b2⟩ := natSqrt_floor_bounds (sqrtScaled_nonneg hx)
  set r := Nat.sqrt ⌊sqrtScaled x⌋₊ with hr
  have hrw : r ≤ w := by
    by_contra hc
    have : w + 1 ≤ r := by omega
    have hq : ((w : ℚ) + 1) ≤ (r : ℚ) := by exact_mod_cast this
    have hw0 : (0 : ℚ) ≤ (w : ℚ) := by positivity
    nlinarith
  rcases Nat.lt_or_ge r w with hlt | hge
  · rcases sqrtSig_cases x with e | e <;> rw [e] <;> omega
  · have hrw' : r = w := by omega
    have hlt : sqrtScaled x < ((r : ℚ) + 1 / 2) ^ 2 := by
      have hr0 : (0 : ℚ) ≤ (r : ℚ) := by positivity
      rw [hrw']
      rw [hrw'] at hr0
      nlinarith
    rw [sqrtSig_of_lt hlt]
    omega

theorem le_sqrtSig {x : ℚ} (hx : 0 < x) (w : ℕ) (h : (w : ℚ) ^ 2 ≤ sqrtScaled x) :
    w ≤ sqrtSig x := by
  obtain ⟨b1, b2⟩ := natSqrt_floor_bounds (sqrtScaled_nonneg hx)
  set r := Nat.sqrt ⌊sqrtScaled x⌋₊ with hr
  have hrw : w ≤ r := by
    by_contra hc
    have : r + 1 ≤ w := by omega
    have hq : ((r : ℚ) + 1) ≤ (w : ℚ) := by exact_mod_cast this
    have hr0 : (0 : ℚ) ≤ (r : ℚ) := by positivity
    nlinarith
  rcases sqrtSig_cases x with e | e <;> rw [e] <;> omega

theorem sqrt_of_pos {x : ℚ} (hx : 0 < x) :
    sqrt x = (sqrtSig x : ℚ) * (2 : ℚ) ^ sqrtExp x := by
  unfold sqrt
  rw [if_neg (not_le.mpr hx)]

theorem sqrt_zero : sqrt 0 = 0 := by
  unfold sqrt
  rw [if_pos (le_refl _)]

/-- `x` in terms of its scaled value. -/
theorem sqrtScaled_mul {x : ℚ} :
    sqrtScaled x * ((2 : ℚ) ^ sqrtExp x) ^ 2 = x := by
  unfold sqrtScaled
  have hne : (2 : ℚ) ^ sqrtExp x ≠ 0 := ne_of_gt (two_zpow_pos _)
  rw [pow_two]
  exact div_mul_cancel₀ x (mul_ne_zero hne hne)

/-- A dyadic number `j · 2^i` with `j < 2^53` whose square is at least `x` is a
multiple of the spacing around the square root of `x`. -/
theorem dyadic_multiple {x : ℚ} (j : ℕ) (i : ℤ) (hj : j < 2 ^ 53)
    (h : (2 : ℚ) ^ (52 : ℤ) * (2 : ℚ) ^ sqrtExp x ≤ (j : ℚ) * (2 : ℚ) ^ i) :
    ∃ w : ℕ, (j : ℚ) * (2 : ℚ) ^ i = (w : ℚ) * (2 : ℚ) ^ sqrtExp x := by
  have hj' : (j : ℚ) < (2 : ℚ) ^ (53 : ℤ) := by
    have e : (2 : ℚ) ^ (53 : ℤ) = ((2 ^ 53 : ℕ) : ℚ) := by norm_num
    rw [e]
    exact_mod_cast hj
  have hlt : (2 : ℚ) ^ (52 + sqrtExp x) < (2 : ℚ) ^ (53 + i) := by
    calc (2 : ℚ) ^ (52 + sqrtExp x) = (2 : ℚ) ^ (52 : ℤ) * (2 : ℚ) ^ sqrtExp x := by
          rw [← zpow_add₀ (by norm_num : (2 : ℚ) ≠ 0)]
      _ ≤ (j : ℚ) * (2 : ℚ) ^ i := h
      _ < (2 : ℚ) ^ (53 : ℤ) * (2 : ℚ) ^ i := mul_lt_mul_of_pos_right hj' (two_zpow_pos i)
      _ = (2 : ℚ) ^ (53 + i) := by rw [← zpow_add₀ (by norm_num : (2 : ℚ) ≠ 0)]
  have hexp : 52 + sqrtExp x < 53 + i := (zpow_lt_zpow_iff_right₀ (by norm_num)).mp hlt
  obtain ⟨d, hd⟩ : ∃ d : ℕ, (d : ℤ) = i - sqrtExp x := ⟨(i - sqrtExp x).toNat, by omega⟩
  refine ⟨j * 2 ^ d, ?_⟩
  have hi : i = (d : ℤ) + sqrtExp x := by omega
  rw [hi, zpow_add₀ (by norm_num : (2 : ℚ) ≠ 0), zpow_natCast]
  push_cast
  ring

/-- Upper bracket of the rounded square root by a binary64 number. -/
theorem sqrt_le_of_le_sq {x : ℚ} (hx : 0 < x) (j : ℕ) (i : ℤ) (hj : j < 2 ^ 53)
    (h : x ≤ ((j : ℚ) * (2 : ℚ) ^ i) ^ 2) : sqrt x ≤ (j : ℚ) * (2 : ℚ) ^ i := by
  have hu := two_zpow_pos (sqrtExp x)
  have hz0 : (0 : ℚ) ≤ (j : ℚ) * (2 : ℚ) ^ i :=
    mul_nonneg (by positivity) (le_of_lt (two_zpow_pos i))
  have hb := (sqrtScaled_bounds hx).1
  have hxe := sqrtScaled_mul (x := x)
  have h104 : (2 : ℚ) ^ (104 : ℤ) = ((2 : ℚ) ^ (52 : ℤ)) ^ 2 := by norm_num
  have hbig : (2 : ℚ) ^ (52 : ℤ) * (2 : ℚ) ^ sqrtExp x ≤ (j : ℚ) * (2 : ℚ) ^ i := by
    have h52 : (0 : ℚ) < (2 : ℚ) ^ (52 : ℤ) := two_zpow_pos _
    have hsq : ((2 : ℚ) ^ (52 : ℤ) * (2 : ℚ) ^ sqrtExp x) ^ 2 ≤ ((j : ℚ) * (2 : ℚ) ^ i) ^ 2 := by
      calc ((2 : ℚ) ^ (52 : ℤ) * (2 : ℚ) ^ sqrtExp x) ^ 2
          = (2 : ℚ) ^ (104 : ℤ) * ((2 : ℚ) ^ sqrtExp x) ^ 2 := by rw [h104]; ring
        _ ≤ sqrtScaled x * ((2 : ℚ) ^ sqrtExp x) ^ 2 :=
            mul_le_mul_of_nonneg_right hb (by positivity)
        _ = x := hxe
        _ ≤ _ := h
    exact (abs_le_of_sq_le_sq' hsq hz0).2
  obtain ⟨w, hw⟩ := dyadic_multiple j i hj hbig
  rw [hw, sqrt_of_pos hx]
  have hq : sqrtScaled x ≤ (w : ℚ) ^ 2 := by
    have : sqrtScaled x * ((2 : ℚ) ^ sqrtExp x) ^ 2 ≤ (w : ℚ) ^ 2 * ((2 : ℚ) ^ sqrtExp x) ^ 2 := by
      rw [hxe, ← mul_pow, ← hw]; exact h
    exact le_of_mul_le_mul_right this (by positivity)
  have := sqrtSig_le hx w hq
  have hc : (sqrtSig x : ℚ) ≤ (w : ℚ) := by exact_mod_cast this
  exact mul_le_mul_of_nonneg_right hc (le_of_lt hu)

theorem sqrtSig_ge {x : ℚ} (hx : 0 < x) : 2 ^ 52 ≤ sqrtSig x := by
  apply le_sqrtSig hx
  have hb := (sqrtScaled_bounds hx).1
  have e : (((2 ^ 52 : ℕ) : ℚ)) ^ 2 = (2 : ℚ) ^ (104 : ℤ) := by norm_num
  rw [e]
  exact hb

/-- Lower bracket of the rounded square root by a binary64 number. -/
theorem le_sqrt_of_sq_le {x : ℚ} (hx : 0 < x) (j : ℕ) (i : ℤ) (hj : j < 2 ^ 53)
    (h : ((j : ℚ) * (2 : ℚ) ^ i) ^ 2 ≤ x) : (j : ℚ) * (2 : ℚ) ^ i ≤ sqrt x := by
  have hu := two_zpow_pos (sqrtExp x)
  have hxe := sqrtScaled_mul (x := x)
  rw [sqrt_of_pos hx]
  rcases lt_or_le ((j : ℚ) * (2 : ℚ) ^ i) ((2 : ℚ) ^ (52 : ℤ) * (2 : ℚ) ^ sqrtExp x) with hlt | hge
  · have hs := sqrtSig_ge hx
    have hs' : (2 : ℚ) ^ (52 : ℤ) ≤ (sqrtSig x : ℚ) := by
      have e : (2 : ℚ) ^ (52 : ℤ) = ((2 ^ 52 : ℕ) : ℚ) := by norm_num
      rw [e]
      exact_mod_cast hs
    have := mul_le_mul_of_nonneg_right hs' (le_of_lt hu)
    linarith
  · obtain ⟨w, hw⟩ := dyadic_multiple j i hj hge
    rw [hw]
    have hq : (w : ℚ) ^ 2 ≤ sqrtScaled x := by
      have : (w : ℚ) ^ 2 * ((2 : ℚ) ^ sqrtExp x) ^ 2 ≤ sqrtScaled x * ((2 : ℚ) ^ sqrtExp x) ^ 2 := by
        rw [hxe, ← mul_pow, ← hw]; exact h
      exact le_of_mul_le_mul_right this (by positivity)
    have := le_sqrtSig hx w hq
    have hc : (w : ℚ) ≤ (sqrtSig x : ℚ) := by exact_mod_cast this
    exact mul_le_mul_of_nonneg_right hc (le_of_lt hu)

/-- Evaluation of `sqrt` at a positive number, given the binade of its square
root and the nearest significand. -/
theorem sqrt_eval {x : ℚ} (k : ℤ) (m : ℕ) (hm : 1 ≤ m)
    (h1 : (2 : ℚ) ^ (2 * k) ≤ x) (h2 : x < (2 : ℚ) ^ (2 * k + 2))
    (h3 : ((m : ℚ) - 1 / 2) ^ 2 < x / ((2 : ℚ) ^ (k - 52) * (2 : ℚ) ^ (k - 52)))
    (h4 : x / ((2 : ℚ) ^ (k - 52) * (2 : ℚ) ^ (k - 52)) < ((m : ℚ) + 1 / 2) ^ 2) :
    sqrt x = (m : ℚ) * (2 : ℚ) ^ (k - 52) := by
  have hx : 0 < x := lt_of_lt_of_le (two_zpow_pos _) h1
  have hlog1 : 2 * k ≤ Int.log 2 x := by
    rw [← Int.zpow_le_iff_le_log (by norm_num) hx]
    simpa using h1
  have hlog2 : Int.log 2 x < 2 * k + 2 := by
    rw [← Int.lt_zpow_iff_log_lt (by norm_num) hx]
    simpa using h2
  have hk : sqrtExp x = k - 52 := by
    unfold sqrtExp
    omega
  have hsc : sqrtScaled x = x / ((2 : ℚ) ^ (k - 52) * (2 : ℚ) ^ (k - 52)) := by
    unfold sqrtScaled
    rw [hk]
  rw [sqrt_of_pos hx, hk]
  congr 1
  rw [← hsc] at h3 h4
  obtain ⟨b1, b2⟩ := natSqrt_floor_bounds (sqrtScaled_nonneg hx)
  set r := Nat.sqrt ⌊sqrtScaled x⌋₊ with hr
  have hm' : (1 : ℚ) ≤ (m : ℚ) := by exact_mod_cast hm
  have hr0 : (0 : ℚ) ≤ (r : ℚ) := by positivity
  have hle : r ≤ m := by
    by_contra hc
    have : m + 1 ≤ r := by omega
    have hq : ((m : ℚ) + 1) ≤ (r : ℚ) := by exact_mod_cast this
    nlinarith
  have hge : m ≤ r + 1 := by
    by_contra hc
    have : r + 2 ≤ m := by omega
    have hq : ((r : ℚ) + 2) ≤ (m : ℚ) := by exact_mod_cast this
    nlinarith
  have hcase : m = r ∨ m = r + 1 := by omega
  rcases hcase with e | e
  · have hlt : sqrtScaled x < ((r : ℚ) + 1 / 2) ^ 2 := by rw [← e]; exact h4
    rw [sqrtSig_of_lt hlt, e]
  · have hgt : ((r : ℚ) + 1 / 2) ^ 2 < sqrtScaled x := by
      have : (m : ℚ) = (r : ℚ) + 1 := by exact_mod_cast e
      rw [this] at h3
      have e2 : (r : ℚ) + 1 - 1 / 2 = (r : ℚ) + 1 / 2 := by ring
      rw [e2] at h3
      exact h3
    rw [sqrtSig_of_gt hgt, e]

theorem halfEven_tie {y : ℚ} {m : ℤ} (h : y = (m : ℚ) + 1 / 2) (hm : m % 2 = 0) :
    halfEven y = m := by
  have hf : ⌊y⌋ = m := by
    rw [Int.floor_eq_iff, h]
    constructor <;> linarith
  unfold halfEven
  rw [hf, h]
  have e : (m : ℚ) + 1 / 2 - (m : ℚ) = 1 / 2 := by ring
  rw [e, if_neg (lt_irrefl _), if_neg (lt_irrefl _), if_pos hm]

/-- Evaluation of `nearest` at a positive number half way between two binary64
numbers: the one with the even significand. -/
theorem nearest_eval_tie {x : ℚ} (e m : ℤ) (h1 : (2 : ℚ) ^ e ≤ x)
    (h2 : x < (2 : ℚ) ^ (e + 1)) (h3 : x / (2 : ℚ) ^ (e - 52) = (m : ℚ) + 1 / 2)
    (h4 : m % 2 = 0) :
    nearest x = (m : ℚ) * (2 : ℚ) ^ (e - 52) := by
  have hx : 0 < x := lt_of_lt_of_le (two_zpow_pos e) h1
  rw [nearest_of_pos hx]
  unfold nearestPos
  rw [ulp_eq h1 h2, halfEven_tie h3 h4]

theorem halfEven_tie_up {y : ℚ} {m : ℤ} (h : y = (m : ℚ) - 1 / 2) (hm : m % 2 = 0) :
    halfEven y = m := by
  have hf : ⌊y⌋ = m - 1 := by
    rw [Int.floor_eq_iff, h]
    push_cast
    constructor <;> linarith
  unfold halfEven
  rw [hf, h]
  have e : (m : ℚ) - 1 / 2 - ((m - 1 : ℤ) : ℚ) = 1 / 2 := by push_cast; ring
  have hodd : ¬ ((m - 1) % 2 = 0) := by omega
  rw [e, if_neg (lt_irrefl _), if_neg (lt_irrefl _), if_neg hodd]
  ring

/-- Evaluation of `nearest` at a positive number half way between two binary64
numbers, the upper one having the even significand. -/
theorem nearest_eval_tie_up {x : ℚ} (e m : ℤ) (h1 : (2 : ℚ) ^ e ≤ x)
    (h2 : x < (2 : ℚ) ^ (e + 1)) (h3 : x / (2 : ℚ) ^ (e - 52) = (m : ℚ) - 1 / 2)
    (h4 : m % 2 = 0) :
    nearest x = (m : ℚ) * (2 : ℚ) ^ (e - 52) := by
  have hx : 0 < x := lt_of_lt_of_le (two_zpow_pos e) h1
  rw [nearest_of_pos hx]
  unfold nearestPos
  rw [ulp_eq h1 h2, halfEven_tie_up h3 h4]

theorem sqrt_nonneg (x : ℚ) : 0 ≤ sqrt x := by
  unfold sqrt
  split_ifs
  · exact le_refl _
  · exact mul_nonneg (by positivity) (le_of_lt (two_zpow_pos _))

end Binary64

/-! ## The throughput histogram: `AddSize` -/

namespace Histogram

open Binary64 (nearest)

theorem AddSize_TimeSleep (s : Sample) (t size : Int) :
    (AddSize s t size).TimeSleep = s.TimeSleep := by
  unfold AddSize
  simp only
  split_ifs <;> rfl

theorem AddSize_MetricReqSec (s : Sample) (t size : Int) :
    (AddSize s t size).MetricReqSec = bumpReq (bucketOf s.TimeSleep t) s.MetricReqSec := by
  unfold AddSize bucketOf
  simp only [cutPoint]
  split_ifs <;> simp_all [bumpReq]

/-- The seconds and the nanoseconds of a duration, by floor division. -/
theorem tdiv_tmod_cases (t : Int) :
    (0 ≤ t ∧ Int.tdiv t 1000000000 = t / 1000000000 ∧ Int.tmod t 1000000000 = t % 1000000000) ∨
    (t < 0 ∧ Int.tdiv t 1000000000 = -((-t) / 1000000000) ∧
      Int.tmod t 1000000000 = -((-t) % 1000000000)) := by
  rcases le_or_lt 0 t with h | h
  · exact Or.inl ⟨h, Int.tdiv_eq_ediv h (by decide), Int.tmod_eq_emod h (by decide)⟩
  · refine Or.inr ⟨h, ?_, ?_⟩
    · have e : t = -(-t) := by ring
      conv_lhs => rw [e]
      rw [Int.neg_tdiv, Int.tdiv_eq_ediv (by omega) (by decide)]
    · have e : Int.tdiv t 1000000000 = -((-t) / 1000000000) := by
        have e' : t = -(-t) := by ring
        conv_lhs => rw [e']
        rw [Int.neg_tdiv, Int.tdiv_eq_ediv (by omega) (by decide)]
      rw [Int.tmod_def, e]
      omega

theorem nearest_one : nearest 1 = 1 := by
  have := Binary64.nearest_intCast 1 (by decide)
  simpa using this

/-- The rounded fraction of a second of a non-negative remainder lies in [0, 1]. -/
theorem fraction_bounds {r : Int} (h0 : 0 ≤ r) (h1 : r < 1000000000) :
    0 ≤ nearest ((r : ℚ) / 1000000000) ∧ nearest ((r : ℚ) / 1000000000) ≤ 1 := by
  have hr0 : (0 : ℚ) ≤ (r : ℚ) := by exact_mod_cast h0
  have hr1 : (r : ℚ) ≤ 1000000000 := by exact_mod_cast le_of_lt h1
  constructor
  · exact Binary64.nearest_nonneg (by positivity)
  · have : (r : ℚ) / 1000000000 ≤ 1 := by
      rw [div_le_one (by norm_num)]; exact hr1
    have := Binary64.nearest_mono this
    rw [nearest_one] at this
    exact this

theorem Seconds_mono {t t' : Int} (h : t ≤ t') : Seconds t ≤ Seconds t' := by
  unfold Seconds
  apply Binary64.nearest_mono
  rcases tdiv_tmod_cases t with ⟨h0, hs, hn⟩ | ⟨h0, hs, hn⟩ <;>
    rcases tdiv_tmod_cases t' with ⟨h0', hs', hn'⟩ | ⟨h0', hs', hn'⟩ <;>
    rw [hs, hn, hs', hn']
  · -- both non-negative
    obtain ⟨a0, a1⟩ := fraction_bounds (Int.emod_nonneg t (by decide))
      (Int.emod_lt_of_pos t (by decide))
    obtain ⟨b0, b1⟩ := fraction_bounds (Int.emod_nonneg t' (by decide))
      (Int.emod_lt_of_pos t' (by decide))
    rcases lt_or_eq_of_le (Int.ediv_le_ediv (by decide : (0 : Int) < 1000000000) h) with hlt | heq
    · have : ((t / 1000000000 : Int) : ℚ) + 1 ≤ ((t' / 1000000000 : Int) : ℚ) := by
        exact_mod_cast hlt
      linarith
    · have hm : t % 1000000000 ≤ t' % 1000000000 := by omega
      have hq : ((t % 1000000000 : Int) : ℚ) / 1000000000
          ≤ ((t' % 1000000000 : Int) : ℚ) / 1000000000 :=
        div_le_div_of_nonneg_right (by exact_mod_cast hm) (by norm_num)
      have := Binary64.nearest_mono hq
      rw [heq]
      linarith
  · omega
  · -- `t` negative, `t'` non-negative
    obtain ⟨a0, a1⟩ := fraction_bounds (Int.emod_nonneg (-t) (by decide))
      (Int.emod_lt_of_pos (-t) (by decide))
    obtain ⟨b0, b1⟩ := fraction_bounds (Int.emod_nonneg t' (by decide))
      (Int.emod_lt_of_pos t' (by decide))
    have e : ((-((-t) % 1000000000) : Int) : ℚ) / 1000000000
        = -((((-t) % 1000000000 : Int) : ℚ) / 1000000000) := by push_cast; ring
    rw [e, Binary64.nearest_neg]
    have s1 : ((-((-t) / 1000000000) : Int) : ℚ) ≤ 0 := by
      have : -((-t) / 1000000000) ≤ 0 := by omega
      exact_mod_cast this
    have s2 : (0 : ℚ) ≤ ((t' / 1000000000 : Int) : ℚ) := by
      have : 0 ≤ t' / 1000000000 := by omega
      exact_mod_cast this
    linarith
  · -- both negative
    obtain ⟨a0, a1⟩ := fraction_bounds (Int.emod_nonneg (-t) (by decide))
      (Int.emod_lt_of_pos (-t) (by decide))
    obtain ⟨b0, b1⟩ := fraction_bounds (Int.emod_nonneg (-t') (by decide))
      (Int.emod_lt_of_pos (-t') (by decide))
    have e : ((-((-t) % 1000000000) : Int) : ℚ) / 1000000000
        = -((((-t) % 1000000000 : Int) : ℚ) / 1000000000) := by push_cast; ring
    have e' : ((-((-t') % 1000000000) : Int) : ℚ) / 1000000000
        = -((((-t') % 1000000000 : Int) : ℚ) / 1000000000) := by push_cast; ring
    rw [e, e', Binary64.nearest_neg, Binary64.nearest_neg]
    have hdiv : (-t') / 1000000000 ≤ (-t) / 1000000000 :=
      Int.ediv_le_ediv (by decide) (by omega)
    rcases lt_or_eq_of_le hdiv with hlt | heq
    · have : (((-t') / 1000000000 : Int) : ℚ) + 1 ≤ (((-t) / 1000000000 : Int) : ℚ) := by
        exact_mod_cast hlt
      push_cast
      linarith
    · have hm : (-t') % 1000000000 ≤ (-t) % 1000000000 := by omega
      have hq : (((-t') % 1000000000 : Int) : ℚ) / 1000000000
          ≤ (((-t) % 1000000000 : Int) : ℚ) / 1000000000 :=
        div_le_div_of_nonneg_right (by exact_mod_cast hm) (by norm_num)
      have := Binary64.nearest_mono hq
      push_cast
      rw [heq]
      linarith

theorem bucketOf_mono (d : Int) {t t' : Int} (h : t ≤ t') :
    bucketOf d t ≤ bucketOf d t' := by
  have hs : Seconds t ≤ Seconds t' := Seconds_mono h
  unfold bucketOf
  split_ifs <;> first | omega | (exfalso; linarith)

theorem stageInv_bumpReq {k j : Nat} {m : Metric} (h : stageInv k m) (hkj : k ≤ j) :
    stageInv j (bumpReq j m) := by
  obtain ⟨⟨h1, h10, h50, h97, h99⟩, ⟨z10, z50, z97, z99⟩, a, b, c⟩ := h
  match j with
  | 0 =>
    have e10 := z10 (by omega); have e50 := z50 (by omega)
    have e97 := z97 (by omega); have e99 := z99 (by omega)
    simp [stageInv, adjacentCarried, bumpReq, e10, e50, e97, e99]; omega
  | 1 =>
    have e50 := z50 (by omega)
    have e97 := z97 (by omega); have e99 := z99 (by omega)
    simp only [stageInv, adjacentCarried, bumpReq, e50, e97, e99]
    split_ifs <;> simp <;> omega
  | 2 =>
    have e97 := z97 (by omega); have e99 := z99 (by omega)
    simp only [stageInv, adjacentCarried, bumpReq, e97, e99]
    split_ifs <;> simp <;> omega
  | 3 =>
    have e99 := z99 (by omega)
    simp only [stageInv, adjacentCarried, bumpReq, e99]
    split_ifs <;> simp <;> omega
  | 4 =>
    simp only [stageInv, adjacentCarried, bumpReq]
    split_ifs <;> simp <;> omega
  | (n + 5) =>
    simp only [stageInv, adjacentCarried, bumpReq]
    omega

theorem foldl_AddSize_stageInv (calls : List (Int × Int)) :
    ∀ (s : Sample) (k : Nat), stageInv k s.MetricReqSec →
      (calls.map Prod.fst).Sorted (· ≤ ·) →
      (∀ c ∈ calls, k ≤ bucketOf s.TimeSleep c.1) →
      ∃ k', stageInv k' (calls.foldl (fun s c => AddSize s c.1 c.2) s).MetricReqSec := by
  induction calls with
  | nil => intro s k h _ _; exact ⟨k, h⟩
  | cons c rest ih =>
    intro s k h hs hk
    simp only [List.foldl_cons]
    simp only [List.map_cons, List.sorted_cons] at hs
    apply ih (AddSize s c.1 c.2) (bucketOf s.TimeSleep c.1)
    · rw [AddSize_MetricReqSec]
      exact stageInv_bumpReq h (hk c (List.mem_cons_self _ _))
    · exact hs.2
    · intro c' hc'
      rw [AddSize_TimeSleep]
      exact bucketOf_mono _ (hs.1 c'.1 (List.mem_map_of_mem _ hc'))

theorem AddSize_MetricBodySize (s : Sample) (t size : Int) :
    (AddSize s t size).MetricBodySize = setBody (bucketOf s.TimeSleep t) size s.MetricBodySize := by
  unfold AddSize bucketOf
  simp only [cutPoint]
  split_ifs <;> simp_all [setBody]

/-- The value of `Seconds` is within a relative `2^-50` of the exact number of
seconds. -/
theorem Seconds_near (t : Int) (ht : 0 ≤ t) :
    (t : ℚ) / 1000000000 - (t : ℚ) / 1000000000 / 1125899906842624 ≤ Seconds t ∧
    Seconds t ≤ (t : ℚ) / 1000000000 + (t : ℚ) / 1000000000 / 1125899906842624 := by
  unfold Seconds
  rw [Int.tdiv_eq_ediv ht (by decide), Int.tmod_eq_emod ht (by decide)]
  have hsplit : (t : ℚ)
      = 1000000000 * ((t / 1000000000 : Int) : ℚ) + ((t % 1000000000 : Int) : ℚ) := by
    have := Int.ediv_add_emod t 1000000000
    exact_mod_cast this.symm
  have hs0 : (0 : ℚ) ≤ ((t / 1000000000 : Int) : ℚ) := by
    exact_mod_cast Int.ediv_nonneg ht (by decide)
  have hn0 : (0 : ℚ) ≤ ((t % 1000000000 : Int) : ℚ) := by
    exact_mod_cast Int.emod_nonneg t (by decide)
  rw [hsplit]
  generalize ((t / 1000000000 : Int) : ℚ) = sec at *
  generalize ((t % 1000000000 : Int) : ℚ) = nsec at *
  have hf := Binary64.nearest_near (x := nsec / 1000000000) (by positivity)
  generalize nearest (nsec / 1000000000) = a at *
  have hy0 : 0 ≤ sec + a := by linarith [hf.1]
  have hy := Binary64.nearest_near hy0
  generalize nearest (sec + a) = y at *
  constructor <;> linarith [hf.1, hf.2, hy.1, hy.2]

/-- A rounded product of two rounded non-negative factors is within a relative
`2^-50` of the exact product. -/
theorem product_near {d c : ℚ} (hd : 0 ≤ d) (hc : 0 ≤ c) :
    d * c - d * c / 1125899906842624 ≤ nearest (nearest d * nearest c) ∧
    nearest (nearest d * nearest c) ≤ d * c + d * c / 1125899906842624 := by
  have hD := Binary64.nearest_near hd
  have hC := Binary64.nearest_near hc
  have hD0 := Binary64.nearest_nonneg hd
  have hC0 := Binary64.nearest_nonneg hc
  generalize nearest d = D at *
  generalize nearest c = C at *
  have hdc : 0 ≤ d * c := mul_nonneg hd hc
  have hlo : (d - d / 9007199254740992) * (c - c / 9007199254740992) ≤ D * C :=
    mul_le_mul hD.1 hC.1 (by linarith) hD0
  have hhi : D * C ≤ (d + d / 9007199254740992) * (c + c / 9007199254740992) :=
    mul_le_mul hD.2 hC.2 hC0 (by linarith)
  have hP := Binary64.nearest_near (mul_nonneg hD0 hC0)
  generalize nearest (D * C) = N at *
  generalize D * C = P at *
  constructor <;> nlinarith [hP.1, hP.2, hlo, hhi, hdc]

/-- A rounded half of a rounded non-negative number is within a relative `2^-50`
of the exact half. -/
theorem half_near {d : ℚ} (hd : 0 ≤ d) :
    d / 2 - d / 2 / 1125899906842624 ≤ nearest (nearest d / 2) ∧
    nearest (nearest d / 2) ≤ d / 2 + d / 2 / 1125899906842624 := by
  have hD := Binary64.nearest_near hd
  have hD0 := Binary64.nearest_nonneg hd
  generalize nearest d = D at *
  have hP := Binary64.nearest_near (x := D / 2) (by linarith)
  generalize nearest (D / 2) = N at *
  constructor <;> linarith [hP.1, hP.2, hD.1, hD.2]

/-- Each binary64 cut point is within a relative `2^-50` of the exact one. -/
theorem cutPoint_near (d : Int) (hd : 0 ≤ d) (i : Nat) :
    exactCut d i - exactCut d i / 1125899906842624 ≤ cutPoint d i ∧
    cutPoint d i ≤ exactCut d i + exactCut d i / 1125899906842624 := by
  have hq : (0 : ℚ) ≤ (d : ℚ) := by exact_mod_cast hd
  match i with
  | 0 => exact product_near hq (by norm_num)
  | 1 => exact product_near hq (by norm_num)
  | 2 =>
    have h := half_near hq
    have e : exactCut d 2 = (d : ℚ) / 2 := by simp only [exactCut]; norm_num; ring
    rw [e]
    exact h
  | 3 => exact product_near hq (by norm_num)
  | (n + 4) => exact product_near hq (by norm_num)

theorem exactCut_nonneg (d : Int) (hd : 0 ≤ d) (i : Nat) : 0 ≤ exactCut d i := by
  have hq : (0 : ℚ) ≤ (d : ℚ) := by exact_mod_cast hd
  match i with
  | 0 => simp only [exactCut]; positivity
  | 1 => simp only [exactCut]; positivity
  | 2 => simp only [exactCut]; positivity
  | 3 => simp only [exactCut]; positivity
  | (n + 4) => simp only [exactCut]; positivity

theorem cutPoint_mono (d : Int) (hd : 0 ≤ d) :
    cutPoint d 0 ≤ cutPoint d 1 ∧ cutPoint d 1 ≤ cutPoint d 2 ∧
    cutPoint d 2 ≤ cutPoint d 3 ∧ cutPoint d 3 ≤ cutPoint d 4 := by
  have hq : (0 : ℚ) ≤ (d : ℚ) := by exact_mod_cast hd
  have h0 := cutPoint_near d hd 0
  have h1 := cutPoint_near d hd 1
  have h2 := cutPoint_near d hd 2
  have h3 := cutPoint_near d hd 3
  have h4 := cutPoint_near d hd 4
  simp only [exactCut] at h0 h1 h2 h3 h4
  refine ⟨?_, ?_, ?_, ?_⟩ <;> linarith [h0.1, h0.2, h1.1, h1.2, h2.1, h2.2, h3.1, h3.2, h4.1, h4.2]

theorem bucketOf_cases (d t : Int) :
    (Seconds t ≤ cutPoint d 0 ∧ bucketOf d t = 0) ∨
    (cutPoint d 0 < Seconds t ∧ Seconds t ≤ cutPoint d 1 ∧ bucketOf d t = 1) ∨
    (cutPoint d 1 < Seconds t ∧ Seconds t ≤ cutPoint d 2 ∧ bucketOf d t = 2) ∨
    (cutPoint d 2 < Seconds t ∧ Seconds t ≤ cutPoint d 3 ∧ bucketOf d t = 3) ∨
    (cutPoint d 3 < Seconds t ∧ Seconds t ≤ cutPoint d 4 ∧ bucketOf d t = 4) ∨
    (cutPoint d 4 < Seconds t ∧ bucketOf d t = 5) := by
  unfold bucketOf
  split_ifs with h0 h1 h2 h3 h4
  · exact Or.inl ⟨h0, rfl⟩
  · exact Or.inr (Or.inl ⟨lt_of_not_le h0, h1, rfl⟩)
  · exact Or.inr (Or.inr (Or.inl ⟨lt_of_not_le h1, h2, rfl⟩))
  · exact Or.inr (Or.inr (Or.inr (Or.inl ⟨lt_of_not_le h2, h3, rfl⟩)))
  · exact Or.inr (Or.inr (Or.inr (Or.inr (Or.inl ⟨lt_of_not_le h3, h4, rfl⟩))))
  · exact Or.inr (Or.inr (Or.inr (Or.inr (Or.inr ⟨lt_of_not_le h4, rfl⟩))))

theorem bucketOf_iff (d t : Int) (hd : 0 ≤ d) :
    (bucketOf d t = 0 ↔ Seconds t ≤ cutPoint d 0) ∧
    (bucketOf d t = 1 ↔ cutPoint d 0 < Seconds t ∧ Seconds t ≤ cutPoint d 1) ∧
    (bucketOf d t = 2 ↔ cutPoint d 1 < Seconds t ∧ Seconds t ≤ cutPoint d 2) ∧
    (bucketOf d t = 3 ↔ cutPoint d 2 < Seconds t ∧ Seconds t ≤ cutPoint d 3) ∧
    (bucketOf d t = 4 ↔ cutPoint d 3 < Seconds t ∧ Seconds t ≤ cutPoint d 4) ∧
    (bucketOf d t = 5 ↔ cutPoint d 4 < Seconds t) := by
  obtain ⟨c01, c12, c23, c34⟩ := cutPoint_mono d hd
  have hc := bucketOf_cases d t
  generalize cutPoint d 0 = c0 at *
  generalize cutPoint d 1 = c1 at *
  generalize cutPoint d 2 = c2 at *
  generalize cutPoint d 3 = c3 at *
  generalize cutPoint d 4 = c4 at *
  generalize Seconds t = e at *
  generalize bucketOf d t = b at *
  rcases hc with ⟨h, hb⟩ | ⟨h, h', hb⟩ | ⟨h, h', hb⟩ | ⟨h, h', hb⟩ | ⟨h, h', hb⟩ | ⟨h, hb⟩ <;>
    subst hb <;>
    refine ⟨?_, ?_, ?_, ?_, ?_, ?_⟩ <;>
    constructor <;> intro g <;>
    first
      | rfl
      | exact h
      | exact ⟨h, h'⟩
      | (exfalso; omega)
      | (exfalso; linarith)

/-- Away from the cut points the binary64 tests select the bucket of the exact
partition: bucket `k` when the exact elapsed time lies between the exact cut
points `k - 1` and `k` with a relative margin of `2^-48`. -/
theorem bucketOf_far (d t : Int) (hd : 0 ≤ d) (ht : 0 ≤ t) (k : Nat) (hk : k ≤ 5)
    (hlo : k = 0 ∨
      exactCut d (k - 1) + exactCut d (k - 1) / 281474976710656 < (t : ℚ) / 1000000000)
    (hhi : k = 5 ∨
      (t : ℚ) / 1000000000 + (t : ℚ) / 1000000000 / 281474976710656 ≤ exactCut d k) :
    bucketOf d t = k := by
  obtain ⟨i0, i1, i2, i3, i4, i5⟩ := bucketOf_iff d t hd
  have hS := Seconds_near t ht
  have hE : (0 : ℚ) ≤ (t : ℚ) / 1000000000 := by
    have : (0 : ℚ) ≤ (t : ℚ) := by exact_mod_cast ht
    positivity
  have n0 := exactCut_nonneg d hd
  have c := cutPoint_near d hd
  generalize Seconds t = S at *
  generalize (t : ℚ) / 1000000000 = E at *
  interval_cases k
  · rw [i0]
    rcases hhi with h | h
    · omega
    · linarith [(c 0).1, n0 0, hS.1, hS.2]
  · rw [i1]
    rcases hlo with h | h
    · omega
    rcases hhi with h' | h'
    · omega
    change exactCut d 0 + exactCut d 0 / 281474976710656 < E at h
    · exact ⟨by linarith [(c 0).2, n0 0, hS.1, hS.2], by linarith [(c 1).1, n0 1, hS.1, hS.2]⟩
  · rw [i2]
    rcases hlo with h | h
    · omega
    rcases hhi with h' | h'
    · omega
    change exactCut d 1 + exactCut d 1 / 281474976710656 < E at h
    · exact ⟨by linarith [(c 1).2, n0 1, hS.1, hS.2], by linarith [(c 2).1, n0 2, hS.1, hS.2]⟩
  · rw [i3]
    rcases hlo with h | h
    · omega
    rcases hhi with h' | h'
    · omega
    change exactCut d 2 + exactCut d 2 / 281474976710656 < E at h
    · exact ⟨by linarith [(c 2).2, n0 2, hS.1, hS.2], by linarith [(c 3).1, n0 3, hS.1, hS.2]⟩
  · rw [i4]
    rcases hlo with h | h
    · omega
    rcases hhi with h' | h'
    · omega
    change exactCut d 3 + exactCut d 3 / 281474976710656 < E at h
    · exact ⟨by linarith [(c 3).2, n0 3, hS.1, hS.2], by linarith [(c 4).1, n0 4, hS.1, hS.2]⟩
  · rw [i5]
    rcases hlo with h | h
    · omega
    change exactCut d 4 + exactCut d 4 / 281474976710656 < E at h
    · linarith [(c 4).2, n0 4, hS.1, hS.2]

theorem Seconds_le {t : Int} (ht : 0 ≤ t) {b : ℚ}
    (h : (t : ℚ) / 1000000000 + (t : ℚ) / 1000000000 / 1125899906842624 ≤ b) :
    Seconds t ≤ b :=
  le_trans (Seconds_near t ht).2 h

theorem foldl_AddSize_MetricReqSec (calls : List (Int × Int)) :
    ∀ s : Sample, (calls.foldl (fun s c => AddSize s c.1 c.2) s).MetricReqSec
      = calls.foldl (fun r c => bumpReq (bucketOf s.TimeSleep c.1) r) s.MetricReqSec := by
  induction calls with
  | nil => intro s; rfl
  | cons c rest ih =>
    intro s
    simp only [List.foldl_cons]
    rw [ih, AddSize_TimeSleep, AddSize_MetricReqSec]

theorem foldl_AddSize_MetricBodySize (calls : List (Int × Int)) :
    ∀ s : Sample, (calls.foldl (fun s c => AddSize s c.1 c.2) s).MetricBodySize
      = calls.foldl (fun b c => setBody (bucketOf s.TimeSleep c.1) c.2 b) s.MetricBodySize := by
  induction calls with
  | nil => intro s; rfl
  | cons c rest ih =>
    intro s
    simp only [List.foldl_cons]
    rw [ih, AddSize_TimeSleep, AddSize_MetricBodySize]

theorem foldl_AddSize_TimeSleep (calls : List (Int × Int)) :
    ∀ s : Sample, (calls.foldl (fun s c => AddSize s c.1 c.2) s).TimeSleep = s.TimeSleep := by
  induction calls with
  | nil => intro s; rfl
  | cons c rest ih =>
    intro s
    simp only [List.foldl_cons]
    rw [ih, AddSize_TimeSleep]

theorem run_TimeSleep (d : Int) (calls : List (Int × Int)) : (run d calls).TimeSleep = d :=
  foldl_AddSize_TimeSleep calls _

theorem run_MetricReqSec (d : Int) (calls : List (Int × Int)) :
    (run d calls).MetricReqSec
      = calls.foldl (fun r c => bumpReq (bucketOf d c.1) r) ⟨0, 0, 0, 0, 0⟩ :=
  foldl_AddSize_MetricReqSec calls _

theorem run_MetricBodySize (d : Int) (calls : List (Int × Int)) :
    (run d calls).MetricBodySize
      = calls.foldl (fun b c => setBody (bucketOf d c.1) c.2 b) ⟨0, 0, 0, 0, 0⟩ :=
  foldl_AddSize_MetricBodySize calls _

/-- The buckets of the elapsed times of the fixtures: 0.5 s, 5 s, 30 s and 60 s
of a 100 s run, 3 s and 6 s of a 10 s run. -/
theorem bucketOf_fixtures :
    bucketOf 100 500000000 = 0 ∧ bucketOf 100 5000000000 = 1 ∧
    bucketOf 100 30000000000 = 2 ∧ bucketOf 100 60000000000 = 3 ∧
    bucketOf 10 3000000000 = 2 ∧ bucketOf 10 6000000000 = 3 := by
  refine ⟨?_, ?_, ?_, ?_, ?_, ?_⟩
  · exact bucketOf_far 100 500000000 (by decide) (by decide) 0 (by decide)
      (Or.inl rfl) (Or.inr (by norm_num [exactCut]))
  · exact bucketOf_far 100 5000000000 (by decide) (by decide) 1 (by decide)
      (Or.inr (by norm_num [exactCut])) (Or.inr (by norm_num [exactCut]))
  · exact bucketOf_far 100 30000000000 (by decide) (by decide) 2 (by decide)
      (Or.inr (by norm_num [exactCut])) (Or.inr (by norm_num [exactCut]))
  · exact bucketOf_far 100 60000000000 (by decide) (by decide) 3 (by decide)
      (Or.inr (by norm_num [exactCut])) (Or.inr (by norm_num [exactCut]))
  · exact bucketOf_far 10 3000000000 (by decide) (by decide) 2 (by decide)
      (Or.inr (by norm_num [exactCut])) (Or.inr (by norm_num [exactCut]))
  · exact bucketOf_far 10 6000000000 (by decide) (by decide) 3 (by decide)
      (Or.inr (by norm_num [exactCut])) (Or.inr (by norm_num [exactCut]))

/-- C1, as stated, fails. Three runs with declared duration 100 s and elapsed
times within [0 s, 100 s] leave non-zero request counts that decrease in bucket
order: two calls at 0.5 s and one at 30 s (no call between 1 s and 10 s) give
`P1 = 2`, `P50 = 1`; a call at 5 s followed by two calls at 0.5 s gives `P1 = 2`,
`P10 = 1`; two calls at 30 s and one at 60 s give `P50 = 2`, `P97 = 1`. -/
theorem AddSize_counts_can_decrease :
    (1 ≤ (100 : Int)) ∧
    (∀ c ∈ [((500000000 : Int), (7 : Int)), (500000000, 9), (30000000000, 11)],
        0 ≤ c.1 ∧ Seconds c.1 ≤ 100) ∧
    ¬ trafficNonDecreasing
        (run 100 [(500000000, 7), (500000000, 9), (30000000000, 11)]).MetricReqSec ∧
    (∀ c ∈ [((5000000000 : Int), (7 : Int)), (500000000, 9), (500000000, 11)],
        0 ≤ c.1 ∧ Seconds c.1 ≤ 100) ∧
    ¬ trafficNonDecreasing
        (run 100 [(5000000000, 7), (500000000, 9), (500000000, 11)]).MetricReqSec ∧
    (∀ c ∈ [((30000000000 : Int), (7 : Int)), (30000000000, 9), (60000000000, 11)],
        0 ≤ c.1 ∧ Seconds c.1 ≤ 100) ∧
    ¬ trafficNonDecreasing
        (run 100 [(30000000000, 7), (30000000000, 9), (60000000000, 11)]).MetricReqSec := by
  obtain ⟨b0, b1, b2, b3, -, -⟩ := bucketOf_fixtures
  have e1 : (run 100 [(500000000, 7), (500000000, 9), (30000000000, 11)]).MetricReqSec
      = ⟨2, 0, 1, 0, 0⟩ := by
    rw [run_MetricReqSec]
    simp only [List.foldl_cons, List.foldl_nil, b0, b2]
    decide
  have e2 : (run 100 [(5000000000, 7), (500000000, 9), (500000000, 11)]).MetricReqSec
      = ⟨2, 1, 0, 0, 0⟩ := by
    rw [run_MetricReqSec]
    simp only [List.foldl_cons, List.foldl_nil, b0, b1]
    decide
  have e3 : (run 100 [(30000000000, 7), (30000000000, 9), (60000000000, 11)]).MetricReqSec
      = ⟨0, 0, 2, 1, 0⟩ := by
    rw [run_MetricReqSec]
    simp only [List.foldl_cons, List.foldl_nil, b2, b3]
    decide
  rw [e1, e2, e3]
  refine ⟨by decide, ?_, ?_, ?_, ?_, ?_, ?_⟩
  · intro c hc
    simp only [List.mem_cons, List.mem_singleton, List.not_mem_nil, or_false] at hc
    rcases hc with h | h | h <;> subst h <;>
      exact ⟨by decide, Seconds_le (by decide) (by norm_num)⟩
  · simp [trafficNonDecreasing, counts]
  · intro c hc
    simp only [List.mem_cons, List.mem_singleton, List.not_mem_nil, or_false] at hc
    rcases hc with h | h | h <;> subst h <;>
      exact ⟨by decide, Seconds_le (by decide) (by norm_num)⟩
  · simp [trafficNonDecreasing, counts]
  · intro c hc
    simp only [List.mem_cons, List.mem_singleton, List.not_mem_nil, or_false] at hc
    rcases hc with h | h | h <;> subst h <;>
      exact ⟨by decide, Seconds_le (by decide) (by norm_num)⟩
  · simp [trafficNonDecreasing, counts]

/-- C1, amended. For every declared duration `d` and every sequence of `AddSize`
calls on a fresh `Sample` (after `SetTimeSleep(d)`) whose elapsed times are
non-decreasing from one call to the next, after every call the count of `P10`,
of `P50` and of `P99`, once non-zero, is at least the count of the bucket right
before it (`P1`, `P10` and `P97`). -/
theorem AddSize_adjacent_counts_carried (d : Int) (calls : List (Int × Int))
    (hmono : (calls.map Prod.fst).Sorted (· ≤ ·)) :
    ∀ pre, pre <+: calls → adjacentCarried (run d pre).MetricReqSec := by
  intro pre hpre
  have hs : (pre.map Prod.fst).Sorted (· ≤ ·) :=
    hmono.sublist ((hpre.sublist).map _)
  obtain ⟨k, hk⟩ := foldl_AddSize_stageInv pre (SetTimeSleep New d) 0
    (by simp [stageInv, adjacentCarried, SetTimeSleep, New]) hs (fun _ _ => Nat.zero_le _)
  exact hk.2.2

/-- The amended C1 on a run of a 100 s benchmark with calls at 0.5 s, 5 s, 30 s,
98 s and 98.5 s. -/
theorem AddSize_adjacent_counts_carried_witness :
    ([((500000000 : Int), (7 : Int)), (5000000000, 9), (30000000000, 11),
        (98000000000, 13), (98500000000, 15)].map Prod.fst).Sorted (· ≤ ·) ∧
    adjacentCarried
      (run 100 [(500000000, 7), (5000000000, 9), (30000000000, 11),
        (98000000000, 13), (98500000000, 15)]).MetricReqSec :=
  ⟨by decide,
   AddSize_adjacent_counts_carried 100 _ (by decide) _ (List.prefix_refl _)⟩

end Histogram

/-! ## The latency histogram: `timeSlice` and `CalcLatency` -/

namespace Histogram

open Binary64 (nearest)

theorem wrap64_of_inRange {x : Int} (h : -2 ^ 63 ≤ x ∧ x < 2 ^ 63) : wrap64 x = x := by
  unfold wrap64
  rw [Int.emod_eq_of_lt (by omega) (by omega)]
  omega

theorem wrap64_add_wrap64 (x t : Int) : wrap64 (wrap64 x + t) = wrap64 (x + t) := by
  unfold wrap64
  have : (x + 2 ^ 63) % 2 ^ 64 - 2 ^ 63 + t + 2 ^ 63 = (x + 2 ^ 63) % 2 ^ 64 + t := by ring
  rw [this, Int.emod_add_emod]
  congr 2
  ring

theorem foldl_wrap64 (ts : List Int) :
    ∀ x : Int, ts.foldl (fun total t => wrap64 (total + t)) (wrap64 x) = wrap64 (x + ts.sum) := by
  induction ts with
  | nil => intro x; simp
  | cons t rest ih =>
    intro x
    simp only [List.foldl_cons, List.sum_cons]
    rw [wrap64_add_wrap64, ih, add_assoc]

theorem avg_eq (ts : timeSlice) (hne : ts ≠ []) :
    timeSlice.avg ts = .ok (Int.tdiv (wrap64 ts.sum) ts.length) := by
  have h0 : (0 : Int) = wrap64 0 := by decide
  have hl : ts.length ≠ 0 := by simpa using hne
  unfold timeSlice.avg
  simp only [hl, if_false]
  rw [h0, foldl_wrap64, zero_add]

theorem stdDev_eq (ts : timeSlice) (hne : ts ≠ []) :
    timeSlice.stdDev ts
      = .ok (stdDevFrom (Int.tdiv (wrap64 ts.sum) ts.length) ts) := by
  unfold timeSlice.stdDev
  rw [avg_eq ts hne]
  rfl

theorem index_eq (ts : timeSlice) (i : Int) (h0 : 0 ≤ i) (h1 : i < ts.length) :
    index ts i = .ok (ts.getD i.toNat 0) := by
  unfold index
  simp [h0, h1]

theorem rank_bounds (n : Nat) (p : ℚ) (hn : 0 < n) (hp1 : p ≤ 1) :
    0 ≤ rank n p ∧ rank n p < n := by
  have hx : ⌊(n : ℚ) * p + 0.5⌋ < (n : Int) + 1 := by
    rw [Int.floor_lt]
    have : (n : ℚ) * p ≤ n := by
      have hn0 : (0 : ℚ) ≤ n := by positivity
      nlinarith
    push_cast
    norm_num
    linarith
  have hn' : (0 : Int) < n := by exact_mod_cast hn
  unfold rank
  constructor
  · exact le_max_left _ _
  · rw [max_lt_iff]
    constructor
    · exact hn'
    · omega

theorem percentile_eq (ts : timeSlice) (p : ℚ) (hne : ts ≠ []) (hp0 : 0 ≤ p) (hp1 : p ≤ 1) :
    timeSlice.percentile ts p
      = .ok (Milliseconds (ts.getD (rank ts.length p).toNat 0)) := by
  have hn : 0 < ts.length := List.length_pos.mpr hne
  obtain ⟨hr0, hr1⟩ := rank_bounds ts.length p hn hp1
  have hx0 : (0 : ℚ) ≤ (ts.length : ℚ) * p + 0.5 := by
    have : (0 : ℚ) ≤ (ts.length : ℚ) * p := by positivity
    norm_num
    linarith
  have htr : truncToInt ((ts.length : ℚ) * p + 0.5) = ⌊(ts.length : ℚ) * p + 0.5⌋ := by
    unfold truncToInt
    simp [hx0]
  unfold timeSlice.percentile
  simp only [htr]
  unfold rank at hr0 hr1 ⊢
  have hn' : (0 : Int) < ts.length := by exact_mod_cast hn
  split_ifs with hneg
  · rw [max_eq_left (by omega), index_eq ts 0 (le_refl _) hn']
    rfl
  · rw [max_eq_right (by omega)]
    rw [max_eq_right (by omega)] at hr1
    rw [index_eq ts _ (by omega) hr1]
    rfl

theorem appendCap_gt (grow : Nat → Nat) (len cap : Nat) : len < appendCap grow len cap := by
  unfold appendCap
  split_ifs with h
  · exact h
  · exact lt_of_lt_of_le (Nat.lt_succ_self _) (le_max_left _ _)

theorem foldl_AddTime (grow : Nat → Nat) (ts : List Int) :
    ∀ s : Sample, s.Times.length ≤ s.TimesCap →
      (ts.foldl (AddTime grow) s).Times = s.Times ++ ts ∧
      (ts.foldl (AddTime grow) s).Count = s.Count + ts.length ∧
      (ts.foldl (AddTime grow) s).Times.length ≤ (ts.foldl (AddTime grow) s).TimesCap := by
  induction ts with
  | nil => intro s h; simp [h]
  | cons t rest ih =>
    intro s _
    have h' : (AddTime grow s t).Times.length ≤ (AddTime grow s t).TimesCap := by
      simp only [AddTime, List.length_append, List.length_singleton]
      exact appendCap_gt grow _ _
    obtain ⟨a, b, c⟩ := ih (AddTime grow s t) h'
    simp only [List.foldl_cons]
    refine ⟨?_, ?_, c⟩
    · rw [a]; simp [AddTime]
    · rw [b]; simp [AddTime]; ring

theorem recorded_fields (grow : Nat → Nat) (ts : List Int) :
    (recorded grow ts).Times = ts ∧ (recorded grow ts).Count = ts.length ∧
    ts.length ≤ (recorded grow ts).TimesCap := by
  obtain ⟨a, b, c⟩ := foldl_AddTime grow ts New (by simp [New])
  unfold recorded
  rw [a] at c
  refine ⟨by rw [a]; simp [New], by rw [b]; simp [New], ?_⟩
  simpa [New] using c

theorem sliceTo_length (ts : timeSlice) (cap : Nat) (h : ts.length ≤ cap) :
    sliceTo ts cap ts.length = .ok ts := by
  unfold sliceTo
  have : (0 : Int) ≤ ts.length ∧ (ts.length : Int) ≤ cap := ⟨by positivity, by exact_mod_cast h⟩
  simp [this]

theorem sortTimes_length (ts : timeSlice) : (sortTimes ts).length = ts.length :=
  List.length_insertionSort _ _

theorem CalcLatency_recorded (grow : Nat → Nat) (ts : List Int) (hne : ts ≠ []) :
    CalcLatency (recorded grow ts) = .ok (some (metricsOf (sortTimes ts))) := by
  obtain ⟨hT, hC, hcap⟩ := recorded_fields grow ts
  have hn : 0 < ts.length := List.length_pos.mpr hne
  have hsn : 0 < (sortTimes ts).length := by rw [sortTimes_length]; exact hn
  have hsne : sortTimes ts ≠ [] := List.length_pos.mp hsn
  have hn' : (0 : Int) < (sortTimes ts).length := by exact_mod_cast hsn
  unfold CalcLatency
  rw [hC, hT]
  have h1 : ¬ ((ts.length : Int) = 0) := by omega
  have h2 : ¬ ((ts.length : Int) < 0) := by omega
  simp only [h1, h2, if_false]
  rw [sliceTo_length ts _ hcap]
  simp only [bind, Except.bind, pure, Except.pure]
  rw [avg_eq _ hsne]
  simp only [timeSlice.min, timeSlice.max]
  rw [index_eq _ 0 (le_refl _) hn', index_eq _ _ (by omega) (by omega),
    stdDev_eq _ hsne,
    percentile_eq _ _ hsne (by norm_num) (by norm_num),
    percentile_eq _ _ hsne (by norm_num) (by norm_num),
    percentile_eq _ _ hsne (by norm_num) (by norm_num),
    percentile_eq _ _ hsne (by norm_num) (by norm_num),
    index_eq _ _ (by omega) (by omega)]
  simp only [metricsOf]
  have e1 : ((sortTimes ts).length : Int) - 1 = (((sortTimes ts).length - 1 : Nat) : Int) := by
    omega
  have e2 : ((sortTimes ts).length : Int) / 2 = (((sortTimes ts).length / 2 : Nat) : Int) := by
    omega
  rw [e1, e2]
  simp only [Int.toNat_ofNat, Int.toNat_zero]

theorem getD_eq_of_lt (ts : List Int) (i : Nat) (h : i < ts.length) :
    ts.get? i = some (ts.getD i 0) := by
  rw [List.getD_eq_getElem?_getD, List.get?_eq_getElem?, List.getElem?_eq_getElem h]
  simp

theorem sortTimes_fixture5 :
    sortTimes [5000000, 10000000, 15000000, 20000000, 25000000]
      = [5000000, 10000000, 15000000, 20000000, 25000000] := by
  decide

theorem rank_5_p01 : rank 5 0.01 = 0 := by
  unfold rank
  have : ⌊((5 : Nat) : ℚ) * 0.01 + 0.5⌋ = 0 := by
    rw [Int.floor_eq_iff]; norm_num
  rw [this]; decide

/-- C5. For every non-empty sample list `ts` (sorted or not) and every `p` among
0.01, 0.10, 0.97, 0.99, the rank `max(0, floor(n·p + 0.5) − 1)` is a valid index
of `ts` and `percentile(p)` returns, without a panic, the sample at that rank
in whole milliseconds; on the sorted fixture [5, 10, 15, 20, 25] ms,
`percentile(0.01)` is 5 ms. -/
theorem percentile_is_sample_at_rank :
    (∀ (ts : timeSlice) (p : ℚ), ts ≠ [] → p ∈ [(0.01 : ℚ), 0.10, 0.97, 0.99] →
      (0 ≤ rank ts.length p ∧ rank ts.length p < ts.length) ∧
      ∃ t, ts.get? (rank ts.length p).toNat = some t ∧
        timeSlice.percentile ts p = .ok (Milliseconds t)) ∧
    timeSlice.percentile [5000000, 10000000, 15000000, 20000000, 25000000] 0.01 = .ok 5 := by
  have gen : ∀ (ts : timeSlice) (p : ℚ), ts ≠ [] → p ∈ [(0.01 : ℚ), 0.10, 0.97, 0.99] →
      (0 ≤ rank ts.length p ∧ rank ts.length p < ts.length) ∧
      ∃ t, ts.get? (rank ts.length p).toNat = some t ∧
        timeSlice.percentile ts p = .ok (Milliseconds t) := by
    intro ts p hne hp
    have hp01 : 0 ≤ p ∧ p ≤ 1 := by
      simp only [List.mem_cons, List.mem_singleton, List.not_mem_nil, or_false] at hp
      rcases hp with h | h | h | h <;> subst h <;> norm_num
    have hb := rank_bounds ts.length p (List.length_pos.mpr hne) hp01.2
    refine ⟨hb, ts.getD (rank ts.length p).toNat 0, ?_, percentile_eq ts p hne hp01.1 hp01.2⟩
    exact getD_eq_of_lt ts _ (by omega)
  refine ⟨gen, ?_⟩
  rw [percentile_eq _ _ (by simp) (by norm_num) (by norm_num)]
  simp only [List.length_cons, List.length_nil]
  rw [rank_5_p01]
  rfl

/-- The general part of C5 at the samples [7, 9, 12] ms and `p = 0.97`. -/
theorem percentile_is_sample_at_rank_witness :
    ([7000000, 9000000, 12000000] : timeSlice) ≠ [] ∧
    (0.97 : ℚ) ∈ [(0.01 : ℚ), 0.10, 0.97, 0.99] ∧
    ((0 ≤ rank 3 0.97 ∧ rank 3 0.97 < 3) ∧
      ∃ t, ([7000000, 9000000, 12000000] : timeSlice).get? (rank 3 0.97).toNat = some t ∧
        timeSlice.percentile [7000000, 9000000, 12000000] 0.97 = .ok (Milliseconds t)) :=
  ⟨by simp, by simp,
   percentile_is_sample_at_rank.1 [7000000, 9000000, 12000000] 0.97 (by simp) (by simp)⟩

theorem rank_4_half : rank 4 0.5 = 1 := by
  unfold rank
  have : ⌊((4 : Nat) : ℚ) * 0.5 + 0.5⌋ = 2 := by
    rw [Int.floor_eq_iff]; norm_num
  rw [this]; decide

/-- The sorted snapshot of samples inserted in any order of an ascending list
is that list. -/
theorem sortTimes_of_perm {ts l : List Int} (hp : ts.Perm l) (hs : l.Sorted (· ≤ ·)) :
    sortTimes ts = l :=
  List.eq_of_perm_of_sorted ((List.perm_insertionSort _ ts).trans hp)
    (List.sorted_insertionSort _ ts) hs

/-- C6. For every non-empty sequence `ts` of recorded samples, in any order,
`CalcLatency` computes its metrics and reports as `P50` the sample at index
`n / 2` (integer division, a valid index) of the sorted snapshot, in whole
milliseconds, the sorted snapshot being the ascending arrangement of the
recorded samples (ascending, and a permutation of `ts`); on the fixture
[5, 10, 15, 20, 25] ms, recorded in any order, this is 15 ms; and the rule is
not the general rank formula: on [1, 2, 3, 4] ms, recorded in any order, `P50`
is 3 ms while `percentile(0.5)` of the sorted snapshot is 2 ms. -/
theorem CalcLatency_P50_is_middle_sample :
    (∀ (grow : Nat → Nat) (ts : List Int), ts ≠ [] →
      ∃ m t, CalcLatency (recorded grow ts) = .ok (some m) ∧
        (sortTimes ts).Sorted (· ≤ ·) ∧ (sortTimes ts).Perm ts ∧
        ts.length / 2 < (sortTimes ts).length ∧
        (sortTimes ts).get? (ts.length / 2) = some t ∧
        m.P50 = Milliseconds t) ∧
    (∀ (grow : Nat → Nat) (ts : List Int),
      ts.Perm [5000000, 10000000, 15000000, 20000000, 25000000] →
      ∃ m, CalcLatency (recorded grow ts) = .ok (some m) ∧ m.P50 = 15) ∧
    (∀ (grow : Nat → Nat) (ts : List Int), ts.Perm [1000000, 2000000, 3000000, 4000000] →
      ∃ m, CalcLatency (recorded grow ts) = .ok (some m) ∧ m.P50 = 3 ∧
        timeSlice.percentile (sortTimes ts) 0.5 = .ok 2) := by
  refine ⟨?_, ?_, ?_⟩
  · intro grow ts hne
    have hlt : ts.length / 2 < (sortTimes ts).length := by
      rw [sortTimes_length]
      exact Nat.div_lt_self (List.length_pos.mpr hne) (by norm_num)
    refine ⟨_, (sortTimes ts).getD (ts.length / 2) 0, CalcLatency_recorded grow ts hne,
      List.sorted_insertionSort _ ts, List.perm_insertionSort _ ts, hlt,
      getD_eq_of_lt _ _ hlt, ?_⟩
    simp only [metricsOf, sortTimes_length]
  · intro grow ts hp
    have hne : ts ≠ [] := by
      intro h
      rw [h] at hp
      exact absurd hp.length_eq (by simp)
    refine ⟨_, CalcLatency_recorded grow ts hne, ?_⟩
    rw [sortTimes_of_perm hp (by decide)]
    rfl
  · intro grow ts hp
    have hne : ts ≠ [] := by
      intro h
      rw [h] at hp
      exact absurd hp.length_eq (by simp)
    have hs : sortTimes ts = [1000000, 2000000, 3000000, 4000000] :=
      sortTimes_of_perm hp (by decide)
    refine ⟨_, CalcLatency_recorded grow ts hne, ?_, ?_⟩
    · rw [hs]; rfl
    · rw [hs, percentile_eq _ _ (by simp) (by norm_num) (by norm_num)]
      simp only [List.length_cons, List.length_nil]
      rw [rank_4_half]
      rfl

/-- C6 on the samples 30 ms, 10 ms, 20 ms, recorded in that order: the sorted
snapshot is [10, 20, 30] ms and `P50` is its element at index 1, 20 ms (the
sample at index 1 of the recorded order is 10 ms). -/
theorem CalcLatency_P50_is_middle_sample_witness :
    ([30000000, 10000000, 20000000] : List Int) ≠ [] ∧
    sortTimes [30000000, 10000000, 20000000] = [10000000, 20000000, 30000000] ∧
    ∃ m, CalcLatency (recorded (fun c => 2 * c) [30000000, 10000000, 20000000]) = .ok (some m) ∧
      m.P50 = 20 := by
  have hs : sortTimes [30000000, 10000000, 20000000] = [10000000, 20000000, 30000000] := by
    decide
  obtain ⟨m, t, hm, -, -, -, ht, hp⟩ :=
    CalcLatency_P50_is_middle_sample.1 (fun c => 2 * c) [30000000, 10000000, 20000000]
      (by simp)
  refine ⟨by simp, hs, m, hm, ?_⟩
  rw [hs] at ht
  have e : t = 20000000 := by
    simp only [List.length_cons, List.length_nil] at ht
    have h1 : ([10000000, 20000000, 30000000] : List Int).get? 1 = some 20000000 := rfl
    have h2 : (0 + 1 + 1 + 1) / 2 = 1 := by decide
    rw [h2, h1] at ht
    exact (Option.some.inj ht).symm
  rw [hp, e]
  decide

/-- C7, as stated, fails: on the two samples `2^62` ns and `2^62` ns the `int64`
sum wraps to `-2^63` and `avg` returns `-2^62` ns, while the sum of the samples
divided by their number is `2^62` ns. -/
theorem avg_wraps_when_the_sum_overflows :
    ([4611686018427387904, 4611686018427387904] : timeSlice) ≠ [] ∧
    timeSlice.avg [4611686018427387904, 4611686018427387904]
      = .ok (-4611686018427387904) ∧
    Int.tdiv (List.sum [4611686018427387904, 4611686018427387904])
      (List.length [(4611686018427387904 : Int), 4611686018427387904])
      = 4611686018427387904 := by
  refine ⟨by simp, ?_, by decide⟩
  rw [avg_eq _ (by simp)]
  rfl

/-- C7, amended. For every non-empty sample list whose sum lies in the `int64`
range, `avg` returns the sum of the samples divided by their number, with the
integer division on nanoseconds that truncates toward zero. -/
theorem avg_is_truncated_mean (ts : timeSlice) (hne : ts ≠ [])
    (hfit : -2 ^ 63 ≤ ts.sum ∧ ts.sum < 2 ^ 63) :
    timeSlice.avg ts = .ok (Int.tdiv ts.sum ts.length) := by
  rw [avg_eq ts hne, wrap64_of_inRange hfit]

/-- The amended C7 on the fixture [10 ms, 20 ms, 30 ms]: the average is exactly
20 ms. -/
theorem avg_is_truncated_mean_witness :
    timeSlice.avg [10000000, 20000000, 30000000] = .ok 20000000 := by
  have h := avg_is_truncated_mean [10000000, 20000000, 30000000] (by simp) (by decide)
  rw [h]
  rfl

theorem getD_mem (l : List Int) (i : Nat) (h : i < l.length) : l.getD i 0 ∈ l := by
  rw [List.getD_eq_getElem l 0 h]
  exact List.getElem_mem h

theorem sorted_first_le (l : List Int) (hs : l.Sorted (· ≤ ·)) (x : Int) (hx : x ∈ l) :
    l.getD 0 0 ≤ x := by
  obtain ⟨n, hn, rfl⟩ := List.mem_iff_getElem.mp hx
  have h0 : 0 < l.length := by omega
  rw [List.getD_eq_getElem l 0 h0]
  exact hs.rel_get_of_le (a := ⟨0, h0⟩) (b := ⟨n, hn⟩) (Nat.zero_le _)

theorem sorted_le_last (l : List Int) (hs : l.Sorted (· ≤ ·)) (x : Int) (hx : x ∈ l) :
    x ≤ l.getD (l.length - 1) 0 := by
  obtain ⟨n, hn, rfl⟩ := List.mem_iff_getElem.mp hx
  have h1 : l.length - 1 < l.length := by omega
  rw [List.getD_eq_getElem l 0 h1]
  exact hs.rel_get_of_le (a := ⟨n, hn⟩) (b := ⟨l.length - 1, h1⟩) (by
    show n ≤ l.length - 1
    omega)

theorem sortTimes_sorted (ts : timeSlice) : (sortTimes ts).Sorted (· ≤ ·) :=
  List.sorted_insertionSort (· ≤ ·) ts

theorem mem_sortTimes (ts : timeSlice) (x : Int) : x ∈ sortTimes ts ↔ x ∈ ts :=
  (List.perm_insertionSort (· ≤ ·) ts).mem_iff

theorem min_max_of_recorded (grow : Nat → Nat) (ts : List Int) (hne : ts ≠ []) :
    ∃ m, CalcLatency (recorded grow ts) = .ok (some m) ∧
      (sortTimes ts).head? = some m.Min ∧ (sortTimes ts).getLast? = some m.Max ∧
      m.Min ∈ ts ∧ m.Max ∈ ts ∧ ∀ t ∈ ts, m.Min ≤ t ∧ t ≤ m.Max := by
  have hn : 0 < (sortTimes ts).length := by
    rw [sortTimes_length]; exact List.length_pos.mpr hne
  have hsne : sortTimes ts ≠ [] := List.length_pos.mp hn
  have h1 : (sortTimes ts).length - 1 < (sortTimes ts).length := by omega
  refine ⟨_, CalcLatency_recorded grow ts hne, ?_, ?_, ?_, ?_, ?_⟩
  · simp only [metricsOf]
    rw [List.getD_eq_getElem _ 0 hn, List.head?_eq_head hsne, List.head_eq_getElem]
  · simp only [metricsOf]
    rw [List.getD_eq_getElem _ 0 h1, List.getLast?_eq_getLast _ hsne, List.getLast_eq_getElem]
  · exact (mem_sortTimes ts _).mp (getD_mem _ _ hn)
  · exact (mem_sortTimes ts _).mp (getD_mem _ _ h1)
  · intro t ht
    have ht' := (mem_sortTimes ts t).mpr ht
    exact ⟨sorted_first_le _ (sortTimes_sorted ts) t ht',
      sorted_le_last _ (sortTimes_sorted ts) t ht'⟩

/-- C9. For every non-empty sequence `ts` of `AddTime` calls, in any order,
`CalcLatency` computes its metrics, `Min` is the first and `Max` the last
element of the sorted snapshot, both are recorded samples, and every recorded
sample lies between them; for the fixture 10 ms, 20 ms, 30 ms inserted in any
order, `Min` is 10 ms and `Max` is 30 ms. -/
theorem CalcLatency_min_max :
    (∀ (grow : Nat → Nat) (ts : List Int), ts ≠ [] →
      ∃ m, CalcLatency (recorded grow ts) = .ok (some m) ∧
        (sortTimes ts).head? = some m.Min ∧ (sortTimes ts).getLast? = some m.Max ∧
        m.Min ∈ ts ∧ m.Max ∈ ts ∧ ∀ t ∈ ts, m.Min ≤ t ∧ t ≤ m.Max) ∧
    (∀ (grow : Nat → Nat) (ts : List Int), ts.Perm [10000000, 20000000, 30000000] →
      ∃ m, CalcLatency (recorded grow ts) = .ok (some m) ∧
        m.Min = 10000000 ∧ m.Max = 30000000) := by
  refine ⟨min_max_of_recorded, ?_⟩
  intro grow ts hp
  have hne : ts ≠ [] := by
    intro h
    rw [h] at hp
    exact absurd hp.length_eq (by simp)
  obtain ⟨m, hm, -, -, hmin, hmax, hall⟩ := min_max_of_recorded grow ts hne
  refine ⟨m, hm, ?_, ?_⟩
  · have h10 := (hall 10000000 (hp.mem_iff.mpr (by simp))).1
    have := hp.mem_iff.mp hmin
    simp only [List.mem_cons, List.mem_singleton, List.not_mem_nil, or_false] at this
    omega
  · have h30 := (hall 30000000 (hp.mem_iff.mpr (by simp))).2
    have := hp.mem_iff.mp hmax
    simp only [List.mem_cons, List.mem_singleton, List.not_mem_nil, or_false] at this
    omega

/-- The general part of C9 at the samples 30 ms, 10 ms, 20 ms. -/
theorem CalcLatency_min_max_witness :
    ([30000000, 10000000, 20000000] : List Int) ≠ [] ∧
    ∃ m, CalcLatency (recorded (fun c => 2 * c) [30000000, 10000000, 20000000]) = .ok (some m) ∧
      (sortTimes [30000000, 10000000, 20000000]).head? = some m.Min ∧
      (sortTimes [30000000, 10000000, 20000000]).getLast? = some m.Max ∧
      m.Min ∈ [30000000, 10000000, (20000000 : Int)] ∧
      m.Max ∈ [30000000, 10000000, (20000000 : Int)] ∧
      ∀ t ∈ [30000000, 10000000, (20000000 : Int)], m.Min ≤ t ∧ t ≤ m.Max :=
  ⟨by simp, CalcLatency_min_max.1 (fun c => 2 * c) _ (by simp)⟩

theorem AddSize_Times (s : Sample) (t size : Int) :
    (AddSize s t size).Times = s.Times ∧ (AddSize s t size).TimesCap = s.TimesCap ∧
    (AddSize s t size).Count = s.Count + 1 := by
  unfold AddSize
  simp only
  split_ifs <;> exact ⟨rfl, rfl, rfl⟩

theorem foldl_AddSize_Times (calls : List (Int × Int)) :
    ∀ s : Sample,
      (calls.foldl (fun s c => AddSize s c.1 c.2) s).Times = s.Times ∧
      (calls.foldl (fun s c => AddSize s c.1 c.2) s).TimesCap = s.TimesCap ∧
      (calls.foldl (fun s c => AddSize s c.1 c.2) s).Count = s.Count + calls.length := by
  induction calls with
  | nil => intro s; simp
  | cons c rest ih =>
    intro s
    obtain ⟨a, b, d⟩ := ih (AddSize s c.1 c.2)
    obtain ⟨a', b', d'⟩ := AddSize_Times s c.1 c.2
    simp only [List.foldl_cons, List.length_cons]
    rw [a, b, d, a', b', d']
    push_cast
    exact ⟨rfl, rfl, by ring⟩

/-- C10 fails on the code. On a fresh `Sample` `CalcLatency` returns at its guard,
but the guard tests `Count`, which `AddSize` increments too: after
`SetTimeSleep(10)` and one `AddSize(0, 5)`, with no sample recorded, `Times` is
still the nil slice and `CalcLatency` panics at `s.Times[:s.Count]`; the same
holds after any non-empty sequence of `AddSize` calls. -/
theorem CalcLatency_panics_after_AddSize_alone :
    CalcLatency New = .ok none ∧
    (AddSize (SetTimeSleep New 10) 0 5).Times = [] ∧
    CalcLatency (AddSize (SetTimeSleep New 10) 0 5) = .error .sliceBoundsOutOfRange ∧
    (∀ (d : Int) (calls : List (Int × Int)), calls ≠ [] →
      (run d calls).Times = [] ∧
      CalcLatency (run d calls) = .error .sliceBoundsOutOfRange) := by
  have gen : ∀ (d : Int) (calls : List (Int × Int)), calls ≠ [] →
      (run d calls).Times = [] ∧
      CalcLatency (run d calls) = .error .sliceBoundsOutOfRange := by
    intro d calls hne
    obtain ⟨a, b, c⟩ := foldl_AddSize_Times calls (SetTimeSleep New d)
    have hn : 0 < calls.length := List.length_pos.mpr hne
    have a' : (run d calls).Times = [] := by rw [run, a]; rfl
    have b' : (run d calls).TimesCap = 0 := by rw [run, b]; rfl
    have c' : (run d calls).Count = calls.length := by rw [run, c]; simp [SetTimeSleep, New]
    refine ⟨a', ?_⟩
    unfold CalcLatency
    rw [c', a', b']
    have h1 : ¬ ((calls.length : Int) = 0) := by omega
    have h2 : ¬ ((calls.length : Int) < 0) := by omega
    have h3 : ¬ ((0 : Int) ≤ calls.length ∧ (calls.length : Int) ≤ ((0 : Nat) : Int)) := by
      omega
    simp only [h1, h2, if_false, sliceTo, h3]
    rfl
  have e : AddSize (SetTimeSleep New 10) 0 5 = run 10 [(0, 5)] := rfl
  refine ⟨rfl, ?_, ?_, gen⟩
  · rw [e]; exact (gen 10 [(0, 5)] (by simp)).1
  · rw [e]; exact (gen 10 [(0, 5)] (by simp)).2

end Histogram

/-! ## The latency histogram: the standard deviation -/

namespace Histogram

open Binary64 (nearest)

theorem sumSqDev_nonneg (m : Int) (ts : timeSlice) : 0 ≤ sumSqDev m ts := by
  unfold sumSqDev
  apply List.sum_nonneg
  intro x hx
  simp only [List.mem_map] at hx
  obtain ⟨t, _, rfl⟩ := hx
  positivity

theorem sumSqDev_cons (m t : Int) (rest : timeSlice) :
    sumSqDev m (t :: rest) = (m - t) ^ 2 + sumSqDev m rest := by
  simp [sumSqDev]

/-- While the exact sum of the squares stays below `2^53`, no step of the loop of
`stdDev` rounds: the binary64 sum is the exact sum. -/
theorem foldl_squaredDeviations_exact (m : Int) (ts : timeSlice) :
    ∀ acc : Int, 0 ≤ acc → acc + sumSqDev m ts < 2 ^ 53 →
      ts.foldl
        (fun s t =>
          nearest (s + nearest (nearest (wrap64 (m - t) : ℚ) * nearest (wrap64 (m - t) : ℚ))))
        (acc : ℚ)
        = ((acc + sumSqDev m ts : Int) : ℚ) := by
  induction ts with
  | nil => intro acc _ _; simp [sumSqDev]
  | cons t rest ih =>
    intro acc h0 hlt
    rw [sumSqDev_cons] at hlt ⊢
    have hr := sumSqDev_nonneg m rest
    have hsq : 0 ≤ (m - t) ^ 2 := by positivity
    have hd2 : (m - t) ^ 2 < 2 ^ 53 := by omega
    have habs : |m - t| < 2 ^ 53 := by
      have h1 : |m - t| ≤ |m - t| ^ 2 := by
        rcases eq_or_lt_of_le (abs_nonneg (m - t)) with h | h
        · rw [← h]; norm_num
        · nlinarith
      rw [sq_abs] at h1
      omega
    have hw : wrap64 (m - t) = m - t := by
      apply wrap64_of_inRange
      rw [abs_lt] at habs
      constructor <;> omega
    simp only [List.foldl_cons]
    rw [hw, Binary64.nearest_intCast (m - t) habs]
    have e1 : ((m - t : Int) : ℚ) * ((m - t : Int) : ℚ) = (((m - t) ^ 2 : Int) : ℚ) := by
      push_cast; ring
    rw [e1, Binary64.nearest_intCast ((m - t) ^ 2) (by rw [abs_of_nonneg hsq]; exact hd2)]
    have e2 : (acc : ℚ) + (((m - t) ^ 2 : Int) : ℚ) = ((acc + (m - t) ^ 2 : Int) : ℚ) := by
      push_cast; ring
    rw [e2, Binary64.nearest_intCast (acc + (m - t) ^ 2)
      (by rw [abs_of_nonneg (by omega)]; omega)]
    rw [ih (acc + (m - t) ^ 2) (by omega) (by omega)]
    congr 1
    ring

/-- The binary64 square root of the rounded quotient `S / N` lies in `[R, R + 1)`
when the exact quotient lies in `[R², (R + 1)² - 1 / N]` and `N · (R + 1)²` is at
most `2^50`. -/
theorem sqrt_nearest_bracket (S : ℚ) (N R : ℕ) (hN : (1 : ℚ) ≤ (N : ℚ)) (hS : 0 ≤ S)
    (hlo : (R : ℚ) ^ 2 * (N : ℚ) ≤ S) (hhi : S + 1 ≤ ((R : ℚ) + 1) ^ 2 * (N : ℚ))
    (hr : N * (R + 1) ^ 2 ≤ 1125899906842624) :
    (R : ℚ) ≤ Binary64.sqrt (nearest (S / (N : ℚ))) ∧
    Binary64.sqrt (nearest (S / (N : ℚ))) < (R : ℚ) + 1 := by
  have hNq : (0 : ℚ) < (N : ℚ) := by linarith
  have hN1 : 1 ≤ N := by exact_mod_cast hN
  have hRq : (0 : ℚ) ≤ (R : ℚ) := by positivity
  rcases eq_or_lt_of_le hS with h0 | hpos
  · -- no deviation at all
    subst h0
    have hR : (R : ℚ) = 0 := by
      have h1 : (R : ℚ) ^ 2 * (N : ℚ) ≤ 0 := hlo
      have h2 : (R : ℚ) ^ 2 ≤ 0 := by
        by_contra hc
        push_neg at hc
        have := mul_pos hc hNq
        linarith
      have h3 : (R : ℚ) ^ 2 = 0 := le_antisymm h2 (by positivity)
      exact pow_eq_zero_iff (by norm_num) |>.mp h3
    rw [zero_div, Binary64.nearest_zero, Binary64.sqrt_zero, hR]
    norm_num
  · set x := S / (N : ℚ) with hx
    have hx0 : 0 < x := div_pos hpos hNq
    set b := 1 / (N : ℚ) with hb
    have hb0 : 0 < b := by positivity
    have hbN : b * (N : ℚ) = 1 := by rw [hb]; field_simp
    have hxS : x = S * b := by rw [hx, hb]; ring
    set T := ((R : ℚ) + 1) ^ 2 with hT
    have hT0 : 0 < T := by positivity
    have hrq : (N : ℚ) * T ≤ 1125899906842624 := by
      rw [hT]; exact_mod_cast hr
    have hxlo : (R : ℚ) ^ 2 ≤ x := by
      rw [hx, le_div_iff₀ hNq]; exact hlo
    have hxhi : x ≤ T - b := by
      have := mul_le_mul_of_nonneg_right hhi (le_of_lt hb0)
      have e : T * (N : ℚ) * b = T := by rw [mul_assoc, mul_comm (N : ℚ) b, hbN, mul_one]
      rw [e] at this
      rw [hxS]; linarith
    have hTb : T ≤ 1125899906842624 * b := by
      have := mul_le_mul_of_nonneg_left hrq (le_of_lt hb0)
      have e : b * ((N : ℚ) * T) = T := by rw [← mul_assoc, hbN, one_mul]
      rw [e] at this
      linarith
    have hq0 : 0 < nearest x := by
      rw [Binary64.nearest_of_pos hx0]; exact Binary64.nearestPos_pos hx0
    have hqhi : nearest x ≤ T - 7 * b / 8 := by
      have := (Binary64.nearest_near (le_of_lt hx0)).2
      linarith
    -- the lower bound
    have hR2 : R ^ 2 < 2 ^ 53 := by
      have h1 : R ^ 2 ≤ (R + 1) ^ 2 := Nat.pow_le_pow_left (Nat.le_succ R) 2
      have h2 : (R + 1) ^ 2 ≤ N * (R + 1) ^ 2 := Nat.le_mul_of_pos_left _ hN1
      have h3 : (1125899906842624 : ℕ) < 2 ^ 53 := by norm_num
      omega
    have hR53 : R < 2 ^ 53 := by
      have h1 : R ≤ R ^ 2 := by nlinarith
      omega
    have hlower : (R : ℚ) ≤ Binary64.sqrt (nearest x) := by
      have h1 := Binary64.nearest_dyadic (R ^ 2) 0 hR2
      have h2 : ((R ^ 2 : ℕ) : ℚ) * (2 : ℚ) ^ (0 : ℤ) ≤ x := by
        push_cast; rw [zpow_zero, mul_one]; exact hxlo
      have h3 := Binary64.nearest_mono h2
      rw [h1] at h3
      have h4 : ((R : ℚ) * (2 : ℚ) ^ (0 : ℤ)) ^ 2 ≤ nearest x := by
        rw [zpow_zero, mul_one]
        rw [zpow_zero, mul_one] at h3
        push_cast at h3
        exact h3
      have := Binary64.le_sqrt_of_sq_le hq0 R 0 hR53 h4
      rw [zpow_zero, mul_one] at this
      exact this
    -- the upper bound: a binary64 number `z < R + 1` with `nearest x ≤ z²`
    have hM : 3 * (N * (R + 1)) ≠ 0 := by positivity
    have hj_lo : 3 * (N * (R + 1)) < 2 ^ (Nat.log 2 (3 * (N * (R + 1))) + 1) :=
      Nat.lt_pow_succ_log_self (by norm_num) _
    have hj_hi : 2 ^ (Nat.log 2 (3 * (N * (R + 1))) + 1) ≤ 6 * (N * (R + 1)) := by
      have := Nat.pow_log_le_self 2 hM
      rw [pow_succ]
      omega
    generalize Nat.log 2 (3 * (N * (R + 1))) + 1 = j at hj_lo hj_hi
    have hpow1 : 1 ≤ (R + 1) * 2 ^ j := Nat.one_le_iff_ne_zero.mpr (by positivity)
    have hK1 : (R + 1) * 2 ^ j - 1 + 1 = (R + 1) * 2 ^ j := Nat.sub_add_cancel hpow1
    have hK : (R + 1) * 2 ^ j - 1 < 2 ^ 53 := by
      have h1 : (R + 1) * 2 ^ j ≤ (R + 1) * (6 * (N * (R + 1))) := Nat.mul_le_mul_left _ hj_hi
      have h2 : (R + 1) * (6 * (N * (R + 1))) = 6 * (N * (R + 1) ^ 2) := by ring
      have h3 : (6 : ℕ) * 1125899906842624 < 2 ^ 53 := by norm_num
      omega
    generalize hKdef : (R + 1) * 2 ^ j - 1 = K at hK1 hK
    have hu0 : (0 : ℚ) < (2 : ℚ) ^ j := by positivity
    set a := 1 / (2 : ℚ) ^ j with ha
    have ha0 : 0 < a := by positivity
    have hau : a * (2 : ℚ) ^ j = 1 := by rw [ha]; field_simp
    have hKq : (K : ℚ) = ((R : ℚ) + 1) * (2 : ℚ) ^ j - 1 := by
      have : ((K + 1 : ℕ) : ℚ) = (((R + 1) * 2 ^ j : ℕ) : ℚ) := by rw [hK1]
      push_cast at this
      linarith
    have hz : (K : ℚ) * (2 : ℚ) ^ (-(j : ℤ)) = (R : ℚ) + 1 - a := by
      rw [zpow_neg, zpow_natCast, hKq, ha]
      field_simp
    have hRa : ((R : ℚ) + 1) * a ≤ b / 3 := by
      have h1 : (3 : ℚ) * ((N : ℚ) * ((R : ℚ) + 1)) ≤ (2 : ℚ) ^ j := by
        exact_mod_cast le_of_lt hj_lo
      have h2 := mul_le_mul_of_nonneg_left h1 (le_of_lt (mul_pos ha0 hb0))
      have e1 : a * b * (3 * ((N : ℚ) * ((R : ℚ) + 1))) = 3 * (((R : ℚ) + 1) * a) * (b * (N : ℚ)) := by
        ring
      have e2 : a * b * (2 : ℚ) ^ j = b * (a * (2 : ℚ) ^ j) := by ring
      rw [e1, e2, hbN, hau] at h2
      linarith
    have hzsq : nearest x ≤ ((K : ℚ) * (2 : ℚ) ^ (-(j : ℤ))) ^ 2 := by
      rw [hz]
      have e : ((R : ℚ) + 1 - a) ^ 2 = T - 2 * (((R : ℚ) + 1) * a) + a ^ 2 := by
        rw [hT]; ring
      rw [e]
      have : 0 ≤ a ^ 2 := by positivity
      linarith
    have hupper := Binary64.sqrt_le_of_le_sq hq0 K (-(j : ℤ)) hK hzsq
    rw [hz] at hupper
    exact ⟨hlower, by linarith⟩

/-- The binary64 square root of the binary64 mean square is the exact truncated
root while `n · (R + 1)²` stays within `2^50`. -/
theorem stdDevFrom_exact (m : Int) (ts : timeSlice) (R : ℕ) (hne : ts ≠ [])
    (hlo : (R : Int) ^ 2 * ts.length ≤ sumSqDev m ts)
    (hhi : sumSqDev m ts < ((R : Int) + 1) ^ 2 * ts.length)
    (hrange : (ts.length : Int) * ((R : Int) + 1) ^ 2 ≤ 2 ^ 50) :
    stdDevFrom m ts = R := by
  have hn : 1 ≤ ts.length := List.length_pos.mpr hne
  have hS0 := sumSqDev_nonneg m ts
  have hnI : (1 : Int) ≤ (ts.length : Int) := by exact_mod_cast hn
  have hR0 : (0 : Int) ≤ (R : Int) := by positivity
  have hT1 : (1 : Int) ≤ ((R : Int) + 1) ^ 2 := by nlinarith
  have hrange' : (ts.length : Int) * ((R : Int) + 1) ^ 2 ≤ 1125899906842624 := by
    have e : (2 : Int) ^ 50 = 1125899906842624 := by norm_num
    rw [← e]; exact hrange
  have hn50 : (ts.length : Int) ≤ 1125899906842624 := by
    have := mul_le_mul_of_nonneg_left hT1 (by omega : (0 : Int) ≤ ts.length)
    linarith
  have hT50 : ((R : Int) + 1) ^ 2 ≤ 1125899906842624 := by
    have := mul_le_mul_of_nonneg_right hnI (by omega : (0 : Int) ≤ ((R : Int) + 1) ^ 2)
    linarith
  have hS50 : sumSqDev m ts < 1125899906842624 := by
    have : ((R : Int) + 1) ^ 2 * ts.length = (ts.length : Int) * ((R : Int) + 1) ^ 2 := by ring
    omega
  have hfold := foldl_squaredDeviations_exact m ts 0 (le_refl _) (by norm_num; omega)
  unfold stdDevFrom squaredDeviations
  have e0 : ((0 : Int) : ℚ) = (0 : ℚ) := by norm_num
  rw [e0] at hfold
  rw [hfold, zero_add,
    Binary64.nearest_intCast (ts.length : Int) (by rw [abs_of_nonneg (by omega)]; norm_num; omega)]
  -- the exact mean square and its bounds
  have hnq : (1 : ℚ) ≤ ((ts.length : Int) : ℚ) := by exact_mod_cast hnI
  have hSq : (0 : ℚ) ≤ ((sumSqDev m ts : Int) : ℚ) := by exact_mod_cast hS0
  have hloq : ((R : ℚ)) ^ 2 * ((ts.length : Int) : ℚ) ≤ ((sumSqDev m ts : Int) : ℚ) := by
    exact_mod_cast hlo
  have hhiq : ((sumSqDev m ts : Int) : ℚ) + 1 ≤ ((R : ℚ) + 1) ^ 2 * ((ts.length : Int) : ℚ) := by
    have : sumSqDev m ts + 1 ≤ ((R : Int) + 1) ^ 2 * ts.length := by omega
    exact_mod_cast this
  have hrq : ((ts.length : Int) : ℚ) * ((R : ℚ) + 1) ^ 2 ≤ 1125899906842624 := by
    exact_mod_cast hrange'
  have hRnat : (ts.length) * (R + 1) ^ 2 ≤ 1125899906842624 := by
    exact_mod_cast hrange'
  have hnN : (((ts.length : Int) : ℚ)) = ((ts.length : ℕ) : ℚ) := by norm_num
  generalize ((sumSqDev m ts : Int) : ℚ) = S at *
  generalize hNdef : ts.length = N at *
  rw [hnN] at hnq hloq hhiq hrq ⊢
  clear hnN
  obtain ⟨h1, h2⟩ := sqrt_nearest_bracket S N R hnq hSq hloq hhiq hRnat
  unfold truncToInt
  rw [if_pos (le_trans (by positivity) h1), Int.floor_eq_iff]
  exact ⟨by exact_mod_cast h1, by exact_mod_cast h2⟩

/-- The binary64 computation of `stdDev` on the samples 14426013869 ns,
1908073827 ns, 18517322481 ns, whose average is 11617136725 ns: the squares
and the sums are rounded (the second sum is a tie), and the rounded square root
is 7065603457. -/
theorem stdDevFrom_rounded_fixture :
    stdDevFrom 11617136725 [14426013869, 1908073827, 18517322481] = 7065603457 := by
  have w1 : wrap64 (11617136725 - 14426013869) = -2808877144 := by norm_num [wrap64]
  have w2 : wrap64 (11617136725 - 1908073827) = 9709062898 := by norm_num [wrap64]
  have w3 : wrap64 (11617136725 - 18517322481) = -6900185756 := by norm_num [wrap64]
  have c1 : nearest ((-2808877144 : Int) : ℚ) = ((-2808877144 : Int) : ℚ) :=
    Binary64.nearest_intCast _ (by decide)
  have c2 : nearest ((9709062898 : Int) : ℚ) = ((9709062898 : Int) : ℚ) :=
    Binary64.nearest_intCast _ (by decide)
  have c3 : nearest ((-6900185756 : Int) : ℚ) = ((-6900185756 : Int) : ℚ) :=
    Binary64.nearest_intCast _ (by decide)
  have cn : nearest ((([14426013869, 1908073827, 18517322481] : timeSlice).length : Int) : ℚ)
      = 3 := by
    have := Binary64.nearest_intCast 3 (by decide)
    simpa using this
  have q1 : nearest (((-2808877144 : Int) : ℚ) * ((-2808877144 : Int) : ℚ))
      = ((7704873837974216 : ℤ) : ℚ) * (2 : ℚ) ^ ((62 : ℤ) - 52) := by
    apply Binary64.nearest_eval 62 7704873837974216 <;> norm_num
  have q2 : nearest (((9709062898 : Int) : ℚ) * ((9709062898 : Int) : ℚ))
      = ((5753534079426279 : ℤ) : ℚ) * (2 : ℚ) ^ ((66 : ℤ) - 52) := by
    apply Binary64.nearest_eval 66 5753534079426279 <;> norm_num
  have q3 : nearest (((-6900185756 : Int) : ℚ) * ((-6900185756 : Int) : ℚ))
      = ((5812080501380040 : ℤ) : ℚ) * (2 : ℚ) ^ ((65 : ℤ) - 52) := by
    apply Binary64.nearest_eval 65 5812080501380040 <;> norm_num
  have s1 : nearest ((0 : ℚ) + ((7704873837974216 : ℤ) : ℚ) * (2 : ℚ) ^ ((62 : ℤ) - 52))
      = ((7704873837974216 : ℤ) : ℚ) * (2 : ℚ) ^ ((62 : ℤ) - 52) := by
    apply Binary64.nearest_eval 62 7704873837974216 <;> norm_num
  have s2 : nearest (((7704873837974216 : ℤ) : ℚ) * (2 : ℚ) ^ ((62 : ℤ) - 52)
        + ((5753534079426279 : ℤ) : ℚ) * (2 : ℚ) ^ ((66 : ℤ) - 52))
      = ((6235088694299668 : ℤ) : ℚ) * (2 : ℚ) ^ ((66 : ℤ) - 52) := by
    apply Binary64.nearest_eval_tie_up 66 6235088694299668 <;> norm_num
  have s3 : nearest (((6235088694299668 : ℤ) : ℚ) * (2 : ℚ) ^ ((66 : ℤ) - 52)
        + ((5812080501380040 : ℤ) : ℚ) * (2 : ℚ) ^ ((65 : ℤ) - 52))
      = ((4570564472494844 : ℤ) : ℚ) * (2 : ℚ) ^ ((67 : ℤ) - 52) := by
    apply Binary64.nearest_eval 67 4570564472494844 <;> norm_num
  have ms : nearest (((4570564472494844 : ℤ) : ℚ) * (2 : ℚ) ^ ((67 : ℤ) - 52) / 3)
      = ((6094085963326459 : ℤ) : ℚ) * (2 : ℚ) ^ ((65 : ℤ) - 52) := by
    apply Binary64.nearest_eval 65 6094085963326459 <;> norm_num
  have sq : Binary64.sqrt (((6094085963326459 : ℤ) : ℚ) * (2 : ℚ) ^ ((65 : ℤ) - 52))
      = ((7408822210527232 : ℕ) : ℚ) * (2 : ℚ) ^ ((32 : ℤ) - 52) := by
    apply Binary64.sqrt_eval 32 7408822210527232 (by norm_num) <;> norm_num
  unfold stdDevFrom squaredDeviations
  rw [List.foldl_cons, List.foldl_cons, List.foldl_cons, List.foldl_nil]
  rw [w1, w2, w3, c1, c2, c3, cn, q1, q2, q3, s1, s2, s3, ms, sq]
  unfold truncToInt
  rw [if_pos (by positivity), Int.floor_eq_iff]
  norm_num

/-- The binary64 sum of the squares kept by the loop of `stdDev` stays within a
relative `c + n · 2^-52` of the exact sum, from an accumulator within a relative
`c` of its exact value, over `n` samples whose deviations convert exactly. -/
theorem foldl_squaredDeviations_near (m : Int) (ts : timeSlice) :
    ∀ (s E c : ℚ), 0 ≤ E → 1 / 4503599627370496 ≤ c →
      c + (ts.length : ℚ) / 4503599627370496 ≤ 1 →
      E - E * c ≤ s → s ≤ E + E * c →
      (∀ t ∈ ts, |m - t| < 2 ^ 53) →
      (E + (sumSqDev m ts : ℚ))
          - (E + (sumSqDev m ts : ℚ)) * (c + (ts.length : ℚ) / 4503599627370496)
        ≤ ts.foldl
            (fun s t =>
              nearest (s + nearest (nearest (wrap64 (m - t) : ℚ) * nearest (wrap64 (m - t) : ℚ))))
            s ∧
      ts.foldl
          (fun s t =>
            nearest (s + nearest (nearest (wrap64 (m - t) : ℚ) * nearest (wrap64 (m - t) : ℚ))))
          s
        ≤ (E + (sumSqDev m ts : ℚ))
          + (E + (sumSqDev m ts : ℚ)) * (c + (ts.length : ℚ) / 4503599627370496) := by
  induction ts with
  | nil =>
    intro s E c _ _ _ h1 h2 _
    simp only [List.foldl_nil, sumSqDev, List.map_nil, List.sum_nil, List.length_nil]
    norm_num
    constructor <;> linarith
  | cons t rest ih =>
    intro s E c hE hc hc1 h1 h2 hall
    have habs : |m - t| < 2 ^ 53 := hall t (List.mem_cons_self _ _)
    have hw : wrap64 (m - t) = m - t := by
      apply wrap64_of_inRange
      rw [abs_lt] at habs
      constructor <;> omega
    have hlen : (((t :: rest).length : ℕ) : ℚ) = (rest.length : ℚ) + 1 := by
      simp
    rw [hlen] at hc1 ⊢
    have hr0 : (0 : ℚ) ≤ (rest.length : ℚ) := by positivity
    simp only [List.foldl_cons]
    rw [hw, Binary64.nearest_intCast (m - t) habs, sumSqDev_cons]
    have hD0 : (0 : ℚ) ≤ ((m - t : Int) : ℚ) * ((m - t : Int) : ℚ) := mul_self_nonneg _
    have hq := Binary64.nearest_near hD0
    have hq0 := Binary64.nearest_nonneg hD0
    have hDe : (((m - t) ^ 2 + sumSqDev m rest : Int) : ℚ)
        = ((m - t : Int) : ℚ) * ((m - t : Int) : ℚ) + (sumSqDev m rest : ℚ) := by
      push_cast; ring
    rw [hDe]
    generalize ((m - t : Int) : ℚ) * ((m - t : Int) : ℚ) = D at *
    generalize nearest D = q at *
    have hs0 : 0 ≤ s := by nlinarith
    have hy := Binary64.nearest_near (add_nonneg hs0 hq0)
    generalize nearest (s + q) = s' at *
    have hEc : 0 ≤ E * c := mul_nonneg hE (by linarith)
    have hDc : 0 ≤ D * c := mul_nonneg hD0 (by linarith)
    have key := ih s' (E + D) (c + 1 / 4503599627370496) (by linarith) (by linarith)
      (by linarith)
      (by nlinarith [hy.1, hq.1, h1])
      (by nlinarith [hy.2, hq.2, h2])
      (fun t' ht' => hall t' (List.mem_cons_of_mem _ ht'))
    have e : c + 1 / 4503599627370496 + (rest.length : ℚ) / 4503599627370496
        = c + ((rest.length : ℚ) + 1) / 4503599627370496 := by ring
    rw [e] at key
    have e2 : E + D + (sumSqDev m rest : ℚ) = E + (D + (sumSqDev m rest : ℚ)) := by ring
    rw [e2] at key
    exact key

/-- The binary64 square root of the rounded quotient `s / N` lies in
`[R - 1, R + 2)` when `s` is within a relative `(N + 1) · 2^-52` of a sum `S`
whose exact quotient `S / N` lies in `[R², (R + 1)²)`, for
`(N + 2) · (R + 1) ≤ 2^51`. -/
theorem sqrt_nearest_bracket_wide (s S : ℚ) (N R : ℕ) (hN : 1 ≤ N)
    (hNR : (N + 2) * (R + 1) ≤ 2251799813685248) (hS : 0 ≤ S)
    (hlo : (R : ℚ) ^ 2 * (N : ℚ) ≤ S) (hhi : S < ((R : ℚ) + 1) ^ 2 * (N : ℚ))
    (h1 : S - S * (((N : ℚ) + 1) / 4503599627370496) ≤ s)
    (h2 : s ≤ S + S * (((N : ℚ) + 1) / 4503599627370496)) :
    (R : ℚ) - 1 ≤ Binary64.sqrt (nearest (s / (N : ℚ))) ∧
    Binary64.sqrt (nearest (s / (N : ℚ))) < (R : ℚ) + 2 := by
  have hNq : (1 : ℚ) ≤ (N : ℚ) := by exact_mod_cast hN
  have hRq : (0 : ℚ) ≤ (R : ℚ) := by positivity
  have hNRq : ((N : ℚ) + 2) * ((R : ℚ) + 1) ≤ 2251799813685248 := by exact_mod_cast hNR
  have hN0 : (0 : ℚ) < (N : ℚ) := by linarith
  have hN51 : (N : ℚ) + 2 ≤ 2251799813685248 := by
    have := mul_le_mul_of_nonneg_left (by linarith : (1 : ℚ) ≤ (R : ℚ) + 1)
      (by linarith : (0 : ℚ) ≤ (N : ℚ) + 2)
    linarith
  have hR51 : R + 1 ≤ 2251799813685248 := by
    have : 1 * (R + 1) ≤ (N + 2) * (R + 1) := Nat.mul_le_mul_right _ (by omega)
    omega
  set x := S / (N : ℚ) with hx
  have hx0 : 0 ≤ x := div_nonneg hS (le_of_lt hN0)
  have hxlo : (R : ℚ) ^ 2 ≤ x := by rw [hx, le_div_iff₀ hN0]; exact hlo
  have hxhi : x < ((R : ℚ) + 1) ^ 2 := by rw [hx, div_lt_iff₀ hN0]; exact hhi
  have hs0 : 0 ≤ s := by
    have : S * (((N : ℚ) + 1) / 4503599627370496) ≤ S * 1 := by
      apply mul_le_mul_of_nonneg_left _ hS
      rw [div_le_one (by norm_num)]; linarith
    linarith
  set y := s / (N : ℚ) with hy
  have hy0 : 0 ≤ y := div_nonneg hs0 (le_of_lt hN0)
  have hy1 : x - x * (((N : ℚ) + 1) / 4503599627370496) ≤ y := by
    rw [hy, le_div_iff₀ hN0]
    have e : (x - x * (((N : ℚ) + 1) / 4503599627370496)) * (N : ℚ)
        = S - S * (((N : ℚ) + 1) / 4503599627370496) := by
      rw [hx]; field_simp; ring
    rw [e]; exact h1
  have hy2 : y ≤ x + x * (((N : ℚ) + 1) / 4503599627370496) := by
    rw [hy, div_le_iff₀ hN0]
    have e : (x + x * (((N : ℚ) + 1) / 4503599627370496)) * (N : ℚ)
        = S + S * (((N : ℚ) + 1) / 4503599627370496) := by
      rw [hx]; field_simp; ring
    rw [e]; exact h2
  have hq := Binary64.nearest_near hy0
  have hq0 := Binary64.nearest_nonneg hy0
  generalize nearest y = q at *
  have hxN : 0 ≤ x * (N : ℚ) := mul_nonneg hx0 (le_of_lt hN0)
  -- the rounded quotient is within a relative `(N + 2) · 2^-52` of the exact one
  have hq1 : x - x * (((N : ℚ) + 2) / 4503599627370496) ≤ q := by linarith [hq.1]
  have hq2 : q ≤ x + x * (((N : ℚ) + 2) / 4503599627370496) := by
    have : y ≤ 2 * x := by
      have : x * (((N : ℚ) + 1) / 4503599627370496) ≤ x * 1 := by
        apply mul_le_mul_of_nonneg_left _ hx0
        rw [div_le_one (by norm_num)]; linarith
      linarith
    linarith [hq.2]
  constructor
  · -- the lower bound
    rcases Nat.eq_zero_or_pos R with h0 | hpos
    · subst h0
      have := Binary64.sqrt_nonneg q
      push_cast
      linarith
    · have hR1 : (1 : ℚ) ≤ (R : ℚ) := by exact_mod_cast hpos
      have hmono := mul_nonneg (by linarith : (0 : ℚ) ≤ x - (R : ℚ) ^ 2)
        (by linarith : (0 : ℚ) ≤ 1 - ((N : ℚ) + 2) / 4503599627370496)
      have hRR := mul_le_mul_of_nonneg_left hNRq hRq
      have hx1 : 1 ≤ x := by nlinarith
      have hqpos : 0 < q := by
        have : x * (((N : ℚ) + 2) / 4503599627370496) ≤ x * (1 / 2) := by
          apply mul_le_mul_of_nonneg_left _ hx0
          rw [div_le_div_iff₀ (by norm_num) (by norm_num)]; linarith
        linarith
      obtain ⟨r, hr⟩ : ∃ r : ℕ, R = r + 1 := ⟨R - 1, by omega⟩
      have hrq : (r : ℚ) = (R : ℚ) - 1 := by rw [hr]; push_cast; ring
      have hsq : ((r : ℚ) * (2 : ℚ) ^ (0 : ℤ)) ^ 2 ≤ q := by
        rw [zpow_zero, mul_one, hrq]
        linarith
      have hr53 : r < 2 ^ 53 := by
        have : (2 : ℕ) ^ 53 = 9007199254740992 := by norm_num
        omega
      have := Binary64.le_sqrt_of_sq_le hqpos r 0 hr53 hsq
      rw [zpow_zero, mul_one, hrq] at this
      exact this
  · -- the upper bound
    rcases eq_or_lt_of_le hq0 with h0 | hqpos
    · rw [← h0, Binary64.sqrt_zero]; linarith
    · have hK : 2 * R + 3 < 2 ^ 53 := by
        have : (2 : ℕ) ^ 53 = 9007199254740992 := by norm_num
        omega
      have hz : ((2 * R + 3 : ℕ) : ℚ) * (2 : ℚ) ^ (-(1 : ℤ)) = (R : ℚ) + 3 / 2 := by
        push_cast; norm_num; ring
      have hzsq : q ≤ (((2 * R + 3 : ℕ) : ℚ) * (2 : ℚ) ^ (-(1 : ℤ))) ^ 2 := by
        rw [hz]
        have hm1 := mul_le_mul_of_nonneg_right (le_of_lt hxhi)
          (by linarith : (0 : ℚ) ≤ (N : ℚ) + 2)
        have hm2 := mul_le_mul_of_nonneg_left hNRq (by linarith : (0 : ℚ) ≤ (R : ℚ) + 1)
        linarith
      have := Binary64.sqrt_le_of_le_sq hqpos (2 * R + 3) (-(1 : ℤ)) hK hzsq
      rw [hz] at this
      linarith

theorem sq_le_sumSqDev (m : Int) (ts : timeSlice) (t : Int) (ht : t ∈ ts) :
    (m - t) ^ 2 ≤ sumSqDev m ts := by
  induction ts with
  | nil => simp at ht
  | cons a rest ih =>
    rw [sumSqDev_cons]
    rcases List.mem_cons.mp ht with h | h
    · subst h
      have := sumSqDev_nonneg m rest
      linarith
    · have := ih h
      have : 0 ≤ (m - a) ^ 2 := by positivity
      linarith

/-- The result of `stdDev` is within one nanosecond of the exact truncated root
`R` while `(n + 2) · (R + 1)` stays within `2^51`. -/
theorem stdDevFrom_near (m : Int) (ts : timeSlice) (R : ℕ) (hne : ts ≠ [])
    (hlo : (R : Int) ^ 2 * ts.length ≤ sumSqDev m ts)
    (hhi : sumSqDev m ts < ((R : Int) + 1) ^ 2 * ts.length)
    (hrange : ((ts.length : Int) + 2) * ((R : Int) + 1) ≤ 2 ^ 51) :
    (R : Int) - 1 ≤ stdDevFrom m ts ∧ stdDevFrom m ts ≤ (R : Int) + 1 := by
  have hn1 : 1 ≤ ts.length := List.length_pos.mpr hne
  have hNR : (ts.length + 2) * (R + 1) ≤ 2251799813685248 := by
    have e : (2 : Int) ^ 51 = 2251799813685248 := by norm_num
    rw [e] at hrange
    exact_mod_cast hrange
  have hS0 := sumSqDev_nonneg m ts
  have hprod : (R + 1) * ts.length ≤ 2251799813685248 := by
    have : (R + 1) * ts.length ≤ (ts.length + 2) * (R + 1) := by
      rw [Nat.mul_comm]
      exact Nat.mul_le_mul_right _ (by omega)
    omega
  have hn51 : ts.length ≤ 2251799813685248 := by
    have : ts.length * 1 ≤ (ts.length + 2) * (R + 1) :=
      Nat.mul_le_mul (by omega) (by omega)
    omega
  -- every deviation converts exactly
  have hSlt : sumSqDev m ts < (2251799813685248 : Int) ^ 2 := by
    have h1 : ((R : Int) + 1) ^ 2 * ts.length
        ≤ (((R : Int) + 1) * ts.length) ^ 2 := by
      have hn' : (1 : Int) ≤ (ts.length : Int) := by exact_mod_cast hn1
      have h0 : (0 : Int) ≤ ((R : Int) + 1) ^ 2 * ts.length := by positivity
      have := mul_le_mul_of_nonneg_left hn' h0
      have e : (((R : Int) + 1) * ts.length) ^ 2
          = ((R : Int) + 1) ^ 2 * ts.length * ts.length := by ring
      rw [e]
      linarith
    have h2 : ((R : Int) + 1) * ts.length ≤ 2251799813685248 := by exact_mod_cast hprod
    have h3 : (((R : Int) + 1) * ts.length) ^ 2 ≤ (2251799813685248 : Int) ^ 2 :=
      pow_le_pow_left₀ (by positivity) h2 2
    omega
  have hall : ∀ t ∈ ts, |m - t| < 2 ^ 53 := by
    intro t ht
    have h1 := sq_le_sumSqDev m ts t ht
    have h2 : (m - t) ^ 2 < (2251799813685248 : Int) ^ 2 := lt_of_le_of_lt h1 hSlt
    have h3 := sq_lt_sq.mp h2
    rw [abs_of_nonneg (by norm_num : (0 : Int) ≤ 2251799813685248)] at h3
    have h4 : (2251799813685248 : Int) < 2 ^ 53 := by norm_num
    exact lt_trans h3 h4
  have hnq : ((ts.length : ℕ) : ℚ) ≤ 2251799813685248 := by exact_mod_cast hn51
  have hfold := foldl_squaredDeviations_near m ts 0 0 (1 / 4503599627370496) (le_refl _)
    (le_refl _) (by rw [← add_div, div_le_one (by norm_num)]; linarith) (by norm_num)
    (by norm_num) hall
  rw [zero_add] at hfold
  have ec : (1 : ℚ) / 4503599627370496 + ((ts.length : ℕ) : ℚ) / 4503599627370496
      = (((ts.length : ℕ) : ℚ) + 1) / 4503599627370496 := by ring
  rw [ec] at hfold
  unfold stdDevFrom squaredDeviations
  rw [Binary64.nearest_intCast (ts.length : Int)
    (by rw [abs_of_nonneg (by positivity)]; norm_num; omega)]
  have hnN : (((ts.length : Int) : ℚ)) = ((ts.length : ℕ) : ℚ) := by norm_num
  rw [hnN]
  have hloq : ((R : ℚ)) ^ 2 * ((ts.length : ℕ) : ℚ) ≤ ((sumSqDev m ts : Int) : ℚ) := by
    exact_mod_cast hlo
  have hhiq : ((sumSqDev m ts : Int) : ℚ) < ((R : ℚ) + 1) ^ 2 * ((ts.length : ℕ) : ℚ) := by
    exact_mod_cast hhi
  have hSq : (0 : ℚ) ≤ ((sumSqDev m ts : Int) : ℚ) := by exact_mod_cast hS0
  obtain ⟨b1, b2⟩ := sqrt_nearest_bracket_wide _ _ ts.length R hn1 hNR hSq hloq hhiq
    hfold.1 hfold.2
  unfold truncToInt
  simp only [Binary64.sqrt_nonneg, if_true]
  generalize Binary64.sqrt _ = y at b1 b2 ⊢
  constructor
  · rw [Int.le_floor]
    push_cast
    exact b1
  · have : ⌊y⌋ < (R : Int) + 2 := by
      rw [Int.floor_lt]
      push_cast
      exact b2
    omega

/-- C8, as stated, fails. For the samples 14426013869 ns, 1908073827 ns and
18517322481 ns the average is 11617136725 ns and the sum of the squared
deviations is 149768256634711046676, so the exact root of the mean square
truncates to 7065603456 ns (`7065603456² · 3 ≤ sum < 7065603457² · 3`);
`stdDev` rounds every square, every sum, the quotient and the root to binary64
and returns 7065603457 ns. -/
theorem stdDev_rounds_above_the_exact_root :
    timeSlice.avg [14426013869, 1908073827, 18517322481] = .ok 11617136725 ∧
    sumSqDev 11617136725 [14426013869, 1908073827, 18517322481]
      = 149768256634711046676 ∧
    (7065603456 ^ 2 * (([14426013869, 1908073827, 18517322481] : timeSlice).length : Int)
      ≤ sumSqDev 11617136725 [14426013869, 1908073827, 18517322481]) ∧
    (sumSqDev 11617136725 [14426013869, 1908073827, 18517322481]
      < (7065603456 + 1) ^ 2 * (([14426013869, 1908073827, 18517322481] : timeSlice).length : Int)) ∧
    timeSlice.stdDev [14426013869, 1908073827, 18517322481] = .ok 7065603457 := by
  have ha : timeSlice.avg [14426013869, 1908073827, 18517322481] = .ok 11617136725 := by rfl
  have hs : sumSqDev 11617136725 [14426013869, 1908073827, 18517322481]
      = 149768256634711046676 := by decide
  refine ⟨ha, hs, ?_, ?_, ?_⟩
  · rw [hs]; decide
  · rw [hs]; decide
  · unfold timeSlice.stdDev
    rw [ha]
    show Except.ok (stdDevFrom 11617136725 [14426013869, 1908073827, 18517322481]) = _
    rw [stdDevFrom_rounded_fixture]

/-- C8, amended. For every sample list `ts` of length `n` on which `avg` returns
`m` (every non-empty list), with `R ≥ 0` the root of the mean squared deviation
truncated to whole nanoseconds, `R² · n ≤ Σ (m - t)² < (R + 1)² · n`:
when `n · (R + 1)²` is at most `2^50`, `stdDev` returns exactly `R` (the sum of
the squares is computed without rounding, and the roundings of the quotient and
of the root do not cross an integer); when `(n + 2) · (R + 1)` is at most
`2^51`, `stdDev` returns `R - 1`, `R` or `R + 1`. -/
theorem stdDev_is_truncated_root_in_range (ts : timeSlice) (m R : Int)
    (havg : timeSlice.avg ts = .ok m) (hR : 0 ≤ R)
    (hlo : R ^ 2 * ts.length ≤ sumSqDev m ts)
    (hhi : sumSqDev m ts < (R + 1) ^ 2 * ts.length) :
    ((ts.length : Int) * (R + 1) ^ 2 ≤ 2 ^ 50 → timeSlice.stdDev ts = .ok R) ∧
    (((ts.length : Int) + 2) * (R + 1) ≤ 2 ^ 51 →
      ∃ r, timeSlice.stdDev ts = .ok r ∧ R - 1 ≤ r ∧ r ≤ R + 1) := by
  have hne : ts ≠ [] := by
    intro h
    subst h
    simp [timeSlice.avg] at havg
  obtain ⟨r, rfl⟩ := Int.eq_ofNat_of_zero_le hR
  have hs : timeSlice.stdDev ts = .ok (stdDevFrom m ts) := by
    unfold timeSlice.stdDev
    rw [havg]
    rfl
  constructor
  · intro hrange
    rw [hs, stdDevFrom_exact m ts r hne hlo hhi hrange]
  · intro hrange
    exact ⟨_, hs, stdDevFrom_near m ts r hne hlo hhi hrange⟩

/-- The amended C8 on the fixture 10 ms, 20 ms, 30 ms: the average is 20 ms, the
sum of the squared deviations is `2 · 10^14`, and `stdDev` returns 8164965 ns,
the truncated root of `2 · 10^14 / 3` (8 whole milliseconds). -/
theorem stdDev_is_truncated_root_in_range_witness :
    timeSlice.avg [10000000, 20000000, 30000000] = .ok 20000000 ∧
    sumSqDev 20000000 [10000000, 20000000, 30000000] = 200000000000000 ∧
    timeSlice.stdDev [10000000, 20000000, 30000000] = .ok 8164965 ∧
    Milliseconds 8164965 = 8 :=
  ⟨by rfl, by decide,
   (stdDev_is_truncated_root_in_range [10000000, 20000000, 30000000] 20000000 8164965
     (by rfl) (by decide) (by decide) (by decide)).1 (by decide),
   by decide⟩

end Histogram

/-! ## The worker loop -/

namespace Benchmark

open Histogram

theorem foldl_headers (headers : List (Nat × Nat)) :
    ∀ st : State, ∃ n : Int,
      headers.foldl
        (fun st kv => { st with size := st.size + ((kv.1 + kv.2 : Nat) : Int) }) st
        = { st with size := n } := by
  induction headers with
  | nil => intro st; exact ⟨st.size, rfl⟩
  | cons kv rest ih =>
    intro st
    obtain ⟨n, hn⟩ := ih { st with size := st.size + ((kv.1 + kv.2 : Nat) : Int) }
    exact ⟨n, by simpa using hn⟩

theorem loopBody_failed (grow : Nat → Nat) (st : State) (a : Attempt) (e : TransportError)
    (h : a.outcome = .failed e) :
    loopBody grow st a =
      { st with
        totalReq := st.totalReq + 1,
        latency := AddTime grow st.latency (a.returned - st.start),
        reqError := st.reqError + 1,
        timeout := st.timeout + (if e = TransportError.ErrTimeout then 1 else 0) } := by
  unfold loopBody
  rw [h]
  simp only [since]
  split_ifs <;> simp

theorem loopBody_response (grow : Nat → Nat) (st : State) (a : Attempt)
    (status : Int) (bodyLen : Nat) (headers : List (Nat × Nat))
    (h : a.outcome = .response status bodyLen headers) :
    ∃ (n : Int) (rb : Sample), loopBody grow st a =
      { st with
        totalReq := st.totalReq + 1,
        latency := AddTime grow st.latency (a.returned - st.start),
        size := n,
        reqBytes := rb,
        respOK := st.respOK + (if status ≥ 200 ∧ status < 300 then 1 else 0),
        reqError := st.reqError + (if status ≥ 200 ∧ status < 300 then 0 else 1) } := by
  unfold loopBody
  rw [h]
  simp only [since]
  obtain ⟨n, hn⟩ := foldl_headers headers
    { st with totalReq := st.totalReq + 1,
              latency := AddTime grow st.latency (a.returned - st.start),
              size := st.size + bodyLen }
  rw [hn]
  refine ⟨n, AddSize st.reqBytes (a.sized - st.start) n, ?_⟩
  split_ifs <;> simp

theorem loopBody_latency (grow : Nat → Nat) (st : State) (a : Attempt) :
    (loopBody grow st a).latency = AddTime grow st.latency (a.returned - st.start) := by
  cases h : a.outcome with
  | failed e => rw [loopBody_failed grow st a e h]
  | response status bodyLen headers =>
    obtain ⟨n, rb, hn⟩ := loopBody_response grow st a status bodyLen headers h
    rw [hn]

theorem loopBody_balance (grow : Nat → Nat) (st : State) (a : Attempt) :
    (loopBody grow st a).totalReq = st.totalReq + 1 ∧
    (loopBody grow st a).respOK + (loopBody grow st a).reqError
      = st.respOK + st.reqError + 1 := by
  cases h : a.outcome with
  | failed e =>
    rw [loopBody_failed grow st a e h]
    exact ⟨rfl, by simp only []; ring⟩
  | response status bodyLen headers =>
    obtain ⟨n, rb, hn⟩ := loopBody_response grow st a status bodyLen headers h
    rw [hn]
    refine ⟨rfl, ?_⟩
    simp only []
    split_ifs <;> ring

theorem runLoop_balance (grow : Nat → Nat) (as : List Attempt) :
    ∀ st : State,
      (runLoop grow st as).totalReq = st.totalReq + as.length ∧
      (runLoop grow st as).respOK + (runLoop grow st as).reqError
        = st.respOK + st.reqError + as.length := by
  induction as with
  | nil => intro st; simp [runLoop]
  | cons a rest ih =>
    intro st
    obtain ⟨h1, h2⟩ := ih (loopBody grow st a)
    obtain ⟨b1, b2⟩ := loopBody_balance grow st a
    simp only [runLoop, List.foldl_cons, List.length_cons] at h1 h2 ⊢
    rw [h1, h2, b1, b2]
    push_cast
    constructor <;> ring

/-- C2 fails on the code: the sample a worker records is the time elapsed since
the start of the benchmark, whatever the instant the attempt was issued. With
`start = 0` and two attempts, issued at 0 ns and 1 000 200 ns and returned at
1 000 000 ns and 2 000 000 ns, the recorded samples are 1 000 000 ns and
2 000 000 ns; the round trip of the second attempt took 999 800 ns. -/
theorem latency_sample_is_elapsed_since_start :
    (∀ (grow : Nat → Nat) (st : State) (a : Attempt),
      (loopBody grow st a).latency.Times
        = st.latency.Times ++ [a.returned - st.start]) ∧
    (runLoop (fun c => 2 * c) (initState 0 10)
      [⟨0, 1000000, 1000100, .response 200 5 []⟩,
       ⟨1000200, 2000000, 2000100, .response 200 5 []⟩]).latency.Times
      = [1000000, 2000000] ∧
    (2000000 : Int) - 1000200 = 999800 := by
  refine ⟨?_, ?_, by decide⟩
  · intro grow st a
    rw [loopBody_latency]
    rfl
  · simp only [runLoop, List.foldl_cons, List.foldl_nil]
    rw [loopBody_latency, loopBody_latency]
    rfl

/-- C3. One iteration of the worker loop, for every state and every outcome:
`totalReq` grows by exactly 1 and exactly one sample is appended to the latency
histogram; on a transport error `reqError` grows by 1, `timeout` grows by 1
exactly when the error is `ErrTimeout`, and `respOK` is unchanged; on a
response `respOK` grows by 1 when `200 ≤ status < 300` and `reqError` grows by
1 otherwise, the other of the two and `timeout` being unchanged. -/
theorem loopBody_classifies (grow : Nat → Nat) (st : State) (a : Attempt) :
    (loopBody grow st a).totalReq = st.totalReq + 1 ∧
    (∃ x, (loopBody grow st a).latency.Times = st.latency.Times ++ [x]) ∧
    (loopBody grow st a).latency.Count = st.latency.Count + 1 ∧
    (match a.outcome with
     | .failed e =>
       (loopBody grow st a).reqError = st.reqError + 1 ∧
       (loopBody grow st a).timeout
         = st.timeout + (if e = TransportError.ErrTimeout then 1 else 0) ∧
       (loopBody grow st a).respOK = st.respOK
     | .response status _ _ =>
       (loopBody grow st a).respOK
         = st.respOK + (if 200 ≤ status ∧ status < 300 then 1 else 0) ∧
       (loopBody grow st a).reqError
         = st.reqError + (if 200 ≤ status ∧ status < 300 then 0 else 1) ∧
       (loopBody grow st a).timeout = st.timeout) := by
  refine ⟨(loopBody_balance grow st a).1, ⟨a.returned - st.start, ?_⟩, ?_, ?_⟩
  · rw [loopBody_latency]; rfl
  · rw [loopBody_latency]; rfl
  · cases h : a.outcome with
    | failed e =>
      rw [loopBody_failed grow st a e h]
      exact ⟨rfl, rfl, rfl⟩
    | response status bodyLen headers =>
      obtain ⟨n, rb, hn⟩ := loopBody_response grow st a status bodyLen headers h
      rw [hn]
      exact ⟨rfl, rfl, rfl⟩

/-- C4. Starting from all counters zero, after any list of iterations of the
worker loop run one at a time, with any outcomes, `respOK + reqError = totalReq`. -/
theorem counters_add_up (grow : Nat → Nat) (now duration : Int) (as : List Attempt) :
    (runLoop grow (initState now duration) as).respOK
      + (runLoop grow (initState now duration) as).reqError
      = (runLoop grow (initState now duration) as).totalReq := by
  obtain ⟨h1, h2⟩ := runLoop_balance grow as (initState now duration)
  rw [h1, h2]
  simp [initState]

end Benchmark

/-! ## The throughput histogram: bucket selection and seeding -/

namespace Histogram

open Binary64 (nearest)

/-- The binary64 values the source compares at 58.2 s of a 60 s run and at
11.88 s of a 12 s run: `float64(60)*0.97` and `float64(12)*0.99` (a tie,
rounded to the even significand) are one unit in the last place below the readings `Seconds` of the two elapsed times. -/
theorem rounded_cut_point_values :
    cutPoint 60 3 = 8190921822280089 / 140737488355328 ∧
    Seconds 58200000000 = 8190921822280090 / 140737488355328 ∧
    cutPoint 12 4 = 6687845446645186 / 562949953421312 ∧
    Seconds 11880000000 = 6687845446645187 / 562949953421312 := by
  have h60 : nearest ((60 : Int) : ℚ) = ((60 : Int) : ℚ) :=
    Binary64.nearest_intCast 60 (by decide)
  have h12 : nearest ((12 : Int) : ℚ) = ((12 : Int) : ℚ) :=
    Binary64.nearest_intCast 12 (by decide)
  have h97 : nearest (0.97 : ℚ) = ((8736983277098762 : ℤ) : ℚ) * (2 : ℚ) ^ ((-1 : ℤ) - 52) := by
    apply Binary64.nearest_eval (-1) 8736983277098762 <;> norm_num
  have h99 : nearest (0.99 : ℚ) = ((8917127262193582 : ℤ) : ℚ) * (2 : ℚ) ^ ((-1 : ℤ) - 52) := by
    apply Binary64.nearest_eval (-1) 8917127262193582 <;> norm_num
  have h02 : nearest ((200000000 : ℚ) / 1000000000)
      = ((7205759403792794 : ℤ) : ℚ) * (2 : ℚ) ^ ((-3 : ℤ) - 52) := by
    apply Binary64.nearest_eval (-3) 7205759403792794 <;> norm_num
  have h88 : nearest ((880000000 : ℚ) / 1000000000)
      = ((7926335344172073 : ℤ) : ℚ) * (2 : ℚ) ^ ((-1 : ℤ) - 52) := by
    apply Binary64.nearest_eval (-1) 7926335344172073 <;> norm_num
  refine ⟨?_, ?_, ?_, ?_⟩
  · simp only [cutPoint]
    rw [h60, h97]
    have := Binary64.nearest_eval
      (x := ((60 : Int) : ℚ) * (((8736983277098762 : ℤ) : ℚ) * (2 : ℚ) ^ ((-1 : ℤ) - 52)))
      5 8190921822280089 (by norm_num) (by norm_num) (by norm_num) (by norm_num)
    rw [this]; norm_num
  · have e1 : Int.tdiv 58200000000 1000000000 = 58 := by decide
    have e2 : Int.tmod 58200000000 1000000000 = 200000000 := by decide
    simp only [Seconds, e1, e2]
    have e3 : (((200000000 : Int) : ℚ)) / 1000000000 = (200000000 : ℚ) / 1000000000 := by
      norm_num
    rw [e3, h02]
    have := Binary64.nearest_eval
      (x := ((58 : Int) : ℚ) + (((7205759403792794 : ℤ) : ℚ) * (2 : ℚ) ^ ((-3 : ℤ) - 52)))
      5 8190921822280090 (by norm_num) (by norm_num) (by norm_num) (by norm_num)
    rw [this]; norm_num
  · simp only [cutPoint]
    rw [h12, h99]
    have := Binary64.nearest_eval_tie
      (x := ((12 : Int) : ℚ) * (((8917127262193582 : ℤ) : ℚ) * (2 : ℚ) ^ ((-1 : ℤ) - 52)))
      3 6687845446645186 (by norm_num) (by norm_num) (by norm_num) (by decide)
    rw [this]; norm_num
  · have e1 : Int.tdiv 11880000000 1000000000 = 11 := by decide
    have e2 : Int.tmod 11880000000 1000000000 = 880000000 := by decide
    simp only [Seconds, e1, e2]
    have e3 : (((880000000 : Int) : ℚ)) / 1000000000 = (880000000 : ℚ) / 1000000000 := by
      norm_num
    rw [e3, h88]
    have := Binary64.nearest_eval
      (x := ((11 : Int) : ℚ) + (((7926335344172073 : ℤ) : ℚ) * (2 : ℚ) ^ ((-1 : ℤ) - 52)))
      3 6687845446645187 (by norm_num) (by norm_num) (by norm_num) (by norm_num)
    rw [this]; norm_num

/-- C11, as stated, fails on the code at a cut point. In a 60 s benchmark the
elapsed time 58.2 s equals the cut point `0.97 · 60 s`, so the partition of the
claim puts it in `P97` (`c[2] < elapsed ≤ c[3]`); the code compares the binary64
reading of the elapsed time with `float64(60)*0.97 = 58.199999999999996`, finds
it greater, and writes the size into `P99`. In a 12 s benchmark the elapsed time
11.88 s equals the last cut point `0.99 · 12 s`, the partition puts it in `P99`,
and the code (`float64(12)*0.99 = 11.879999999999999`) selects no bucket. -/
theorem AddSize_cut_point_rounding_moves_a_sample :
    (exactCut 60 2 < (58200000000 : ℚ) / 1000000000 ∧
      (58200000000 : ℚ) / 1000000000 ≤ exactCut 60 3) ∧
    bucketOf 60 58200000000 = 4 ∧
    (AddSize (SetTimeSleep New 60) 58200000000 9).MetricBodySize = ⟨0, 0, 0, 0, 9⟩ ∧
    (AddSize (SetTimeSleep New 60) 58200000000 9).MetricReqSec = ⟨0, 0, 0, 0, 1⟩ ∧
    (exactCut 12 3 < (11880000000 : ℚ) / 1000000000 ∧
      (11880000000 : ℚ) / 1000000000 ≤ exactCut 12 4) ∧
    bucketOf 12 11880000000 = 5 ∧
    (AddSize (SetTimeSleep New 12) 11880000000 9).MetricBodySize = ⟨0, 0, 0, 0, 0⟩ ∧
    (AddSize (SetTimeSleep New 12) 11880000000 9).MetricReqSec = ⟨0, 0, 0, 0, 0⟩ := by
  obtain ⟨v1, v2, v3, v4⟩ := rounded_cut_point_values
  have b1 : bucketOf 60 58200000000 = 4 := by
    rw [(bucketOf_iff 60 58200000000 (by decide)).2.2.2.2.1]
    constructor
    · rw [v1, v2]; norm_num
    · have c := (cutPoint_near 60 (by decide) 4).1
      rw [v2]
      norm_num [exactCut] at c ⊢
      linarith
  have b2 : bucketOf 12 11880000000 = 5 := by
    rw [(bucketOf_iff 12 11880000000 (by decide)).2.2.2.2.2]
    rw [v3, v4]; norm_num
  refine ⟨⟨by norm_num [exactCut], by norm_num [exactCut]⟩, b1, ?_, ?_,
    ⟨by norm_num [exactCut], by norm_num [exactCut]⟩, b2, ?_, ?_⟩
  · rw [AddSize_MetricBodySize]
    change setBody (bucketOf 60 58200000000) 9 _ = _
    rw [b1]; rfl
  · rw [AddSize_MetricReqSec]
    change bumpReq (bucketOf 60 58200000000) _ = _
    rw [b1]; rfl
  · rw [AddSize_MetricBodySize]
    change setBody (bucketOf 12 11880000000) 9 _ = _
    rw [b2]; rfl
  · rw [AddSize_MetricReqSec]
    change bumpReq (bucketOf 12 11880000000) _ = _
    rw [b2]; rfl

/-- C11, amended. For a declared duration `d ≥ 0`, every elapsed time and every
size: `AddSize` writes `size` into the body size of the selected bucket and
leaves the other body sizes as they were (and gives the request counts of that
bucket); the selected bucket is bucket 0 exactly when `e ≤ c[0]`, bucket `i`
(1 to 4) exactly when `c[i-1] < e ≤ c[i]`, and none exactly when `e > c[4]`,
where `e` is the binary64 reading `Seconds` of the elapsed time and `c` the
binary64 cut points `float64(d)*0.01`, `float64(d)*0.10`, `float64(d)/2`,
`float64(d)*0.97`, `float64(d)*0.99`. Each binary64 cut point is within a
relative `2^-50` of the exact one, and an elapsed time `t ≥ 0` whose exact
number of seconds stays a relative `2^-48` away from the exact cut points
`(0.01d, 0.10d, 0.50d, 0.97d, 0.99d)` is put in the bucket of the exact
partition. -/
theorem AddSize_selects_by_rounded_cut_points (s : Sample) (t size : Int)
    (hd : 0 ≤ s.TimeSleep) :
    (AddSize s t size).MetricBodySize
      = setBody (bucketOf s.TimeSleep t) size s.MetricBodySize ∧
    (AddSize s t size).MetricReqSec
      = bumpReq (bucketOf s.TimeSleep t) s.MetricReqSec ∧
    ((bucketOf s.TimeSleep t = 0 ↔ Seconds t ≤ cutPoint s.TimeSleep 0) ∧
    (bucketOf s.TimeSleep t = 1 ↔
      cutPoint s.TimeSleep 0 < Seconds t ∧ Seconds t ≤ cutPoint s.TimeSleep 1) ∧
    (bucketOf s.TimeSleep t = 2 ↔
      cutPoint s.TimeSleep 1 < Seconds t ∧ Seconds t ≤ cutPoint s.TimeSleep 2) ∧
    (bucketOf s.TimeSleep t = 3 ↔
      cutPoint s.TimeSleep 2 < Seconds t ∧ Seconds t ≤ cutPoint s.TimeSleep 3) ∧
    (bucketOf s.TimeSleep t = 4 ↔
      cutPoint s.TimeSleep 3 < Seconds t ∧ Seconds t ≤ cutPoint s.TimeSleep 4) ∧
    (bucketOf s.TimeSleep t = 5 ↔ cutPoint s.TimeSleep 4 < Seconds t)) ∧
    (∀ i : Nat,
      exactCut s.TimeSleep i - exactCut s.TimeSleep i / 1125899906842624
        ≤ cutPoint s.TimeSleep i ∧
      cutPoint s.TimeSleep i
        ≤ exactCut s.TimeSleep i + exactCut s.TimeSleep i / 1125899906842624) ∧
    (∀ k : Nat, k ≤ 5 → 0 ≤ t →
      (k = 0 ∨ exactCut s.TimeSleep (k - 1) + exactCut s.TimeSleep (k - 1) / 281474976710656
        < (t : ℚ) / 1000000000) →
      (k = 5 ∨ (t : ℚ) / 1000000000 + (t : ℚ) / 1000000000 / 281474976710656
        ≤ exactCut s.TimeSleep k) →
      bucketOf s.TimeSleep t = k) :=
  ⟨AddSize_MetricBodySize s t size, AddSize_MetricReqSec s t size,
    bucketOf_iff s.TimeSleep t hd, cutPoint_near s.TimeSleep hd,
    fun k hk ht hlo hhi => bucketOf_far s.TimeSleep t hd ht k hk hlo hhi⟩

/-- The amended C11 on a 100 s benchmark: a call at 30 s with size 11 after calls
at 0.5 s and 5 s lands in `P50` (bucket 2), whose body size becomes 11. -/
theorem AddSize_selects_by_rounded_cut_points_witness :
    (0 ≤ (run 100 [(500000000, 7), (5000000000, 9)]).TimeSleep) ∧
    bucketOf 100 30000000000 = 2 ∧
    (AddSize (run 100 [(500000000, 7), (5000000000, 9)]) 30000000000 11).MetricBodySize
      = ⟨7, 9, 11, 0, 0⟩ := by
  have hT : (run 100 [(500000000, 7), (5000000000, 9)]).TimeSleep = 100 := run_TimeSleep _ _
  have hd : 0 ≤ (run 100 [(500000000, 7), (5000000000, 9)]).TimeSleep := by
    rw [hT]; decide
  have h := AddSize_selects_by_rounded_cut_points
    (run 100 [(500000000, 7), (5000000000, 9)]) 30000000000 11 hd
  have hb : bucketOf (run 100 [(500000000, 7), (5000000000, 9)]).TimeSleep 30000000000 = 2 :=
    h.2.2.2.2 2 (by decide) (by decide)
      (Or.inr (by rw [hT]; norm_num [exactCut])) (Or.inr (by rw [hT]; norm_num [exactCut]))
  obtain ⟨b0, b1, -, -, -, -⟩ := bucketOf_fixtures
  refine ⟨hd, by rw [← hT]; exact hb, ?_⟩
  rw [h.1, hb, run_MetricBodySize]
  simp only [List.foldl_cons, List.foldl_nil, b0, b1]
  rfl

theorem bumpReq_frame (k : Nat) (r : Metric) :
    (k ≠ 0 → (bumpReq k r).P1 = r.P1) ∧ (k ≠ 1 → (bumpReq k r).P10 = r.P10) ∧
    (k ≠ 2 → (bumpReq k r).P50 = r.P50) ∧ (k ≠ 3 → (bumpReq k r).P97 = r.P97) ∧
    (k ≠ 4 → (bumpReq k r).P99 = r.P99) := by
  match k with
  | 0 => simp [bumpReq]
  | 1 => simp [bumpReq]
  | 2 => simp [bumpReq]
  | 3 => simp [bumpReq]
  | 4 => simp [bumpReq]
  | (n + 5) => simp [bumpReq]

/-- C12 fails on the code at `P97`. Every call leaves the request counts of the
buckets it does not land in as they were, but a call that lands in `P97` while
the count of `P50` is zero sets the count of `P97` to 1: in a 100 s benchmark a
first call at 60 s gives `P97 = 1`, and after a second call at 60 s the count
of `P97` is still 1, not greater than before. -/
theorem AddSize_P97_count_can_stall :
    (∀ (s : Sample) (t size : Int),
      (bucketOf s.TimeSleep t ≠ 0 → (AddSize s t size).MetricReqSec.P1 = s.MetricReqSec.P1) ∧
      (bucketOf s.TimeSleep t ≠ 1 → (AddSize s t size).MetricReqSec.P10 = s.MetricReqSec.P10) ∧
      (bucketOf s.TimeSleep t ≠ 2 → (AddSize s t size).MetricReqSec.P50 = s.MetricReqSec.P50) ∧
      (bucketOf s.TimeSleep t ≠ 3 → (AddSize s t size).MetricReqSec.P97 = s.MetricReqSec.P97) ∧
      (bucketOf s.TimeSleep t ≠ 4 → (AddSize s t size).MetricReqSec.P99 = s.MetricReqSec.P99)) ∧
    (∀ (s : Sample) (t size : Int), bucketOf s.TimeSleep t = 3 → s.MetricReqSec.P50 = 0 →
      (AddSize s t size).MetricReqSec.P97 = 1) ∧
    bucketOf 100 60000000000 = 3 ∧
    (run 100 [(60000000000, 7)]).MetricReqSec = ⟨0, 0, 0, 1, 0⟩ ∧
    (AddSize (run 100 [(60000000000, 7)]) 60000000000 9).MetricReqSec = ⟨0, 0, 0, 1, 0⟩ := by
  obtain ⟨-, -, -, b3, -, -⟩ := bucketOf_fixtures
  have e1 : (run 100 [(60000000000, 7)]).MetricReqSec = ⟨0, 0, 0, 1, 0⟩ := by
    rw [run_MetricReqSec]
    simp only [List.foldl_cons, List.foldl_nil, b3]
    decide
  refine ⟨?_, ?_, b3, e1, ?_⟩
  · intro s t size
    rw [AddSize_MetricReqSec]
    exact bumpReq_frame _ _
  · intro s t size hb h50
    rw [AddSize_MetricReqSec, hb]
    simp [bumpReq, h50]
  · rw [AddSize_MetricReqSec, run_TimeSleep, b3, e1]
    decide

/-- C17 fails on the code at `P97`. The counts of `P10`, `P50` and `P99` follow the
seeding rule; a call that lands in `P97` tests the count of `P50` instead of
its own and copies that zero, so its count becomes 1 when `P50` is zero and its
old count plus one otherwise. In a 10 s benchmark, after three calls at 3 s
(`P50 = 3`) a call at 6 s gives `P97 = 1`, not 4; and after a call at 6 s
(`P97 = 1`, `P50 = 0`) a second call at 6 s gives `P97 = 1`, not 2. -/
theorem AddSize_P97_is_not_seeded :
    (∀ (s : Sample) (t size : Int), bucketOf s.TimeSleep t = 1 →
      (AddSize s t size).MetricReqSec.P10
        = (if s.MetricReqSec.P10 = 0 then s.MetricReqSec.P1 else s.MetricReqSec.P10) + 1) ∧
    (∀ (s : Sample) (t size : Int), bucketOf s.TimeSleep t = 2 →
      (AddSize s t size).MetricReqSec.P50
        = (if s.MetricReqSec.P50 = 0 then s.MetricReqSec.P10 else s.MetricReqSec.P50) + 1) ∧
    (∀ (s : Sample) (t size : Int), bucketOf s.TimeSleep t = 4 →
      (AddSize s t size).MetricReqSec.P99
        = (if s.MetricReqSec.P99 = 0 then s.MetricReqSec.P97 else s.MetricReqSec.P99) + 1) ∧
    (∀ (s : Sample) (t size : Int), bucketOf s.TimeSleep t = 3 →
      (AddSize s t size).MetricReqSec.P97
        = (if s.MetricReqSec.P50 = 0 then 0 else s.MetricReqSec.P97) + 1) ∧
    (run 10 [(3000000000, 1), (3000000000, 2), (3000000000, 3)]).MetricReqSec
      = ⟨0, 0, 3, 0, 0⟩ ∧
    (run 10 [(3000000000, 1), (3000000000, 2), (3000000000, 3),
        (6000000000, 4)]).MetricReqSec = ⟨0, 0, 3, 1, 0⟩ ∧
    (run 10 [(6000000000, 1)]).MetricReqSec = ⟨0, 0, 0, 1, 0⟩ ∧
    (run 10 [(6000000000, 1), (6000000000, 2)]).MetricReqSec = ⟨0, 0, 0, 1, 0⟩ := by
  obtain ⟨-, -, -, -, b2, b3⟩ := bucketOf_fixtures
  refine ⟨?_, ?_, ?_, ?_, ?_, ?_, ?_, ?_⟩
  · intro s t size hb
    rw [AddSize_MetricReqSec, hb]
    rfl
  · intro s t size hb
    rw [AddSize_MetricReqSec, hb]
    rfl
  · intro s t size hb
    rw [AddSize_MetricReqSec, hb]
    rfl
  · intro s t size hb
    rw [AddSize_MetricReqSec, hb]
    simp only [bumpReq]
    split_ifs with h
    · rw [h]
    · rfl
  · rw [run_MetricReqSec]
    simp only [List.foldl_cons, List.foldl_nil, b2]
    decide
  · rw [run_MetricReqSec]
    simp only [List.foldl_cons, List.foldl_nil, b2, b3]
    decide
  · rw [run_MetricReqSec]
    simp only [List.foldl_cons, List.foldl_nil, b3]
    decide
  · rw [run_MetricReqSec]
    simp only [List.foldl_cons, List.foldl_nil, b3]
    decide

end Histogram

/-! ## The worker loop: the timeout scenario -/

namespace Benchmark

open Histogram

theorem runLoop_timeouts (grow : Nat → Nat) (as : List Attempt) :
    (∀ a ∈ as, a.outcome = .failed .ErrTimeout) →
    ∀ st : State,
      (runLoop grow st as).reqError = st.reqError + as.length ∧
      (runLoop grow st as).timeout = st.timeout + as.length ∧
      (runLoop grow st as).totalReq = st.totalReq + as.length ∧
      (runLoop grow st as).respOK = st.respOK := by
  induction as with
  | nil => intro _ st; simp [runLoop]
  | cons a rest ih =>
    intro h st
    have ha := h a (List.mem_cons_self _ _)
    obtain ⟨h1, h2, h3, h4⟩ :=
      ih (fun x hx => h x (List.mem_cons_of_mem _ hx)) (loopBody grow st a)
    simp only [runLoop, List.foldl_cons, List.length_cons] at h1 h2 h3 h4 ⊢
    rw [h1, h2, h3, h4, loopBody_failed grow st a _ ha]
    push_cast
    simp only [if_true]
    refine ⟨by ring, by ring, by ring, ?_⟩
    trivial

/-- C13. Starting from all counters zero, if every attempt fails with the timeout
error, then after any number `k` of iterations of the worker loop
`reqError = k`, `timeout = k`, `totalReq = k` and `respOK = 0`. -/
theorem all_timeouts_counted_twice (grow : Nat → Nat) (now duration : Int)
    (as : List Attempt) (h : ∀ a ∈ as, a.outcome = .failed .ErrTimeout) :
    (runLoop grow (initState now duration) as).reqError = as.length ∧
    (runLoop grow (initState now duration) as).timeout = as.length ∧
    (runLoop grow (initState now duration) as).totalReq = as.length ∧
    (runLoop grow (initState now duration) as).respOK = 0 := by
  obtain ⟨h1, h2, h3, h4⟩ := runLoop_timeouts grow as h (initState now duration)
  rw [h1, h2, h3, h4]
  simp [initState]

/-- C13 on three attempts that time out after 10 s each. -/
theorem all_timeouts_counted_twice_witness :
    (∀ a ∈ [(⟨0, 10000000000, 10000000000, .failed .ErrTimeout⟩ : Attempt),
          ⟨10000000100, 20000000100, 20000000100, .failed .ErrTimeout⟩,
          ⟨20000000200, 30000000200, 30000000200, .failed .ErrTimeout⟩],
        a.outcome = .failed .ErrTimeout) ∧
    (runLoop (fun c => 2 * c) (initState 0 10)
        [⟨0, 10000000000, 10000000000, .failed .ErrTimeout⟩,
          ⟨10000000100, 20000000100, 20000000100, .failed .ErrTimeout⟩,
          ⟨20000000200, 30000000200, 30000000200, .failed .ErrTimeout⟩]).reqError = 3 ∧
    (runLoop (fun c => 2 * c) (initState 0 10)
        [⟨0, 10000000000, 10000000000, .failed .ErrTimeout⟩,
          ⟨10000000100, 20000000100, 20000000100, .failed .ErrTimeout⟩,
          ⟨20000000200, 30000000200, 30000000200, .failed .ErrTimeout⟩]).timeout = 3 := by
  have hall : ∀ a ∈ [(⟨0, 10000000000, 10000000000, .failed .ErrTimeout⟩ : Attempt),
          ⟨10000000100, 20000000100, 20000000100, .failed .ErrTimeout⟩,
          ⟨20000000200, 30000000200, 30000000200, .failed .ErrTimeout⟩],
        a.outcome = .failed .ErrTimeout := by
    intro a ha
    simp only [List.mem_cons, List.mem_singleton, List.not_mem_nil, or_false] at ha
    rcases ha with h | h | h <;> subst h <;> rfl
  have h := all_timeouts_counted_twice (fun c => 2 * c) 0 10 _ hall
  exact ⟨hall, h.1, h.2.1⟩

end Benchmark

/-! ## The ranks of the percentiles, and the renderers -/

namespace Histogram

open Binary64 (nearest)

theorem Milliseconds_mono {a b : Int} (h : a ≤ b) : Milliseconds a ≤ Milliseconds b := by
  unfold Milliseconds
  have key : ∀ x : Int, Int.tdiv x 1000000
      = if 0 ≤ x then x / 1000000 else -((-x) / 1000000) := by
    intro x
    split_ifs with hx
    · exact Int.tdiv_eq_ediv hx (by decide)
    · have : x = -(-x) := by ring
      rw [this, Int.neg_tdiv, Int.tdiv_eq_ediv (by omega) (by decide)]
      simp
  rw [key a, key b]
  split_ifs <;> omega

theorem sorted_getD_mono (l : List Int) (hs : l.Sorted (· ≤ ·)) {i j : Nat}
    (hij : i ≤ j) (hj : j < l.length) : l.getD i 0 ≤ l.getD j 0 := by
  have hi : i < l.length := lt_of_le_of_lt hij hj
  rw [List.getD_eq_getElem l 0 hi, List.getD_eq_getElem l 0 hj]
  exact hs.rel_get_of_le (a := ⟨i, hi⟩) (b := ⟨j, hj⟩) hij

theorem rank_mono (n : Nat) {p q : ℚ} (h : p ≤ q) : rank n p ≤ rank n q := by
  unfold rank
  have hn : (0 : ℚ) ≤ (n : ℚ) := by positivity
  have : ⌊(n : ℚ) * p + 0.5⌋ ≤ ⌊(n : ℚ) * q + 0.5⌋ :=
    Int.floor_le_floor (by nlinarith)
  exact max_le_max (le_refl _) (by omega)

theorem rank_tenth_le_half (n : Nat) : rank n 0.10 ≤ ((n / 2 : Nat) : Int) := by
  unfold rank
  have h1 : n ≤ 2 * (n / 2) + 1 := by omega
  generalize n / 2 = k at h1 ⊢
  have hk : (n : ℚ) ≤ 2 * (k : ℚ) + 1 := by exact_mod_cast h1
  have hk0 : (0 : ℚ) ≤ (k : ℚ) := by positivity
  have hfl : ⌊(n : ℚ) * 0.10 + 0.5⌋ < (k : Int) + 2 := by
    rw [Int.floor_lt]
    push_cast
    norm_num
    linarith
  apply max_le
  · positivity
  · omega

theorem half_le_rank_97 (n : Nat) (hn : 1 ≤ n) : ((n / 2 : Nat) : Int) ≤ rank n 0.97 := by
  unfold rank
  apply le_max_of_le_right
  have h1 : 2 * (n / 2) ≤ n := by omega
  have h0 : n = 1 → n / 2 = 0 := by intro h; subst h; rfl
  generalize n / 2 = k at h0 h1 ⊢
  have hfl : (k : Int) + 1 ≤ ⌊(n : ℚ) * 0.97 + 0.5⌋ := by
    rw [Int.le_floor]
    push_cast
    norm_num
    rcases Nat.lt_or_ge n 2 with h | h
    · have hn1 : n = 1 := by omega
      have hk0 : k = 0 := h0 hn1
      subst hn1 hk0
      norm_num
    · have hk : 2 * (k : ℚ) ≤ (n : ℚ) := by exact_mod_cast h1
      have h2 : (2 : ℚ) ≤ (n : ℚ) := by exact_mod_cast h
      linarith
  omega

/-- C18. For every sample count `n ≥ 1` the ranks satisfy
`0 ≤ r(0.01) ≤ r(0.10) ≤ n/2 ≤ r(0.97) ≤ r(0.99) ≤ n − 1`, with
`r(p) = max(0, floor(n·p + 0.5) − 1)`; and for every non-empty sequence of
recorded samples `CalcLatency` computes its metrics without a panic and the
reported percentiles satisfy `P1 ≤ P10 ≤ P50 ≤ P97 ≤ P99`. -/
theorem ranks_ordered_and_percentiles_monotone :
    (∀ n : Nat, 1 ≤ n →
      0 ≤ rank n 0.01 ∧ rank n 0.01 ≤ rank n 0.10 ∧
      rank n 0.10 ≤ ((n / 2 : Nat) : Int) ∧ ((n / 2 : Nat) : Int) ≤ rank n 0.97 ∧
      rank n 0.97 ≤ rank n 0.99 ∧ rank n 0.99 ≤ (n : Int) - 1) ∧
    (∀ (grow : Nat → Nat) (ts : List Int), ts ≠ [] →
      ∃ m, CalcLatency (recorded grow ts) = .ok (some m) ∧
        m.P1 ≤ m.P10 ∧ m.P10 ≤ m.P50 ∧ m.P50 ≤ m.P97 ∧ m.P97 ≤ m.P99) := by
  have ranks : ∀ n : Nat, 1 ≤ n →
      0 ≤ rank n 0.01 ∧ rank n 0.01 ≤ rank n 0.10 ∧
      rank n 0.10 ≤ ((n / 2 : Nat) : Int) ∧ ((n / 2 : Nat) : Int) ≤ rank n 0.97 ∧
      rank n 0.97 ≤ rank n 0.99 ∧ rank n 0.99 ≤ (n : Int) - 1 := by
    intro n hn
    have hb := rank_bounds n 0.99 hn (by norm_num)
    exact ⟨(rank_bounds n 0.01 hn (by norm_num)).1, rank_mono n (by norm_num),
      rank_tenth_le_half n, half_le_rank_97 n hn, rank_mono n (by norm_num), by omega⟩
  refine ⟨ranks, ?_⟩
  intro grow ts hne
  have hn : 1 ≤ (sortTimes ts).length := by
    rw [sortTimes_length]; exact List.length_pos.mpr hne
  obtain ⟨r0, r1, r2, r3, r4, r5⟩ := ranks (sortTimes ts).length hn
  have hs := sortTimes_sorted ts
  refine ⟨_, CalcLatency_recorded grow ts hne, ?_, ?_, ?_, ?_⟩ <;>
    simp only [metricsOf] <;>
    apply Milliseconds_mono <;>
    apply sorted_getD_mono _ hs <;>
    omega

/-- C18 at `n = 5` and at the samples 30 ms, 10 ms, 20 ms. -/
theorem ranks_ordered_and_percentiles_monotone_witness :
    ((1 : Nat) ≤ 5 ∧ ([30000000, 10000000, 20000000] : List Int) ≠ []) ∧
    (0 ≤ rank 5 0.01 ∧ rank 5 0.01 ≤ rank 5 0.10 ∧
      rank 5 0.10 ≤ ((5 / 2 : Nat) : Int) ∧ ((5 / 2 : Nat) : Int) ≤ rank 5 0.97 ∧
      rank 5 0.97 ≤ rank 5 0.99 ∧ rank 5 0.99 ≤ ((5 : Nat) : Int) - 1) ∧
    (∃ m, CalcLatency (recorded (fun c => 2 * c) [30000000, 10000000, 20000000])
        = .ok (some m) ∧
      m.P1 ≤ m.P10 ∧ m.P10 ≤ m.P50 ∧ m.P50 ≤ m.P97 ∧ m.P97 ≤ m.P99) :=
  ⟨⟨by decide, by simp⟩,
   ranks_ordered_and_percentiles_monotone.1 5 (by decide),
   ranks_ordered_and_percentiles_monotone.2 (fun c => 2 * c) _ (by simp)⟩

theorem fmtFixed_two (v : Int) : fmtFixed 2 v ++ "s" = toString v ++ ".00s" := by
  unfold fmtFixed
  rw [String.append_assoc, String.append_assoc]
  rfl

/-- C15 fails on the code above one second. Below 1000 ms `countDuration(c)` is
the decimal of `c` followed by "ms"; from 1000 ms on, the division `c/1000` is
the integer division of `int64`, made before the conversion to `float32`, so
the text is a whole number followed by ".00s": 1500 ms and 1999 ms are both
rendered "1.00s". -/
theorem countDuration_drops_subsecond_part :
    (∀ c : Int, c < 1000 → countDuration c = toString c ++ "ms") ∧
    (∀ c : Int, 1000 ≤ c →
      countDuration c = toString (float32OfInt (Int.tdiv c 1000)) ++ ".00s") ∧
    countDuration 999 = "999ms" ∧
    countDuration 1500 = "1.00s" ∧
    countDuration 1999 = "1.00s" := by
  refine ⟨?_, ?_, by decide, by decide, by decide⟩
  · intro c h
    simp [countDuration, h]
  · intro c h
    have h' : ¬ c < 1000 := by omega
    simp only [countDuration, h', if_false, ge_iff_le, h, if_true]
    exact fmtFixed_two _

/-- C14 fails on the code between 1000 and 1,000,000 bytes: `countReadBytes`
renders these sizes with `"%d KB"`, a whole number with no decimal place (1500
bytes give "1 KB"), where `countReadRequest` of `benchmark.go` renders "1.0 KB".
Below 1000 the size is rendered in bytes, and from 1,000,000 on as a number
with one decimal place followed by " MB". -/
theorem countReadBytes_KB_has_no_decimal :
    (∀ s : Int, s < 1000 → countReadBytes s = toString s ++ " B") ∧
    (∀ s : Int, 1000 ≤ s → s < 1000000 →
      countReadBytes s = toString (Int.tdiv s 1000) ++ " KB") ∧
    (∀ s : Int, 1000000 ≤ s →
      countReadBytes s = fmtFixed 1 (float32OfInt (Int.tdiv s 1000000)) ++ " MB") ∧
    countReadBytes 999 = "999 B" ∧
    countReadBytes 1500 = "1 KB" ∧
    '.' ∉ (countReadBytes 1500).toList ∧
    Benchmark.countReadRequest 1500 = "1.0 KB" ∧
    countReadBytes 2500000 = "2.0 MB" := by
  refine ⟨?_, ?_, ?_, by decide, by decide, by decide, by decide, by decide⟩
  · intro s h
    have h1 : ¬ s ≥ 1000000 := by omega
    have h2 : ¬ (s ≥ 1000 ∧ s < 1000000) := by omega
    simp only [countReadBytes, h1, h2, if_false]
  · intro s h h'
    have h1 : ¬ s ≥ 1000000 := by omega
    have h2 : s ≥ 1000 ∧ s < 1000000 := ⟨h, h'⟩
    simp only [countReadBytes, h1, h2, if_false, if_true, and_self]
  · intro s h
    have h1 : s ≥ 1000000 := h
    simp only [countReadBytes, h1, if_true]

/-- C19 fails on the code below 1000: `countRequest` of `benchmark.go` formats
`c/1000` in both branches, so every count from 0 to 999 is rendered "0", while
`countRequest` of `histogram.go` renders the decimal of `c`; for 5 requests the
summary line says "0" and the table "5". From 1000 on the two agree on the
decimal of `c/1000` followed by "k". -/
theorem countRequest_renderers_differ_below_1000 :
    Benchmark.countRequest 5 = "0" ∧
    countRequest 5 = "5" ∧
    (∀ c : Int, 0 ≤ c → c < 1000 → Benchmark.countRequest c = "0") ∧
    (∀ c : Int, c < 1000 → countRequest c = toString c) ∧
    (∀ c : Int, 1000 ≤ c →
      Benchmark.countRequest c = countRequest c ∧
      countRequest c = toString (Int.tdiv c 1000) ++ "k") := by
  refine ⟨by decide, by decide, ?_, ?_, ?_⟩
  · intro c h0 h
    simp only [Benchmark.countRequest, h, if_true, Int.tdiv_eq_zero_of_lt h0 h]
    rfl
  · intro c h
    simp only [countRequest, h, if_true]
  · intro c h
    have h' : ¬ c < 1000 := by omega
    have h'' : c ≥ 1000 := h
    simp only [Benchmark.countRequest, countRequest, h', h'', if_false, if_true, and_self]

end Histogram

/-! ## The shared counter under concurrent workers -/

namespace Benchmark

/-- C16 fails on the code: `totalReq++` is a plain read followed by a plain write.
With two workers that increment once each, the schedule in which both read
`totalReq` before either writes ends with every worker done and `totalReq = 1`,
not 2; the schedule that runs the workers one after the other ends with 2. -/
theorem totalReq_increment_can_be_lost :
    allDone (runSchedule (startWorkers 2 1) [0, 1, 0, 1]) ∧
    (runSchedule (startWorkers 2 1) [0, 1, 0, 1]).totalReq = 1 ∧
    allDone (runSchedule (startWorkers 2 1) [0, 0, 1, 1]) ∧
    (runSchedule (startWorkers 2 1) [0, 0, 1, 1]).totalReq = 2 := by
  have e1 : runSchedule (startWorkers 2 1) [0, 1, 0, 1]
      = { totalReq := 1, workers := [⟨0, .idle⟩, ⟨0, .idle⟩] } := by decide
  have e2 : runSchedule (startWorkers 2 1) [0, 0, 1, 1]
      = { totalReq := 2, workers := [⟨0, .idle⟩, ⟨0, .idle⟩] } := by decide
  rw [e1, e2]
  simp [allDone]

end Benchmark
